import Mathlib

/-!
# cpuset / cpuset_manager: a shallow embedding

Embedding of `source/cpuset.cpp` and `source/cpuset_manager.cpp`.

* `std::string` is `String`; the character loop of `parse_cpulist` runs over
  its list of characters.
* `cpuid_t` is `unsigned int`; values are `Nat`, reduced modulo `2 ^ 32` where
  a conversion to `cpuid_t` happens.
* Objects allocated with `new` live in a heap, a list of cells indexed by
  address; `delete` turns the cell into `none`. Addresses are not reused.
* Calls that leave the process (`mkdir`, `rmdir`, `mount`, `umount`, `chdir`,
  `system`) are recorded in a trace and answered by an environment.
* A thrown `std::runtime_error` is the outcome `raised`; an access to a
  destroyed object is the outcome `undefined`.
* Console output (`CPRINT`, `WARNING`, `REPORT`) is not part of the model.
-/

namespace Cpuset

/-! ## Errors -/

/-- One constructor per `throw` site (`CS_RUNTIME`, `CS_ERROR`, `CSM_RUNTIME`,
`UTIL_ERROR`) that the model reaches. -/
inductive Err where
  /-- `insert_cpu`: "0 length CPU list". -/
  | zero_length_cpu_list
  /-- `insert_cpu`: "Illegal CPU # %u". -/
  | illegal_cpu (cpu : Nat)
  /-- `parse_cpulist`, `IN_VALUE`, character that is no digit, `-` or `,`. -/
  | bad_cpu_list_char
  /-- `parse_cpulist`, `IN_RANGE` on `,` with no upper bound: "bad CPU range". -/
  | bad_cpu_range
  /-- `parse_cpulist`: "Illegal upper range CPU". -/
  | illegal_upper_range (cpu : Nat)
  /-- `parse_cpulist`: "malformatted CPU list". -/
  | malformatted
  /-- `parse_cpulist`, `NONE`: "Non-numerical while not parsing CPU". -/
  | non_numerical
  /-- `parse_cpulist`: "end of range with no value". -/
  | end_of_range_no_value
  /-- non-root constructor: "Don't know how many CPUs are in system". -/
  | no_cpu_count
  /-- root constructor: "To be used only once to create root cpuset!". -/
  | root_only_once
  /-- `utility::how_many_cpus`: "getting CPU count via sysconf". -/
  | cpu_count_failed
  /-- non-root constructor: "directory of parent not found?". -/
  | parent_dir_not_found
  /-- both constructors: "failed to create path". -/
  | mkdir_failed
  /-- root constructor: "Couldn't create root cpuset". -/
  | mount_failed
  /-- `add_cpulist_to_cpuset`: "failed adding CPUs". -/
  | adding_cpus_failed
  /-- `add_cpulist_to_cpuset`: "failed adding mems". -/
  | adding_mems_failed
  /-- non-root constructor: "configuring cpu_exclusive". -/
  | cpu_exclusive_failed
  /-- non-root constructor: "configuring mem_exclusive". -/
  | mem_exclusive_failed
  /-- non-root constructor: "configuring memory_migrate". -/
  | memory_migrate_failed
  /-- non-root constructor: "configuring notify on release". -/
  | notify_on_release_failed
  /-- `add_task`: "Failed adding task". -/
  | add_task_failed
  /-- `new_set`: "Already managing a cpuset with name ...: must have unique names". -/
  | already_managing (name : String)
  /-- `new_set`: "cannot find parent set with name ...". -/
  | cannot_find_parent (name parent : String)
  /-- `remove_set`: "Cannot delete root cpuset.  Sorry.". -/
  | cannot_delete_root
  /-- `remove_set`: "Cannot remove cpuset ...: not found". -/
  | cannot_remove_not_found (name : String)
  /-- `add_task_to_set`, `get_set`, `gimme_the_damn_set`: "Cannot get cpuset ...: not found". -/
  | cannot_get_not_found (name : String)
  deriving DecidableEq, Repr

/-! ## `parse_cpulist` -/

/-- Number of values of `cpuid_t` (`unsigned int`). -/
def CPUID_MOD : Nat := 2 ^ 32

/-- Largest `long` on the LP64 targets the code is built for. -/
def LONG_MAX : Nat := 2 ^ 63 - 1

/-- The test `(c >= '0') && (c <= '9')`. -/
def is_numeric (c : Char) : Bool := decide ('0' ≤ c) && decide (c ≤ '9')

/-- Value of the leading decimal digits of `s`, accumulated left to right. -/
def decimal_value : Nat → List Char → Nat
  | acc, [] => acc
  | acc, c :: cs =>
    if is_numeric c then decimal_value (acc * 10 + (c.toNat - '0'.toNat)) cs else acc

/-- The C library's `strtol(s, 0, 10)` on a string without sign or leading blanks
(the only strings the parser passes): the decimal value, clamped to `LONG_MAX`. -/
def strtol (s : List Char) : Nat := min (decimal_value 0 s) LONG_MAX

/-- The C library's `atoi`, which is `(int) strtol(s, 0, 10)`: the low 32 bits
read as a signed number. -/
def atoi (s : List Char) : Int :=
  let low := strtol s % CPUID_MOD
  if low < 2 ^ 31 then (low : Int) else (low : Int) - (CPUID_MOD : Int)

/-- Conversion of a signed integer to `unsigned int`: `static_cast<cpuid_t>`, the
implicit conversion in `cpu = atoi(...)`, `static_cast<unsigned>(count)` and the
reading of a `pid_t` by `"%u"`. -/
def to_unsigned (i : Int) : Nat := (i % (CPUID_MOD : Int)).toNat

/-- `cpuset::bad_cpu`. -/
def bad_cpu (number_cpus_ : Nat) (cpu_num : Nat) : Bool := decide (cpu_num ≥ number_cpus_)

/-- `cpuset::insert_cpu`: returns the CPU and the extended `CPUs_`. -/
def insert_cpu (number_cpus_ : Nat) (cpu_string : List Char) (CPUs : List Nat) :
    Except Err (Nat × List Nat) :=
  if cpu_string.length = 0 then .error .zero_length_cpu_list
  else
    let cpu := to_unsigned (atoi cpu_string)
    if cpu ≥ number_cpus_ then .error (.illegal_cpu cpu)
    else .ok (cpu, CPUs ++ [cpu])

/-- The local `enum cpu_state` of `parse_cpulist`. -/
inductive cpu_state where
  | NONE
  | IN_VALUE
  | IN_RANGE
  deriving DecidableEq, Repr

/-- The variables of `parse_cpulist` that live across loop iterations, together
with `CPUs_`. -/
structure parse_vars where
  cpu : Nat
  cpu_string : List Char
  numeric : Bool
  state : cpu_state
  CPUs : List Nat
  deriving DecidableEq, Repr

/-- Values on entry of the loop; `CPUs_` is the constructor's empty vector. -/
def parse_init : parse_vars :=
  { cpu := 0, cpu_string := [], numeric := false, state := .NONE, CPUs := [] }

/-- The loop `for ( ; low_cpu <= cpu; ++low_cpu) CPUs_->push_back(low_cpu)`.
Both call sites run it with `cpu < number_cpus_`, so `low_cpu` does not wrap. -/
def push_range (low_cpu cpu : Nat) (CPUs : List Nat) : List Nat :=
  CPUs ++ List.range' low_cpu (cpu + 1 - low_cpu)

/-- One iteration of the character loop of `parse_cpulist`. -/
def parse_step (number_cpus_ : Nat) (v : parse_vars) (c : Char) : Except Err parse_vars :=
  let numeric := is_numeric c
  match v.state with
  | .IN_VALUE =>
    if numeric then
      .ok { v with numeric := numeric, cpu_string := v.cpu_string ++ [c] }
    else if c = '-' then
      match insert_cpu number_cpus_ v.cpu_string v.CPUs with
      | .error e => .error e
      | .ok (cpu, CPUs) =>
        .ok { cpu := cpu, cpu_string := [], numeric := numeric, state := .IN_RANGE, CPUs := CPUs }
    else if c = ',' then
      match insert_cpu number_cpus_ v.cpu_string v.CPUs with
      | .error e => .error e
      | .ok (cpu, CPUs) =>
        .ok { cpu := cpu, cpu_string := [], numeric := numeric, state := .NONE, CPUs := CPUs }
    else .error .bad_cpu_list_char
  | .IN_RANGE =>
    if numeric then
      .ok { v with numeric := numeric, cpu_string := v.cpu_string ++ [c] }
    else if c = ',' then
      if v.cpu_string.length = 0 then .error .bad_cpu_range
      else
        let low_cpu := v.cpu
        let cpu := to_unsigned (atoi v.cpu_string)
        if bad_cpu number_cpus_ cpu then .error (.illegal_upper_range cpu)
        else
          .ok { cpu := cpu, cpu_string := [], numeric := numeric, state := .NONE,
                CPUs := push_range low_cpu cpu v.CPUs }
    else .error .malformatted
  | .NONE =>
    if numeric then
      .ok { v with numeric := numeric, cpu_string := v.cpu_string ++ [c], state := .IN_VALUE }
    else .error .non_numerical

/-- The character loop of `parse_cpulist`. -/
def parse_chars (number_cpus_ : Nat) : parse_vars → List Char → Except Err parse_vars
  | v, [] => .ok v
  | v, c :: cs =>
    match parse_step number_cpus_ v c with
    | .error e => .error e
    | .ok v' => parse_chars number_cpus_ v' cs

/-- The `switch (state)` after the loop: "What we were doing when string ended?". -/
def parse_finish (number_cpus_ : Nat) (v : parse_vars) : Except Err (List Nat) :=
  match v.state with
  | .IN_VALUE =>
    match insert_cpu number_cpus_ v.cpu_string v.CPUs with
    | .error e => .error e
    | .ok (_, CPUs) => .ok CPUs
  | .IN_RANGE =>
    if v.numeric then
      let low_cpu := v.cpu + 1
      let cpu := to_unsigned (atoi v.cpu_string)
      if bad_cpu number_cpus_ cpu then .error (.illegal_upper_range cpu)
      else .ok (push_range low_cpu cpu v.CPUs)
    else .error .end_of_range_no_value
  | .NONE => .error .malformatted

/-- What `sprintf` puts into `digits` for element `i`: `"%u,"` when another
element follows, `"%u"` for the last one. -/
def digits (CPUs : List Nat) (i : Nat) : String :=
  let cpu := CPUs.getD i 0
  if i + 1 < CPUs.length then Nat.repr cpu ++ "," else Nat.repr cpu

/-- The serialisation loop at the end of `parse_cpulist`, filling `*cpu_list`. -/
def serialise (CPUs : List Nat) : String :=
  (List.range CPUs.length).foldl (fun cpu_list i => cpu_list ++ digits CPUs i) ""

/-- `cpuset::parse_cpulist` on a freshly constructed node: the resulting `CPUs_`
and the string stored through `cpu_list`. -/
def parse_cpulist (number_cpus_ : Nat) (cpus : String) : Except Err (List Nat × String) :=
  match parse_chars number_cpus_ parse_init cpus.toList with
  | .error e => .error e
  | .ok v =>
    match parse_finish number_cpus_ v with
    | .error e => .error e
    | .ok CPUs => .ok (CPUs, serialise CPUs)

/-! ## Nodes, heap and the outside world -/

/-- Data members of `class cpuset`. Pointers are heap addresses; the null
pointer is `none`. `pid_t` is a signed integer. -/
structure cpuset where
  name_ : String
  path_ : String
  CPUs_ : List Nat
  pids_ : List Int
  cpu_is_exclusive_ : Bool
  mem_is_exclusive_ : Bool
  migrate_memory_ : Bool
  notify_on_release_ : Bool
  parent_ : Option Nat
  children_ : List Nat
  deriving DecidableEq, Repr

/-- Calls that leave the process. -/
inductive Op where
  /-- `mkdir(path, 0755)`. -/
  | mkdir (path : String)
  /-- `rmdir(path)`. -/
  | rmdir (path : String)
  /-- `mount(source, target, "cpuset", 0, 0)`. -/
  | mount (source target : String)
  /-- `umount(path)`. -/
  | umount (path : String)
  /-- `chdir(path)`. -/
  | chdir (path : String)
  /-- `system(cmd)`. -/
  | system (cmd : String)
  deriving DecidableEq, Repr

/-- The outside world as the code sees it. `ret` answers a call from the calls
issued before it and the call itself: `0` for success, otherwise the `errno` of
the failure (for `system`, its non-zero status). `nprocessors_onln` is what
`sysconf(_SC_NPROCESSORS_ONLN)` returns. -/
structure Env where
  ret : List Op → Op → Nat
  nprocessors_onln : Int

/-- Process state outside the manager object: the heap of `cpuset` objects, the
static `cpuset::number_cpus_`, and the calls issued so far (oldest first). -/
structure World where
  heap : List (Option cpuset)
  number_cpus_ : Nat
  trace : List Op
  deriving DecidableEq, Repr

/-- Outcome of running a piece of code: normal return, a thrown exception (the
world as the `throw` left it), or an access to an object that is not alive. -/
inductive Result (α : Type) where
  | ok (a : α) (w : World)
  | raised (e : Err) (w : World)
  | undefined
  deriving DecidableEq, Repr

/-- Issue a call: record it and obtain its return value. -/
def call (env : Env) (w : World) (op : Op) : Nat × World :=
  (env.ret w.trace op, { w with trace := w.trace ++ [op] })

/-- The object at address `p`, when it is alive. -/
def World.deref (w : World) (p : Nat) : Option cpuset :=
  match w.heap[p]? with
  | some (some node) => some node
  | _ => none

/-- `cpuset_constants::ROOT_NAME`. -/
def ROOT_NAME : String := "root"

/-- The anonymous-namespace constant `ROOT_LABEL`. -/
def ROOT_LABEL : String := "cpuset_thingie"

/-- The anonymous-namespace constant `CPUSET_PATH`. -/
def CPUSET_PATH : String := "/dev/cpuset/"

/-- The anonymous-namespace constant `DIR_EXISTS_COMMAND`. -/
def DIR_EXISTS_COMMAND : String := "test -d "

/-- The anonymous-namespace constant `ECHO`. -/
def ECHO : String := "/bin/echo "

/-- The anonymous-namespace constant `ECHO_ON`. -/
def ECHO_ON : String := ECHO ++ "1 > "

/-- The anonymous-namespace constant `ECHO_OFF`. -/
def ECHO_OFF : String := ECHO ++ "0 > "

/-- The enumerator `TRIES`. -/
def TRIES : Nat := 3

/-- The value of `EEXIST` on Linux. -/
def EEXIST : Nat := 17

/-- `utility::how_many_cpus`: fails when `sysconf` returns `-1`, otherwise
`static_cast<unsigned>(count)`. -/
def how_many_cpus (env : Env) : Except Err Nat :=
  if env.nprocessors_onln = -1 then .error .cpu_count_failed
  else .ok (to_unsigned env.nprocessors_onln)

/-- `cpuset::remove_root_cpuset`: `umount` then `rmdir`; failures are reported,
not thrown. -/
def remove_root_cpuset (env : Env) (path_ : String) (w : World) : World :=
  let w1 := (call env w (.umount path_)).2
  (call env w1 (.rmdir path_)).2

/-- How the `try_again:` loop of the root constructor is left. -/
inductive RootDir where
  /-- `mkdir` succeeded. -/
  | created (w : World)
  /-- "Screw it, we'll just use it": the constructor returns. -/
  | use_existing (w : World)
  /-- `mkdir` failed with something other than `EEXIST`. -/
  | failed (w : World)
  deriving DecidableEq, Repr

/-- The `try_again:` loop of the root constructor. `tries` is the local
variable; the first argument bounds the number of passes through the label and
`TRIES` passes are always enough. -/
def try_again (env : Env) (path_ : String) : Nat → Nat → World → RootDir
  | 0, _, w => .failed w
  | fuel + 1, tries, w =>
    let (ret, w1) := call env w (.mkdir path_)
    if ret ≠ 0 then
      if ret = EEXIST then
        let tries := tries + 1
        if tries < TRIES then
          try_again env path_ fuel tries (remove_root_cpuset env path_ w1)
        else .use_existing w1
      else .failed w1
    else .created w1

/-- The object the root constructor's initialiser list builds. -/
def root_node : cpuset :=
  { name_ := ROOT_NAME, path_ := CPUSET_PATH, CPUs_ := [], pids_ := [],
    cpu_is_exclusive_ := true, mem_is_exclusive_ := true,
    migrate_memory_ := false, notify_on_release_ := false,
    parent_ := none, children_ := [] }

/-- `new cpuset()`: the root constructor. Returns the address of the object. -/
def cpuset_root (env : Env) (w : World) : Result Nat :=
  if w.number_cpus_ ≠ 0 then .raised .root_only_once w
  else
    match how_many_cpus env with
    | .error e => .raised e w
    | .ok n =>
      let w0 := { w with number_cpus_ := n }
      match try_again env root_node.path_ TRIES 0 w0 with
      | .failed w1 => .raised .mkdir_failed w1
      | .use_existing w1 =>
        .ok w1.heap.length { w1 with heap := w1.heap ++ [some root_node] }
      | .created w1 =>
        let (ret, w2) := call env w1 (.mount ROOT_LABEL root_node.path_)
        if ret ≠ 0 then .raised .mount_failed w2
        else
          let node := { root_node with CPUs_ := List.range n }
          .ok w2.heap.length { w2 with heap := w2.heap ++ [some node] }

/-- The local `cmd` of `add_cpulist_to_cpuset`: the write to the `cpus` entry. -/
def cpus_cmd (path_ cpulist : String) : String := ECHO ++ cpulist ++ " > " ++ path_ ++ "cpus"

/-- The local `mem_cmd` of `add_cpulist_to_cpuset`: the write to the `mems` entry. -/
def mems_cmd (path_ cpulist : String) : String := ECHO ++ cpulist ++ " > " ++ path_ ++ "mems"

/-- `cpuset::add_cpulist_to_cpuset`: the `cpus` write, then the `mems` write. -/
def add_cpulist_to_cpuset (env : Env) (path_ : String) (cpulist : String) (w : World) :
    Except (Err × World) World :=
  let cmd := cpus_cmd path_ cpulist
  let mem_cmd := mems_cmd path_ cpulist
  let (ret, w1) := call env w (.system cmd)
  if ret ≠ 0 then .error (.adding_cpus_failed, w1)
  else
    let (ret, w2) := call env w1 (.system mem_cmd)
    if ret ≠ 0 then .error (.adding_mems_failed, w2)
    else .ok w2

/-- The command of one flag write: `ECHO_ON`/`ECHO_OFF` + path + entry name. -/
def flag_cmd (value : Bool) (path_ : String) (entry : String) : String :=
  (if value then ECHO_ON else ECHO_OFF) ++ path_ ++ entry

/-- `new cpuset(name, cpus, parent_cpuset, ...)`: the non-root constructor.
Returns the address of the object. -/
def cpuset_new (env : Env) (name cpus : String) (parent_cpuset : Option Nat)
    (cpu_is_exclusive mem_is_exclusive migrate_memory notify_on_release : Bool)
    (w : World) : Result Nat :=
  if w.number_cpus_ = 0 then .raised .no_cpu_count w
  else
    -- base_path((parent_ ? parent_->path() : CPUSET_PATH))
    let base? : Option String :=
      match parent_cpuset with
      | some p => (w.deref p).map (·.path_)
      | none => some CPUSET_PATH
    match base? with
    | none => .undefined
    | some base_path =>
      let path_ := base_path ++ name ++ "/"
      let (ret, w1) := call env w (.system (DIR_EXISTS_COMMAND ++ base_path))
      if ret ≠ 0 then
        -- the message reads parent_->name()
        match parent_cpuset with
        | some _ => .raised .parent_dir_not_found w1
        | none => .undefined
      else
        match parse_cpulist w.number_cpus_ cpus with
        | .error e => .raised e w1
        | .ok (CPUs, cpulist_parsed) =>
          let (ret, w2) := call env w1 (.mkdir path_)
          if ret ≠ 0 then .raised .mkdir_failed w2
          else
            match add_cpulist_to_cpuset env path_ cpulist_parsed w2 with
            | .error (e, w3) =>
              -- catch block: rmdir, then rethrow
              .raised e (call env w3 (.rmdir path_)).2
            | .ok w3 =>
              let (ret, w4) := call env w3 (.system (flag_cmd cpu_is_exclusive path_ "cpu_exclusive"))
              if ret ≠ 0 then .raised .cpu_exclusive_failed w4
              else
                let (ret, w5) := call env w4 (.system (flag_cmd mem_is_exclusive path_ "mem_exclusive"))
                if ret ≠ 0 then .raised .mem_exclusive_failed w5
                else
                  let (ret, w6) := call env w5 (.system (flag_cmd migrate_memory path_ "memory_migrate"))
                  if ret ≠ 0 then .raised .memory_migrate_failed w6
                  else
                    let (ret, w7) := call env w6 (.system (flag_cmd notify_on_release path_ "notify_on_release"))
                    if ret ≠ 0 then .raised .notify_on_release_failed w7
                    else
                      -- parent_->children_.push_back(this)
                      match parent_cpuset with
                      | none => .undefined
                      | some p =>
                        match w7.deref p with
                        | none => .undefined
                        | some parent =>
                          let this := w7.heap.length
                          let node : cpuset :=
                            { name_ := name, path_ := path_, CPUs_ := CPUs, pids_ := [],
                              cpu_is_exclusive_ := cpu_is_exclusive,
                              mem_is_exclusive_ := mem_is_exclusive,
                              migrate_memory_ := migrate_memory,
                              notify_on_release_ := notify_on_release,
                              parent_ := parent_cpuset, children_ := [] }
                          let parent1 := { parent with children_ := parent.children_ ++ [this] }
                          .ok this
                            { w7 with heap := w7.heap.set p (some parent1) ++ [some node] }

/-- `cpuset::add_task` on the object at address `this`. `"%u"` prints the
`pid_t` converted to `unsigned`. -/
def add_task (env : Env) (this : Nat) (pid : Int) (w : World) : Result Unit :=
  match w.deref this with
  | none => .undefined
  | some node =>
    let cmd := ECHO ++ Nat.repr (to_unsigned pid) ++ " > tasks"
    let (ret, w1) := call env w (.system cmd)
    if ret ≠ 0 then .raised .add_task_failed w1
    else
      .ok () { w1 with heap := w1.heap.set this (some { node with pids_ := node.pids_ ++ [pid] }) }

/-- `delete p`: the destructor `cpuset::~cpuset` followed by the release of the
object. Children are deleted first, in the order of `children_`; then
`chdir("/")`, then `rmdir` of the own path (after `umount` for the root). No
failure of a call is thrown. `none` is undefined behaviour: `p` or a node below
it is not alive. The first argument bounds the nesting depth of the recursion;
`delete_cpuset` supplies the number of heap cells. -/
def cpuset_delete (env : Env) : Nat → Nat → World → Option World
  | 0, _, _ => none
  | fuel + 1, p, w =>
    match w.deref p with
    | none => none
    | some node =>
      match node.children_.foldlM (fun w1 i => cpuset_delete env fuel i w1) w with
      | none => none
      | some w1 =>
        -- the members are read after the children are gone
        match w1.deref p with
        | none => none
        | some node1 =>
          let w2 := (call env w1 (.chdir "/")).2
          let w3 :=
            if node1.parent_.isSome then (call env w2 (.rmdir node1.path_)).2
            else remove_root_cpuset env node1.path_ w2
          some { w3 with heap := w3.heap.set p none }

/-- The statement `delete p`. -/
def delete_cpuset (env : Env) (p : Nat) (w : World) : Option World :=
  cpuset_delete env w.heap.length p w

/-- The calls a non-root constructor issues when none of them fails, in the
order of the source: parent test, `mkdir`, `cpus`, `mems`, then the four flag
writes. -/
def create_calls (parent_path name cpulist : String) (a b c d : Bool) : List Op :=
  [.system (DIR_EXISTS_COMMAND ++ parent_path),
   .mkdir (parent_path ++ name ++ "/"),
   .system (cpus_cmd (parent_path ++ name ++ "/") cpulist),
   .system (mems_cmd (parent_path ++ name ++ "/") cpulist),
   .system (flag_cmd a (parent_path ++ name ++ "/") "cpu_exclusive"),
   .system (flag_cmd b (parent_path ++ name ++ "/") "mem_exclusive"),
   .system (flag_cmd c (parent_path ++ name ++ "/") "memory_migrate"),
   .system (flag_cmd d (parent_path ++ name ++ "/") "notify_on_release")]

/-- The errors of the four flag writes, in the order of the writes. -/
def flag_errors : List Err :=
  [.cpu_exclusive_failed, .mem_exclusive_failed, .memory_migrate_failed,
   .notify_on_release_failed]

/-- The declared length of the scratch buffer in the serialisation loop:
`char digits[cpu / 10 + 1 + 1]`. -/
def digits_size (cpu : Nat) : Nat := cpu / 10 + 1 + 1

/-- The world in which the `try_again:` loop is left. -/
def RootDir.world : RootDir → World
  | .created w => w
  | .use_existing w => w
  | .failed w => w

/-- Whether a call is a `mkdir`. -/
def Op.is_mkdir : Op → Bool
  | .mkdir _ => true
  | _ => false

/-! ## `cpuset_manager` -/

/-- `cpuset_map_t`, a `std::map<std::string, cpuset *>`, as an association
list. -/
abbrev cpuset_map_t := List (String × Nat)

/-- `std::map::find`: the pointer stored under `k`, if any. -/
def map_find (m : cpuset_map_t) (k : String) : Option Nat := m.lookup k

/-- `std::map::count`. -/
def map_count (m : cpuset_map_t) (k : String) : Nat :=
  if (map_find m k).isSome then 1 else 0

/-- `m[k] = v`: overwrite the pointer stored under `k`, or add the pair. -/
def map_assign : cpuset_map_t → String → Nat → cpuset_map_t
  | [], k, v => [(k, v)]
  | (k1, v1) :: rest, k, v =>
    if k1 = k then (k, v) :: rest else (k1, v1) :: map_assign rest k v

/-- `std::map::erase` of the element found under `k`; keys of a `std::map` are
unique, so no pair with key `k` remains. -/
def map_erase (m : cpuset_map_t) (k : String) : cpuset_map_t :=
  m.filter (fun kv => kv.1 ≠ k)

/-- Data members of `class cpuset_manager`. -/
structure cpuset_manager where
  cpu_count_ : Nat
  root_ : Nat
  set_map_ : cpuset_map_t
  deriving DecidableEq, Repr

/-- `cpuset_manager::cpuset_manager`. No initialiser and no statement assigns
`cpu_count_`; `indeterminate` is the value the member happens to hold. -/
def cpuset_manager_new (env : Env) (indeterminate : Nat) (w : World) : Result cpuset_manager :=
  match cpuset_root env w with
  | .undefined => .undefined
  | .raised e w1 => .raised e w1
  | .ok root_ w1 =>
    match w1.deref root_ with
    | none => .undefined
    | some root =>
      .ok { cpu_count_ := indeterminate, root_ := root_,
            set_map_ := map_assign [] root.name_ root_ } w1

/-- `cpuset_manager::new_set`. On `raised` no member of the manager has been
assigned. -/
def new_set (env : Env) (m : cpuset_manager) (w : World) (name cpus parent_cpuset_name : String)
    (cpu_is_exclusive mem_is_exclusive migrate_memory notify_on_release : Bool) :
    Result cpuset_manager :=
  if map_count m.set_map_ name ≠ 0 then .raised (.already_managing name) w
  else
    match map_find m.set_map_ parent_cpuset_name with
    | none => .raised (.cannot_find_parent name parent_cpuset_name) w
    | some parent =>
      match cpuset_new env name cpus (some parent) cpu_is_exclusive mem_is_exclusive
          migrate_memory notify_on_release w with
      | .undefined => .undefined
      | .raised e w1 => .raised e w1
      | .ok set w1 => .ok { m with set_map_ := map_assign m.set_map_ name set } w1

/-- `cpuset_manager::add_task_to_set`. The manager is not modified. -/
def add_task_to_set (env : Env) (m : cpuset_manager) (w : World) (name : String) (process : Int) :
    Result Unit :=
  match map_find m.set_map_ name with
  | none => .raised (.cannot_get_not_found name) w
  | some s => add_task env s process w

/-- `cpuset_manager::remove_set`. On `raised` no member of the manager has been
assigned. -/
def remove_set (env : Env) (m : cpuset_manager) (w : World) (cpuset_name : String) :
    Result cpuset_manager :=
  match w.deref m.root_ with
  | none => .undefined
  | some root =>
    if cpuset_name = root.name_ then .raised .cannot_delete_root w
    else
      match map_find m.set_map_ cpuset_name with
      | none => .raised (.cannot_remove_not_found cpuset_name) w
      | some s =>
        match delete_cpuset env s w with
        | none => .undefined
        | some w1 => .ok { m with set_map_ := map_erase m.set_map_ cpuset_name } w1

/-- `cpuset_manager::get_set`: the address the returned reference is bound to. -/
def get_set (m : cpuset_manager) (w : World) (cpuset_name : String) : Result Nat :=
  match map_find m.set_map_ cpuset_name with
  | none => .raised (.cannot_get_not_found cpuset_name) w
  | some s => .ok s w

/-- `cpuset_manager::gimme_the_damn_set`. -/
def gimme_the_damn_set (m : cpuset_manager) (w : World) (cpuset_name : String) : Result Nat :=
  match map_find m.set_map_ cpuset_name with
  | none => .raised (.cannot_get_not_found cpuset_name) w
  | some s => .ok s w

/-- `cpuset_manager::~cpuset_manager`: `delete root_`. -/
def cpuset_manager_delete (env : Env) (m : cpuset_manager) (w : World) : Option World :=
  delete_cpuset env m.root_ w

/-- The accessor `cpuset_manager::how_many_cpus`: `return cpu_count_`. -/
def cpuset_manager.how_many_cpus (m : cpuset_manager) : Nat := m.cpu_count_

/-! ## Sequences of calls on a manager -/

/-- A call of one of the mutating member functions of `cpuset_manager`. -/
inductive Cmd where
  | new_set (name cpus parent_cpuset_name : String)
      (cpu_is_exclusive mem_is_exclusive migrate_memory notify_on_release : Bool)
  | add_task_to_set (name : String) (process : Int)
  | remove_set (cpuset_name : String)
  deriving DecidableEq, Repr

/-- Run one call whose exception, if any, the caller catches. `none` when the
call has undefined behaviour. -/
def step (env : Env) (mw : cpuset_manager × World) : Cmd → Option (cpuset_manager × World)
  | .new_set name cpus parent a b c d =>
    match new_set env mw.1 mw.2 name cpus parent a b c d with
    | .ok m1 w1 => some (m1, w1)
    | .raised _ w1 => some (mw.1, w1)
    | .undefined => none
  | .add_task_to_set name process =>
    match add_task_to_set env mw.1 mw.2 name process with
    | .ok _ w1 => some (mw.1, w1)
    | .raised _ w1 => some (mw.1, w1)
    | .undefined => none
  | .remove_set name =>
    match remove_set env mw.1 mw.2 name with
    | .ok m1 w1 => some (m1, w1)
    | .raised _ w1 => some (mw.1, w1)
    | .undefined => none

/-- Run a sequence of calls, first to last. -/
def run (env : Env) : cpuset_manager × World → List Cmd → Option (cpuset_manager × World)
  | mw, [] => some mw
  | mw, c :: cs =>
    match step env mw c with
    | none => none
    | some mw1 => run env mw1 cs

/-- The process before any `cpuset` exists: empty heap, `number_cpus_` still
`0`, no call issued. -/
def World.initial : World := { heap := [], number_cpus_ := 0, trace := [] }

/-- States a program can be in after it has constructed its manager and called
member functions on it, none of them with undefined behaviour. -/
def Reachable (env : Env) (mw : cpuset_manager × World) : Prop :=
  ∃ indeterminate m0 w0 cmds,
    cpuset_manager_new env indeterminate World.initial = .ok m0 w0 ∧
    run env (m0, w0) cmds = some mw

/-- The four flags as the accessors return them. -/
def cpuset.flags (node : cpuset) : Bool × Bool × Bool × Bool :=
  (node.cpu_is_exclusive_, node.mem_is_exclusive_, node.migrate_memory_, node.notify_on_release_)

/-- Whether a call on the manager is a `new_set`. -/
def Cmd.is_new_set : Cmd → Bool
  | .new_set _ _ _ _ _ _ _ => true
  | _ => false

/-! ## Relations and invariants used in the proofs -/

/-- No live node has `r` among its `children_`. -/
def no_child (r : Nat) (w : World) : Prop :=
  ∀ q node, w.deref q = some node → r ∉ node.children_

/-- The root pointer of the manager addresses a live node named `ROOT_NAME`,
only the key `ROOT_NAME` is mapped to it, and it is nobody's child. -/
def root_invariant (mw : cpuset_manager × World) : Prop :=
  (∃ root, mw.2.deref mw.1.root_ = some root ∧ root.name_ = ROOT_NAME) ∧
  (∀ k, map_find mw.1.set_map_ k = some mw.1.root_ → k = ROOT_NAME) ∧
  no_child mw.1.root_ mw.2

/-- A heap cell after some steps: destroyed, or still alive with the flags it
had. -/
def cell_keeps_flags (c c1 : Option cpuset) : Prop :=
  c1 = none ∨ ∃ node node1, c = some node ∧ c1 = some node1 ∧ node1.flags = node.flags

/-- Every cell of the first heap is a cell of the second, destroyed or with its
flags unchanged. -/
def heap_keeps_flags (w w1 : World) : Prop :=
  ∀ (q : Nat) (c : Option cpuset), w.heap[q]? = some c →
    ∃ c1, w1.heap[q]? = some c1 ∧ cell_keeps_flags c c1

/-- The address `q` is reached from `p` through `children_` links of live
nodes. -/
inductive Reach (w : World) : Nat → Nat → Prop where
  | refl (p : Nat) : Reach w p p
  | step {p q c : Nat} {node : cpuset} :
      Reach w p q → w.deref q = some node → c ∈ node.children_ → Reach w p c

/-- The state of a manager after creates only: every heap cell is alive, is
reached from the root and has valid children; the map holds exactly the pairs
of a node's name and address; names are not shared. -/
def create_invariant (mw : cpuset_manager × World) : Prop :=
  mw.1.root_ < mw.2.heap.length ∧
  (∀ q : Nat, q < mw.2.heap.length → ∃ node, mw.2.deref q = some node) ∧
  (∀ q : Nat, q < mw.2.heap.length → Reach mw.2 mw.1.root_ q) ∧
  (∀ (q : Nat) (node : cpuset), mw.2.deref q = some node →
    ∀ c ∈ node.children_, c < mw.2.heap.length) ∧
  (∀ (k : String) (p : Nat), map_find mw.1.set_map_ k = some p ↔
    ∃ node, mw.2.deref p = some node ∧ node.name_ = k) ∧
  (∀ (p q : Nat) (node node1 : cpuset), mw.2.deref p = some node →
    mw.2.deref q = some node1 → node.name_ = node1.name_ → p = q)

/-! ## Subtrees of the heap -/

/-- A node at address `p` holding `data`, with the subtrees of its children in
the order of `children_`. -/
inductive Subtree where
  | node (p : Nat) (data : cpuset) (kids : List Subtree)

/-- Address of the top node. -/
def Subtree.addr : Subtree → Nat
  | .node p _ _ => p

/-- Object at the top node. -/
def Subtree.data : Subtree → cpuset
  | .node _ data _ => data

/-- Subtrees of the children of the top node. -/
def Subtree.kids : Subtree → List Subtree
  | .node _ _ kids => kids

mutual
/-- Addresses of all nodes of a subtree. -/
def Subtree.addrs : Subtree → List Nat
  | .node p _ kids => p :: addrs_all kids
/-- Addresses of all nodes of a list of subtrees. -/
def addrs_all : List Subtree → List Nat
  | [] => []
  | t :: ts => t.addrs ++ addrs_all ts
end

mutual
/-- Number of levels of a subtree. -/
def Subtree.depth : Subtree → Nat
  | .node _ _ kids => depth_all kids + 1
/-- Largest number of levels among a list of subtrees. -/
def depth_all : List Subtree → Nat
  | [] => 0
  | t :: ts => max t.depth (depth_all ts)
end

mutual
/-- The heap of `w` holds the subtree: every node is alive at its address with
the recorded members, and its `children_` are the addresses of its children's
subtrees, in order. -/
def Subtree.in_heap (w : World) : Subtree → Prop
  | .node p data kids =>
    w.deref p = some data ∧ data.children_ = kids.map Subtree.addr ∧ in_heap_all w kids
/-- Every subtree of the list is held by the heap of `w`. -/
def in_heap_all (w : World) : List Subtree → Prop
  | [] => True
  | t :: ts => t.in_heap w ∧ in_heap_all w ts
end

mutual
/-- Nodes of a subtree in post-order: the nodes of each child's subtree, child
after child, then the node itself. -/
def Subtree.post_order : Subtree → List cpuset
  | .node _ data kids => post_order_all kids ++ [data]
/-- Post-order of a list of subtrees, one after the other. -/
def post_order_all : List Subtree → List cpuset
  | [] => []
  | t :: ts => t.post_order ++ post_order_all ts
end

mutual
/-- The destruction order in the words of the specification: destroy each child
in turn; then change the working directory away; then, for a node with a
parent, remove its directory, and for the root, unmount and then remove it. -/
def Subtree.teardown_calls : Subtree → List Op
  | .node _ data kids =>
    teardown_calls_all kids ++ [.chdir "/"] ++
      (if data.parent_.isSome then [.rmdir data.path_]
       else [.umount data.path_, .rmdir data.path_])
/-- Destruction of a list of subtrees, one after the other. -/
def teardown_calls_all : List Subtree → List Op
  | [] => []
  | t :: ts => t.teardown_calls ++ teardown_calls_all ts
end

/-- The paths of the `rmdir` calls of a trace, in order. -/
def rmdir_paths : List Op → List String
  | [] => []
  | .rmdir path :: rest => path :: rmdir_paths rest
  | _ :: rest => rmdir_paths rest

/-- The world `w1` is `w` after the nodes at `addrs` have been destroyed with the
calls `calls`: the calls are appended to the trace, the cells at `addrs` are
destroyed, every other cell and `number_cpus_` are as before. -/
def torn_down (addrs : List Nat) (calls : List Op) (w w1 : World) : Prop :=
  w1.trace = w.trace ++ calls ∧ w1.number_cpus_ = w.number_cpus_ ∧
    w1.heap.length = w.heap.length ∧
    (∀ q : Nat, q ∈ addrs → w1.heap[q]? = some none) ∧
    (∀ q : Nat, q ∉ addrs → w1.heap[q]? = w.heap[q]?)

/-! ## Concrete environments and states -/

/-- A machine with 8 CPUs on which every call succeeds. -/
def env_ok : Env := { ret := fun _ _ => 0, nprocessors_onln := 8 }

/-- As `env_ok`, except that the write to the `cpus` entry of `/dev/cpuset/A/`
fails. -/
def env_cpus_fail : Env :=
  { ret := fun _ op => if op = .system (cpus_cmd "/dev/cpuset/A/" "1") then 1 else 0,
    nprocessors_onln := 8 }

/-- The manager `cpuset_manager_new env_ok 0 World.initial` returns. -/
def manager_root : cpuset_manager := { cpu_count_ := 0, root_ := 0, set_map_ := [("root", 0)] }

/-- The world `cpuset_manager_new env_ok 0 World.initial` leaves behind. -/
def world_root : World :=
  { heap := [some { root_node with CPUs_ := [0, 1, 2, 3, 4, 5, 6, 7] }],
    number_cpus_ := 8,
    trace := [.mkdir "/dev/cpuset/", .mount "cpuset_thingie" "/dev/cpuset/"] }

/-- The node `new_set env_ok manager_root world_root "A" "2-5" "root" true false
true false` constructs. -/
def node_A : cpuset :=
  { name_ := "A", path_ := "/dev/cpuset/A/", CPUs_ := [2, 3, 4, 5], pids_ := [],
    cpu_is_exclusive_ := true, mem_is_exclusive_ := false, migrate_memory_ := true,
    notify_on_release_ := false, parent_ := some 0, children_ := [] }

/-- The manager after that `new_set`. -/
def manager_A : cpuset_manager :=
  { cpu_count_ := 0, root_ := 0, set_map_ := [("root", 0), ("A", 1)] }

/-- The world after that `new_set`. -/
def world_A : World :=
  { heap := [some { root_node with CPUs_ := [0, 1, 2, 3, 4, 5, 6, 7], children_ := [1] },
             some node_A],
    number_cpus_ := 8,
    trace := [.mkdir "/dev/cpuset/", .mount "cpuset_thingie" "/dev/cpuset/",
      .system "test -d /dev/cpuset/", .mkdir "/dev/cpuset/A/",
      .system "/bin/echo 2,3,4,5 > /dev/cpuset/A/cpus",
      .system "/bin/echo 2,3,4,5 > /dev/cpuset/A/mems",
      .system "/bin/echo 1 > /dev/cpuset/A/cpu_exclusive",
      .system "/bin/echo 0 > /dev/cpuset/A/mem_exclusive",
      .system "/bin/echo 1 > /dev/cpuset/A/memory_migrate",
      .system "/bin/echo 0 > /dev/cpuset/A/notify_on_release"] }

/-- The node `new_set env_ok manager_A world_A "B" "1" "A" true true true false`
constructs. -/
def node_B : cpuset :=
  { name_ := "B", path_ := "/dev/cpuset/A/B/", CPUs_ := [1], pids_ := [],
    cpu_is_exclusive_ := true, mem_is_exclusive_ := true, migrate_memory_ := true,
    notify_on_release_ := false, parent_ := some 1, children_ := [] }

/-- The manager after `"B"` has been created under `"A"`. -/
def manager_AB : cpuset_manager :=
  { cpu_count_ := 0, root_ := 0, set_map_ := [("root", 0), ("A", 1), ("B", 2)] }

/-- The world after `"B"` has been created under `"A"`. -/
def world_AB : World :=
  { heap := [some { root_node with CPUs_ := [0, 1, 2, 3, 4, 5, 6, 7], children_ := [1] },
             some { node_A with children_ := [2] },
             some node_B],
    number_cpus_ := 8,
    trace := world_A.trace ++
      [.system "test -d /dev/cpuset/A/", .mkdir "/dev/cpuset/A/B/",
       .system "/bin/echo 1 > /dev/cpuset/A/B/cpus",
       .system "/bin/echo 1 > /dev/cpuset/A/B/mems",
       .system "/bin/echo 1 > /dev/cpuset/A/B/cpu_exclusive",
       .system "/bin/echo 1 > /dev/cpuset/A/B/mem_exclusive",
       .system "/bin/echo 1 > /dev/cpuset/A/B/memory_migrate",
       .system "/bin/echo 0 > /dev/cpuset/A/B/notify_on_release"] }

/-- The manager after `remove_set env_ok manager_AB world_AB "A"`: the entry of
`"B"` is still there. -/
def manager_A_removed : cpuset_manager :=
  { cpu_count_ := 0, root_ := 0, set_map_ := [("root", 0), ("B", 2)] }

/-- The world after `remove_set env_ok manager_AB world_AB "A"`. -/
def world_A_removed : World :=
  { heap := [some { root_node with CPUs_ := [0, 1, 2, 3, 4, 5, 6, 7], children_ := [1] },
             none, none],
    number_cpus_ := 8,
    trace := world_AB.trace ++
      [.chdir "/", .rmdir "/dev/cpuset/A/B/", .chdir "/", .rmdir "/dev/cpuset/A/"] }

/-- The node `new_set env_ok manager_AB world_AB "C" "4,1-2" "root" true true true
false` constructs. -/
def node_C : cpuset :=
  { name_ := "C", path_ := "/dev/cpuset/C/", CPUs_ := [4, 1, 2], pids_ := [],
    cpu_is_exclusive_ := true, mem_is_exclusive_ := true, migrate_memory_ := true,
    notify_on_release_ := false, parent_ := some 0, children_ := [] }

/-- The manager after `"C"` has been created under the root. -/
def manager_ABC : cpuset_manager :=
  { cpu_count_ := 0, root_ := 0, set_map_ := [("root", 0), ("A", 1), ("B", 2), ("C", 3)] }

/-- The world after `"C"` has been created under the root. -/
def world_ABC : World :=
  { heap := [some { root_node with CPUs_ := [0, 1, 2, 3, 4, 5, 6, 7], children_ := [1, 3] },
             some { node_A with children_ := [2] },
             some node_B,
             some node_C],
    number_cpus_ := 8,
    trace := world_AB.trace ++
      [.system "test -d /dev/cpuset/", .mkdir "/dev/cpuset/C/",
       .system "/bin/echo 4,1,2 > /dev/cpuset/C/cpus",
       .system "/bin/echo 4,1,2 > /dev/cpuset/C/mems",
       .system "/bin/echo 1 > /dev/cpuset/C/cpu_exclusive",
       .system "/bin/echo 1 > /dev/cpuset/C/mem_exclusive",
       .system "/bin/echo 1 > /dev/cpuset/C/memory_migrate",
       .system "/bin/echo 0 > /dev/cpuset/C/notify_on_release"] }

/-- The whole tree of `world_ABC`: the root with `"A"` (which has `"B"`) and
`"C"`. -/
def tree_ABC : Subtree :=
  .node 0 { root_node with CPUs_ := [0, 1, 2, 3, 4, 5, 6, 7], children_ := [1, 3] }
    [.node 1 { node_A with children_ := [2] } [.node 2 node_B []],
     .node 3 node_C []]

/-- A machine on which every `chdir`, `rmdir` and `umount` fails. -/
def env_teardown_fails : Env :=
  { ret := fun _ op =>
      match op with
      | .chdir _ => 2
      | .rmdir _ => 16
      | .umount _ => 16
      | _ => 0,
    nprocessors_onln := 8 }

/-- A machine with 8 CPUs on which the first `mkdir` of the root path fails with
`EEXIST` and every other call succeeds. -/
def env_root_exists_once : Env :=
  { ret := fun trace op => if trace = [] ∧ op = .mkdir "/dev/cpuset/" then EEXIST else 0,
    nprocessors_onln := 8 }

/-- As `env_ok`, except that the write to the `mem_exclusive` entry of
`/dev/cpuset/A/` fails. -/
def env_flag_fails : Env :=
  { ret := fun _ op =>
      if op = .system (flag_cmd false "/dev/cpuset/A/" "mem_exclusive") then 1 else 0,
    nprocessors_onln := 8 }

/-- A machine with 8 CPUs on which every `mkdir` of the root path fails with
`EEXIST`. -/
def env_root_always_exists : Env :=
  { ret := fun _ op => if op = .mkdir "/dev/cpuset/" then EEXIST else 0,
    nprocessors_onln := 8 }

/-- As `env_ok`, except that the write of pid 42 to the task list fails. -/
def env_tasks_fail : Env :=
  { ret := fun _ op => if op = .system "/bin/echo 42 > tasks" then 1 else 0,
    nprocessors_onln := 8 }

/-- The world after `remove_set env_ok manager_A world_A "A"`: the node is
destroyed, the root's `children_` still holds its address. -/
def world_A_gone : World :=
  { heap := [some { root_node with CPUs_ := [0, 1, 2, 3, 4, 5, 6, 7], children_ := [1] }, none],
    number_cpus_ := 8,
    trace := world_A.trace ++ [.chdir "/", .rmdir "/dev/cpuset/A/"] }

/-- The manager after `remove_set env_ok manager_AB world_AB "B"`. -/
def manager_B_gone : cpuset_manager :=
  { cpu_count_ := 0, root_ := 0, set_map_ := [("root", 0), ("A", 1)] }

/-- The world after `remove_set env_ok manager_AB world_AB "B"`: the node is
destroyed, the `children_` of `"A"` still holds its address. -/
def world_B_gone : World :=
  { heap := [some { root_node with CPUs_ := [0, 1, 2, 3, 4, 5, 6, 7], children_ := [1] },
             some { node_A with children_ := [2] },
             none],
    number_cpus_ := 8,
    trace := world_AB.trace ++ [.chdir "/", .rmdir "/dev/cpuset/A/B/"] }

/-! ## The parser on concrete inputs -/

/-- C1. With 8 CPUs `"1"` gives `[1]` and `"2-5"` gives `[2,3,4,5]`, but a range
that is followed by a comma has its lower bound pushed twice: `"1,3-4,7"` gives
`[1,3,3,4,7]`, not `[1,3,4,7]`. -/
theorem parse_cpulist_range_then_comma :
    parse_cpulist 8 "1" = .ok ([1], "1") ∧
    parse_cpulist 8 "2-5" = .ok ([2, 3, 4, 5], "2,3,4,5") ∧
    parse_cpulist 8 "1,3-4,7" = .ok ([1, 3, 3, 4, 7], "1,3,3,4,7") :=
  ⟨rfl, rfl, rfl⟩

/-- C2. The canonical string of `"2-5"` is `"2,3,4,5"`, but that of `"1-2,4"` is
`"1,1,2,4"`: the lower bound of the range appears twice. -/
theorem parse_cpulist_canonical_repeats_bound :
    (parse_cpulist 8 "2-5").map Prod.snd = .ok "2,3,4,5" ∧
    (parse_cpulist 8 "1-2,4").map Prod.snd = .ok "1,1,2,4" :=
  ⟨rfl, rfl⟩

/-- C4. With 4 CPUs `"5"` is refused, but the ten-digit number `4294967296`
(2^32) is accepted: `atoi` keeps its low 32 bits and CPU 0 enters the set. -/
theorem parse_cpulist_accepts_wrapped_number :
    parse_cpulist 4 "5" = .error (.illegal_cpu 5) ∧
    parse_cpulist 4 "4294967296" = .ok ([0], "0") :=
  ⟨rfl, rfl⟩

/-! ## The parser refuses malformed lists -/

theorem is_numeric_comma : is_numeric ',' = false := by decide
theorem is_numeric_dash : is_numeric '-' = false := by decide

theorem parse_chars_append (n : Nat) (v : parse_vars) (s t : List Char) :
    parse_chars n v (s ++ t) =
      match parse_chars n v s with
      | .error e => .error e
      | .ok v1 => parse_chars n v1 t := by
  induction s generalizing v with
  | nil => simp [parse_chars]
  | cons c cs ih =>
    simp only [List.cons_append, parse_chars]
    cases h : parse_step n v c with
    | error e => simp
    | ok v1 => simp [ih]

/-- A character the loop accepts is a digit, a comma or a dash. -/
theorem parse_step_ok_char {n : Nat} {v v1 : parse_vars} {c : Char}
    (h : parse_step n v c = .ok v1) : is_numeric c = true ∨ c = ',' ∨ c = '-' := by
  by_cases hn : is_numeric c = true
  · exact Or.inl hn
  · by_cases h1 : c = '-'
    · exact Or.inr (Or.inr h1)
    · by_cases h2 : c = ','
      · exact Or.inr (Or.inl h2)
      · exfalso
        unfold parse_step at h
        cases hs : v.state <;> simp [hs, hn, h1, h2] at h

/-- After a separator has been accepted no value is being collected. -/
theorem parse_step_ok_sep {n : Nat} {v v1 : parse_vars} {c : Char}
    (h : parse_step n v c = .ok v1) (hc : c = ',' ∨ c = '-') :
    v1.numeric = false ∧ v1.cpu_string = [] ∧
      ((c = ',' ∧ v1.state = .NONE) ∨ (c = '-' ∧ v1.state = .IN_RANGE)) := by
  unfold parse_step at h
  rcases hc with rfl | rfl
  · cases hs : v.state <;> simp [hs, is_numeric_comma] at h
    · cases hi : insert_cpu n v.cpu_string v.CPUs with
      | error e => simp [hi] at h
      | ok r => 
        obtain ⟨cpu, CPUs⟩ := r
        simp [hi] at h
        subst h
        simp
    · split at h
      · simp at h
      · split at h
        · simp at h
        · simp at h
          subst h; simp
  · cases hs : v.state <;> simp [hs, is_numeric_dash] at h
    · cases hi : insert_cpu n v.cpu_string v.CPUs with
      | error e => simp [hi] at h
      | ok r => 
        obtain ⟨cpu, CPUs⟩ := r
        simp [hi] at h
        subst h
        simp


theorem parse_chars_cons_ok {n : Nat} {v v2 : parse_vars} {c : Char} {cs : List Char}
    (h : parse_chars n v (c :: cs) = .ok v2) :
    ∃ v1, parse_step n v c = .ok v1 ∧ parse_chars n v1 cs = .ok v2 := by
  simp only [parse_chars] at h
  cases hs : parse_step n v c with
  | error e => simp [hs] at h
  | ok v1 => exact ⟨v1, rfl, by simpa [hs] using h⟩

theorem parse_chars_append_ok {n : Nat} {v v2 : parse_vars} {s t : List Char}
    (h : parse_chars n v (s ++ t) = .ok v2) :
    ∃ v1, parse_chars n v s = .ok v1 ∧ parse_chars n v1 t = .ok v2 := by
  rw [parse_chars_append] at h
  cases hs : parse_chars n v s with
  | error e => simp [hs] at h
  | ok v1 => exact ⟨v1, rfl, by simpa [hs] using h⟩

theorem parse_chars_ok_chars {n : Nat} {s : List Char} :
    ∀ {v v1 : parse_vars}, parse_chars n v s = .ok v1 →
      ∀ c ∈ s, is_numeric c = true ∨ c = ',' ∨ c = '-' := by
  induction s with
  | nil => intro v v1 _ c hc; simp at hc
  | cons a as ih =>
    intro v v1 h c hc
    obtain ⟨v0, h0, h1⟩ := parse_chars_cons_ok h
    rcases List.mem_cons.mp hc with rfl | hc
    · exact parse_step_ok_char h0
    · exact ih h1 c hc

/-- Right after a separator a second separator is refused. -/
theorem parse_step_sep_after_sep (n : Nat) {v : parse_vars} {c : Char}
    (hstr : v.cpu_string = []) (hst : v.state = .NONE ∨ v.state = .IN_RANGE)
    (hc : c = ',' ∨ c = '-') : ∃ e, parse_step n v c = .error e := by
  unfold parse_step
  rcases hc with rfl | rfl <;> rcases hst with hs | hs <;>
    simp [hs, hstr, is_numeric_comma, is_numeric_dash]

/-- Digits keep the parser inside the range it is reading. -/
theorem parse_chars_digits_in_range {n : Nat} {s : List Char} :
    ∀ {v v1 : parse_vars}, v.state = .IN_RANGE → (∀ c ∈ s, is_numeric c = true) →
      parse_chars n v s = .ok v1 → v1.state = .IN_RANGE := by
  induction s with
  | nil => intro v v1 hs _ h; simp [parse_chars] at h; subst h; exact hs
  | cons a as ih =>
    intro v v1 hs hd h
    obtain ⟨v0, h0, h1⟩ := parse_chars_cons_ok h
    have ha : is_numeric a = true := hd a (List.mem_cons_self _ _)
    have : v0.state = .IN_RANGE := by
      unfold parse_step at h0
      simp [hs, ha] at h0
      subst h0; rfl
    exact ih this (fun c hc => hd c (List.mem_cons_of_mem _ hc)) h1

/-- A dash met while a range is being read is refused. -/
theorem parse_step_dash_in_range (n : Nat) {v : parse_vars} (hs : v.state = .IN_RANGE) :
    ∃ e, parse_step n v '-' = .error e := by
  unfold parse_step
  simp [hs, is_numeric_dash]

/-- The end-of-string switch refuses a string that ends in a separator. -/
theorem parse_finish_after_sep (n : Nat) {v : parse_vars} (hnum : v.numeric = false)
    (hst : v.state = .NONE ∨ v.state = .IN_RANGE) : ∃ e, parse_finish n v = .error e := by
  unfold parse_finish
  rcases hst with hs | hs <;> simp [hs, hnum]

/-- The list-level content of the rejection claim: on each of the listed shapes
either the loop or the end-of-string switch throws. -/
theorem parse_rejects_shapes (n : Nat) (s : List Char)
    (h : s = [] ∨
      (∃ c rest, s = c :: rest ∧ (c = ',' ∨ c = '-')) ∨
      (∃ front c, s = front ++ [c] ∧ (c = ',' ∨ c = '-')) ∨
      (∃ pre c1 c2 post, s = pre ++ c1 :: c2 :: post ∧ (c1 = ',' ∨ c1 = '-') ∧
        (c2 = ',' ∨ c2 = '-')) ∨
      (∃ pre mid post, s = pre ++ '-' :: (mid ++ '-' :: post) ∧
        ∀ c ∈ mid, is_numeric c = true) ∨
      (∃ c ∈ s, is_numeric c = false ∧ c ≠ ',' ∧ c ≠ '-'))
    (v : parse_vars) (hv : parse_chars n parse_init s = .ok v) :
    ∃ e, parse_finish n v = .error e := by
  rcases h with rfl | ⟨c, rest, rfl, hc⟩ | ⟨front, c, rfl, hc⟩ |
      ⟨pre, c1, c2, post, rfl, hc1, hc2⟩ | ⟨pre, mid, post, rfl, hmid⟩ | ⟨c, hmem, hnum, h1, h2⟩
  · simp [parse_chars] at hv
    subst hv
    exact ⟨_, rfl⟩
  · exfalso
    obtain ⟨v0, h0, -⟩ := parse_chars_cons_ok hv
    obtain ⟨e, he⟩ := parse_step_sep_after_sep n (v := parse_init) rfl (Or.inl rfl) hc
    rw [he] at h0; cases h0
  · obtain ⟨v0, -, h1⟩ := parse_chars_append_ok hv
    obtain ⟨v1, h2, h3⟩ := parse_chars_cons_ok h1
    simp [parse_chars] at h3
    subst h3
    obtain ⟨hnum, -, hst⟩ := parse_step_ok_sep h2 hc
    exact parse_finish_after_sep n hnum (by tauto)
  · exfalso
    obtain ⟨v0, -, h1⟩ := parse_chars_append_ok hv
    obtain ⟨v1, h2, h3⟩ := parse_chars_cons_ok h1
    obtain ⟨v2, h4, -⟩ := parse_chars_cons_ok h3
    obtain ⟨-, hstr, hst⟩ := parse_step_ok_sep h2 hc1
    obtain ⟨e, he⟩ := parse_step_sep_after_sep n hstr (by tauto) hc2
    rw [he] at h4; cases h4
  · exfalso
    obtain ⟨v0, -, h1⟩ := parse_chars_append_ok hv
    obtain ⟨v1, h2, h3⟩ := parse_chars_cons_ok h1
    obtain ⟨v2, h4, h5⟩ := parse_chars_append_ok h3
    obtain ⟨v3, h6, -⟩ := parse_chars_cons_ok h5
    obtain ⟨-, -, hst⟩ := parse_step_ok_sep h2 (Or.inr rfl)
    have hr : v1.state = .IN_RANGE := by
      rcases hst with ⟨hc, -⟩ | ⟨-, hr⟩
      · exact absurd hc (by decide)
      · exact hr
    obtain ⟨e, he⟩ := parse_step_dash_in_range n (parse_chars_digits_in_range hr hmid h4)
    rw [he] at h6; cases h6
  · exfalso
    rcases parse_chars_ok_chars hv c hmem with h | h | h
    · rw [h] at hnum; cases hnum
    · exact h1 h
    · exact h2 h

/-- C3. `parse_cpulist` throws, whatever the CPU count, on the empty string, on a
string that starts or ends with `,` or `-`, on two adjacent separators, on a
second `-` inside a range, and on any character that is not a digit, `,` or `-`. -/
theorem parse_cpulist_rejects_malformed (n : Nat) (cpus : String)
    (h : cpus.toList = [] ∨
      (∃ c rest, cpus.toList = c :: rest ∧ (c = ',' ∨ c = '-')) ∨
      (∃ front c, cpus.toList = front ++ [c] ∧ (c = ',' ∨ c = '-')) ∨
      (∃ pre c1 c2 post, cpus.toList = pre ++ c1 :: c2 :: post ∧ (c1 = ',' ∨ c1 = '-') ∧
        (c2 = ',' ∨ c2 = '-')) ∨
      (∃ pre mid post, cpus.toList = pre ++ '-' :: (mid ++ '-' :: post) ∧
        ∀ c ∈ mid, is_numeric c = true) ∨
      (∃ c ∈ cpus.toList, is_numeric c = false ∧ c ≠ ',' ∧ c ≠ '-')) :
    ∃ e, parse_cpulist n cpus = .error e := by
  unfold parse_cpulist
  cases hv : parse_chars n parse_init cpus.toList with
  | error e => exact ⟨e, rfl⟩
  | ok v =>
    obtain ⟨e, he⟩ := parse_rejects_shapes n cpus.toList h v hv
    exact ⟨e, by simp [he]⟩

/-- The strings `"1-"`, `"1,2,"`, `"1 - 2"`, `""`, `"1-2-3"` and `"1,,2"` are refused with 4 CPUs. -/
theorem parse_cpulist_rejects_malformed_witness :
    (∃ e, parse_cpulist 4 "1-" = .error e) ∧ (∃ e, parse_cpulist 4 "1,2," = .error e) ∧
    (∃ e, parse_cpulist 4 "1 - 2" = .error e) ∧ (∃ e, parse_cpulist 4 "" = .error e) ∧
    (∃ e, parse_cpulist 4 "1-2-3" = .error e) ∧ (∃ e, parse_cpulist 4 "1,,2" = .error e) :=
  ⟨parse_cpulist_rejects_malformed 4 "1-" (Or.inr (Or.inr (Or.inl ⟨['1'], '-', rfl, Or.inr rfl⟩))),
   parse_cpulist_rejects_malformed 4 "1,2,"
     (Or.inr (Or.inr (Or.inl ⟨['1', ',', '2'], ',', rfl, Or.inl rfl⟩))),
   parse_cpulist_rejects_malformed 4 "1 - 2"
     (Or.inr (Or.inr (Or.inr (Or.inr (Or.inr ⟨' ', by decide, by decide, by decide, by decide⟩))))),
   parse_cpulist_rejects_malformed 4 "" (Or.inl rfl),
   parse_cpulist_rejects_malformed 4 "1-2-3"
     (Or.inr (Or.inr (Or.inr (Or.inr (Or.inl ⟨['1'], ['2'], ['3'], rfl, by decide⟩))))),
   parse_cpulist_rejects_malformed 4 "1,,2"
     (Or.inr (Or.inr (Or.inr (Or.inl ⟨['1'], ',', ',', ['2'], rfl, Or.inl rfl, Or.inl rfl⟩))))⟩

/-! ## Calls and the heap -/

@[simp]
theorem call_fst (env : Env) (w : World) (op : Op) :
    (call env w op).1 = env.ret w.trace op := rfl

@[simp]
theorem call_heap (env : Env) (w : World) (op : Op) :
    (call env w op).2.heap = w.heap := rfl

@[simp]
theorem call_number_cpus (env : Env) (w : World) (op : Op) :
    (call env w op).2.number_cpus_ = w.number_cpus_ := rfl

@[simp]
theorem call_trace (env : Env) (w : World) (op : Op) :
    (call env w op).2.trace = w.trace ++ [op] := rfl

theorem deref_eq_some {w : World} {p : Nat} {node : cpuset} :
    w.deref p = some node ↔ w.heap[p]? = some (some node) := by
  unfold World.deref
  split
  · rename_i x h; simp [h]
  · rename_i h
    constructor
    · intro h1; cases h1
    · intro h1; exact absurd h1 (h node)

theorem deref_lt {w : World} {p : Nat} {node : cpuset} (h : w.deref p = some node) :
    p < w.heap.length := by
  rw [deref_eq_some] at h
  exact (List.getElem?_eq_some_iff.mp h).1

theorem add_cpulist_error {env : Env} {path_ cpulist : String} {w w1 : World} {e : Err}
    (h : add_cpulist_to_cpuset env path_ cpulist w = .error (e, w1)) :
    w1.heap = w.heap ∧ w1.number_cpus_ = w.number_cpus_ := by
  unfold add_cpulist_to_cpuset at h
  simp only [call] at h
  repeat' split at h
  all_goals first
    | (injection h with h1; injection h1 with h2 h3; subst h3; exact ⟨rfl, rfl⟩)
    | cases h

theorem add_cpulist_ok {env : Env} {path_ cpulist : String} {w w1 : World}
    (h : add_cpulist_to_cpuset env path_ cpulist w = .ok w1) :
    w1.heap = w.heap ∧ w1.number_cpus_ = w.number_cpus_ ∧
      w1.trace = w.trace ++ [.system (cpus_cmd path_ cpulist),
        .system (mems_cmd path_ cpulist)] := by
  unfold add_cpulist_to_cpuset at h
  simp only [call] at h
  repeat' split at h
  all_goals first
    | (injection h with h1; subst h1; simp)
    | cases h

/-- The world a constructor call leaves behind when it throws: same heap, same
CPU count. -/
theorem cpuset_new_raised {env : Env} {name cpus : String} {parent : Option Nat}
    {a b c d : Bool} {w w1 : World} {e : Err}
    (h : cpuset_new env name cpus parent a b c d w = .raised e w1) :
    w1.heap = w.heap ∧ w1.number_cpus_ = w.number_cpus_ := by
  unfold cpuset_new at h
  simp only [call] at h
  repeat' split at h
  all_goals (try cases h)
  all_goals (try exact ⟨rfl, rfl⟩)
  · rename_i hadd
    have h3 := add_cpulist_error hadd
    exact ⟨h3.1, h3.2⟩
  · rename_i hadd _
    have h3 := add_cpulist_ok hadd
    exact ⟨h3.1, h3.2.1⟩
  · rename_i hadd _ _
    have h3 := add_cpulist_ok hadd
    exact ⟨h3.1, h3.2.1⟩
  · rename_i hadd _ _ _
    have h3 := add_cpulist_ok hadd
    exact ⟨h3.1, h3.2.1⟩
  · rename_i hadd _ _ _ _
    have h3 := add_cpulist_ok hadd
    exact ⟨h3.1, h3.2.1⟩

/-- What a successful constructor call does: the parent is alive, the CPU list
parses, eight calls are issued, the new object takes the next free address and
is appended to the parent's `children_`. -/
theorem cpuset_new_ok {env : Env} {name cpus : String} {p : Nat}
    {a b c d : Bool} {w w1 : World} {this : Nat}
    (h : cpuset_new env name cpus (some p) a b c d w = .ok this w1) :
    ∃ parent CPUs cpulist_parsed,
      w.deref p = some parent ∧
      parse_cpulist w.number_cpus_ cpus = .ok (CPUs, cpulist_parsed) ∧
      w.number_cpus_ ≠ 0 ∧
      this = w.heap.length ∧
      w1.number_cpus_ = w.number_cpus_ ∧
      w1.heap = w.heap.set p (some { parent with children_ := parent.children_ ++ [this] }) ++
        [some { name_ := name, path_ := parent.path_ ++ name ++ "/", CPUs_ := CPUs, pids_ := [],
                cpu_is_exclusive_ := a, mem_is_exclusive_ := b, migrate_memory_ := c,
                notify_on_release_ := d, parent_ := some p, children_ := [] }] ∧
      w1.trace = w.trace ++
        [.system (DIR_EXISTS_COMMAND ++ parent.path_),
         .mkdir (parent.path_ ++ name ++ "/"),
         .system (cpus_cmd (parent.path_ ++ name ++ "/") cpulist_parsed),
         .system (mems_cmd (parent.path_ ++ name ++ "/") cpulist_parsed),
         .system (flag_cmd a (parent.path_ ++ name ++ "/") "cpu_exclusive"),
         .system (flag_cmd b (parent.path_ ++ name ++ "/") "mem_exclusive"),
         .system (flag_cmd c (parent.path_ ++ name ++ "/") "memory_migrate"),
         .system (flag_cmd d (parent.path_ ++ name ++ "/") "notify_on_release")] := by
  unfold cpuset_new at h
  simp only [call] at h
  repeat' split at h
  all_goals (try cases h)
  rename_i hn _ base_path hbase hret1 _ CPUs cpulist hparse hret2 _ w3 hadd hf1 hf2 hf3 hf4 _ parent hd
  obtain ⟨hh, hnum, htr⟩ := add_cpulist_ok hadd
  have hd1 : w.deref p = some parent := by
    rw [deref_eq_some] at hd ⊢
    simpa [hh] using hd
  have hb : base_path = parent.path_ := by
    simpa [hd1] using hbase.symm
  subst hb
  refine ⟨parent, CPUs, cpulist, hd1, hparse, hn, ?_, ?_, ?_, ?_⟩
  · simp [hh]
  · simp [hnum]
  · simp [hh]
  · simp [htr]

/-- With a CPU count of zero the end-of-string switch always throws. -/
theorem parse_finish_zero (v : parse_vars) : ∃ e, parse_finish 0 v = .error e := by
  unfold parse_finish
  cases hs : v.state
  · exact ⟨_, rfl⟩
  · by_cases hl : v.cpu_string.length = 0 <;> simp [insert_cpu, hl]
  · cases hnum : v.numeric <;> simp [bad_cpu]

/-- A CPU list only parses when the CPU count is known. -/
theorem parse_cpulist_ok_pos {n : Nat} {cpus : String} {r : List Nat × String}
    (h : parse_cpulist n cpus = .ok r) : n ≠ 0 := by
  rintro rfl
  unfold parse_cpulist at h
  cases hv : parse_chars 0 parse_init cpus.toList with
  | error e => rw [hv] at h; cases h
  | ok v =>
    obtain ⟨e, he⟩ := parse_finish_zero v
    rw [hv] at h
    simp only [he] at h
    cases h

theorem map_count_eq_zero {m : cpuset_map_t} {k : String} :
    map_count m k = 0 ↔ map_find m k = none := by
  unfold map_count
  cases map_find m k <;> simp

theorem map_find_assign_self (m : cpuset_map_t) (k : String) (v : Nat) :
    map_find (map_assign m k v) k = some v := by
  induction m with
  | nil => simp [map_assign, map_find, List.lookup]
  | cons kv rest ih =>
    obtain ⟨k1, v1⟩ := kv
    unfold map_assign
    by_cases h : k1 = k
    · simp [h, map_find, List.lookup]
    · have hb : (k == k1) = false := by simpa using fun h1 => h h1.symm
      simp only [h, if_false, map_find, List.lookup, hb]
      exact ih

theorem map_find_assign_ne (m : cpuset_map_t) {k k1 : String} (v : Nat) (h : k1 ≠ k) :
    map_find (map_assign m k v) k1 = map_find m k1 := by
  induction m with
  | nil =>
    have hb : (k1 == k) = false := by simpa using h
    simp [map_assign, map_find, List.lookup, hb]
  | cons kv rest ih =>
    obtain ⟨k2, v2⟩ := kv
    unfold map_assign
    by_cases h2 : k2 = k
    · subst h2
      have hb : (k1 == k2) = false := by simpa using h
      simp [map_find, List.lookup, hb]
    · simp only [h2, if_false, map_find, List.lookup]
      cases hb : (k1 == k2)
      · exact ih
      · rfl

/-- The constructor returns normally when every call it issues succeeds. -/
theorem cpuset_new_all_ok (env : Env) (name : String) {cpus : String} {p : Nat} (a b c d : Bool)
    {w : World} {parent : cpuset} {CPUs : List Nat} {cpulist_parsed : String}
    (hlive : w.deref p = some parent)
    (hparse : parse_cpulist w.number_cpus_ cpus = .ok (CPUs, cpulist_parsed))
    (hall : ∀ t op, env.ret (w.trace ++ t) op = 0) :
    ∃ w1, cpuset_new env name cpus (some p) a b c d w = .ok w.heap.length w1 := by
  have hn : w.number_cpus_ ≠ 0 := parse_cpulist_ok_pos hparse
  have h0 : ∀ op, env.ret w.trace op = 0 := fun op => by simpa using hall [] op
  have hg := deref_eq_some.mp hlive
  unfold cpuset_new add_cpulist_to_cpuset
  simp only [call, hlive, hn, h0, hparse, List.append_assoc, hall, World.deref, hg,
    Option.map, if_false, ne_eq, not_true_eq_false]
  exact ⟨_, rfl⟩

/-- The constructor when the parent test, the parse and `mkdir` succeed and the
`cpus` or the `mems` write fails: the directory is removed again and the error
of the write is thrown. -/
theorem cpuset_new_rollback (env : Env) (name : String) {cpus : String} {p : Nat} (a b c d : Bool)
    {w : World} {parent : cpuset} {CPUs : List Nat} {cpulist_parsed : String}
    (hlive : w.deref p = some parent)
    (hparse : parse_cpulist w.number_cpus_ cpus = .ok (CPUs, cpulist_parsed))
    (hcheck : env.ret w.trace (.system (DIR_EXISTS_COMMAND ++ parent.path_)) = 0)
    (hmkdir : env.ret (w.trace ++ [.system (DIR_EXISTS_COMMAND ++ parent.path_)])
      (.mkdir (parent.path_ ++ name ++ "/")) = 0)
    (hwrite :
      env.ret (w.trace ++ [.system (DIR_EXISTS_COMMAND ++ parent.path_),
          .mkdir (parent.path_ ++ name ++ "/")])
        (.system (cpus_cmd (parent.path_ ++ name ++ "/") cpulist_parsed)) ≠ 0 ∨
      env.ret (w.trace ++ [.system (DIR_EXISTS_COMMAND ++ parent.path_),
          .mkdir (parent.path_ ++ name ++ "/"),
          .system (cpus_cmd (parent.path_ ++ name ++ "/") cpulist_parsed)])
        (.system (mems_cmd (parent.path_ ++ name ++ "/") cpulist_parsed)) ≠ 0) :
    ∃ e, (e = .adding_cpus_failed ∨ e = .adding_mems_failed) ∧
      cpuset_new env name cpus (some p) a b c d w = .raised e
        { w with trace := w.trace ++
            [.system (DIR_EXISTS_COMMAND ++ parent.path_), .mkdir (parent.path_ ++ name ++ "/"),
             .system (cpus_cmd (parent.path_ ++ name ++ "/") cpulist_parsed)] ++
            (if env.ret (w.trace ++ [.system (DIR_EXISTS_COMMAND ++ parent.path_),
                  .mkdir (parent.path_ ++ name ++ "/")])
                (.system (cpus_cmd (parent.path_ ++ name ++ "/") cpulist_parsed)) = 0
              then [.system (mems_cmd (parent.path_ ++ name ++ "/") cpulist_parsed)] else []) ++
            [.rmdir (parent.path_ ++ name ++ "/")] } := by
  have hn : w.number_cpus_ ≠ 0 := parse_cpulist_ok_pos hparse
  unfold cpuset_new add_cpulist_to_cpuset
  simp only [List.append_assoc, List.singleton_append, List.cons_append, List.nil_append] at *
  simp only [call, hlive, hn, hcheck, hparse, hmkdir, List.append_assoc, Option.map, if_false,
    ne_eq, not_true_eq_false, List.singleton_append, List.cons_append, List.nil_append]
  by_cases h1 : env.ret (w.trace ++ [.system (DIR_EXISTS_COMMAND ++ parent.path_),
          .mkdir (parent.path_ ++ name ++ "/")])
        (.system (cpus_cmd (parent.path_ ++ name ++ "/") cpulist_parsed)) = 0
  · have h2 := hwrite.resolve_left (not_not.mpr h1)
    simp only [h1, h2, if_true, if_false, not_true_eq_false, not_false_eq_true]
    exact ⟨_, Or.inr rfl, by simp⟩
  · simp only [h1, if_true, if_false, not_true_eq_false, not_false_eq_true]
    exact ⟨_, Or.inl rfl, by simp⟩

/-! ## `new_set` -/

/-- C5. A `new_set` with a name that is already in the map throws the
naming-conflict error and returns the world it was given: no call is issued, no
object and no map entry changes, and `get_set` of the name still answers with
the pointer stored before. -/
theorem new_set_existing_name (env : Env) (m : cpuset_manager) (w : World)
    (name cpus parent_cpuset_name : String) (a b c d : Bool) (s : Nat)
    (hname : map_find m.set_map_ name = some s) :
    new_set env m w name cpus parent_cpuset_name a b c d = .raised (.already_managing name) w ∧
      get_set m w name = .ok s w := by
  unfold new_set get_set map_count
  simp [hname]

/-- A second `"root"` is refused in the state right after construction. -/
theorem new_set_existing_name_witness :
    map_find manager_root.set_map_ "root" = some 0 ∧
    (new_set env_ok manager_root world_root "root" "1" "nowhere" false true false true =
        .raised (.already_managing "root") world_root ∧
      get_set manager_root world_root "root" = .ok 0 world_root) :=
  ⟨rfl, new_set_existing_name env_ok manager_root world_root "root" "1" "nowhere"
    false true false true 0 rfl⟩

/-- C6. A `new_set` with a new name and a parent name that is not in the map
throws before the constructor runs and returns the world it was given: no call
is issued and nothing changes. -/
theorem new_set_unknown_parent (env : Env) (m : cpuset_manager) (w : World)
    (name cpus parent_cpuset_name : String) (a b c d : Bool)
    (hname : map_find m.set_map_ name = none)
    (hparent : map_find m.set_map_ parent_cpuset_name = none) :
    new_set env m w name cpus parent_cpuset_name a b c d =
      .raised (.cannot_find_parent name parent_cpuset_name) w := by
  unfold new_set map_count
  simp [hname, hparent]

/-- A node under the unknown parent `"nowhere"` is refused in the state right after construction. -/
theorem new_set_unknown_parent_witness :
    map_find manager_root.set_map_ "A" = none ∧
    map_find manager_root.set_map_ "nowhere" = none ∧
    new_set env_ok manager_root world_root "A" "1" "nowhere" true true true false =
      .raised (.cannot_find_parent "A" "nowhere") world_root :=
  ⟨rfl, rfl, new_set_unknown_parent env_ok manager_root world_root "A" "1" "nowhere"
    true true true false rfl rfl⟩

theorem new_set_of_raised {env : Env} {m : cpuset_manager} {w w1 : World}
    {name cpus parent_cpuset_name : String} {a b c d : Bool} {p : Nat} {e : Err}
    (hname : map_find m.set_map_ name = none)
    (hparent : map_find m.set_map_ parent_cpuset_name = some p)
    (h : cpuset_new env name cpus (some p) a b c d w = .raised e w1) :
    new_set env m w name cpus parent_cpuset_name a b c d = .raised e w1 := by
  unfold new_set map_count
  simp only [hname, hparent, h]
  rfl

theorem new_set_of_ok {env : Env} {m : cpuset_manager} {w w1 : World}
    {name cpus parent_cpuset_name : String} {a b c d : Bool} {p this : Nat}
    (hname : map_find m.set_map_ name = none)
    (hparent : map_find m.set_map_ parent_cpuset_name = some p)
    (h : cpuset_new env name cpus (some p) a b c d w = .ok this w1) :
    new_set env m w name cpus parent_cpuset_name a b c d =
      .ok { m with set_map_ := map_assign m.set_map_ name this } w1 := by
  unfold new_set map_count
  simp only [hname, hparent, h]
  rfl

/-- C7. When the parent test, the parse and `mkdir` succeed and the write to
`cpus` or to `mems` fails, `new_set` throws the error of that write; the calls
issued are the parent test, `mkdir` of the new path, the `cpus` write, the
`mems` write if the `cpus` write succeeded, and last `rmdir` of the new path;
the heap is unchanged (the parent has no new child) and the manager is not
assigned (the name is not in the map). -/
theorem new_set_write_failure_rolls_back (env : Env) (m : cpuset_manager) (w : World)
    (name cpus parent_cpuset_name : String) (a b c d : Bool)
    (p : Nat) (parent : cpuset) (CPUs : List Nat) (cpulist_parsed : String)
    (hname : map_find m.set_map_ name = none)
    (hparent : map_find m.set_map_ parent_cpuset_name = some p)
    (hlive : w.deref p = some parent)
    (hparse : parse_cpulist w.number_cpus_ cpus = .ok (CPUs, cpulist_parsed))
    (hcheck : env.ret w.trace (.system (DIR_EXISTS_COMMAND ++ parent.path_)) = 0)
    (hmkdir : env.ret (w.trace ++ [.system (DIR_EXISTS_COMMAND ++ parent.path_)])
      (.mkdir (parent.path_ ++ name ++ "/")) = 0)
    (hwrite :
      env.ret (w.trace ++ [.system (DIR_EXISTS_COMMAND ++ parent.path_),
          .mkdir (parent.path_ ++ name ++ "/")])
        (.system (cpus_cmd (parent.path_ ++ name ++ "/") cpulist_parsed)) ≠ 0 ∨
      env.ret (w.trace ++ [.system (DIR_EXISTS_COMMAND ++ parent.path_),
          .mkdir (parent.path_ ++ name ++ "/"),
          .system (cpus_cmd (parent.path_ ++ name ++ "/") cpulist_parsed)])
        (.system (mems_cmd (parent.path_ ++ name ++ "/") cpulist_parsed)) ≠ 0) :
    ∃ e w1, (e = .adding_cpus_failed ∨ e = .adding_mems_failed) ∧
      new_set env m w name cpus parent_cpuset_name a b c d = .raised e w1 ∧
      w1.trace = w.trace ++
        [.system (DIR_EXISTS_COMMAND ++ parent.path_), .mkdir (parent.path_ ++ name ++ "/"),
         .system (cpus_cmd (parent.path_ ++ name ++ "/") cpulist_parsed)] ++
        (if env.ret (w.trace ++ [.system (DIR_EXISTS_COMMAND ++ parent.path_),
              .mkdir (parent.path_ ++ name ++ "/")])
            (.system (cpus_cmd (parent.path_ ++ name ++ "/") cpulist_parsed)) = 0
          then [.system (mems_cmd (parent.path_ ++ name ++ "/") cpulist_parsed)] else []) ++
        [.rmdir (parent.path_ ++ name ++ "/")] ∧
      w1.heap = w.heap ∧ w1.deref p = some parent ∧
      get_set m w1 name = .raised (.cannot_get_not_found name) w1 := by
  obtain ⟨e, he, hnew⟩ := cpuset_new_rollback env name a b c d hlive hparse hcheck hmkdir hwrite
  refine ⟨e, _, he, new_set_of_raised hname hparent hnew, rfl, rfl, hlive, ?_⟩
  unfold get_set
  simp [hname]

/-- The roll-back on a machine where the `cpus` write of `/dev/cpuset/A/` fails. -/
theorem new_set_write_failure_rolls_back_witness :
    ∃ e w1, (e = .adding_cpus_failed ∨ e = .adding_mems_failed) ∧
      new_set env_cpus_fail manager_root world_root "A" "1" "root" true true true false =
        .raised e w1 ∧
      w1.trace = world_root.trace ++
        [.system (DIR_EXISTS_COMMAND ++ "/dev/cpuset/"), .mkdir ("/dev/cpuset/" ++ "A" ++ "/"),
         .system (cpus_cmd ("/dev/cpuset/" ++ "A" ++ "/") "1")] ++
        (if env_cpus_fail.ret (world_root.trace ++ [.system (DIR_EXISTS_COMMAND ++ "/dev/cpuset/"),
              .mkdir ("/dev/cpuset/" ++ "A" ++ "/")])
            (.system (cpus_cmd ("/dev/cpuset/" ++ "A" ++ "/") "1")) = 0
          then [.system (mems_cmd ("/dev/cpuset/" ++ "A" ++ "/") "1")] else []) ++
        [.rmdir ("/dev/cpuset/" ++ "A" ++ "/")] ∧
      w1.heap = world_root.heap ∧
      w1.deref 0 = some { root_node with CPUs_ := [0, 1, 2, 3, 4, 5, 6, 7] } ∧
      get_set manager_root w1 "A" = .raised (.cannot_get_not_found "A") w1 :=
  new_set_write_failure_rolls_back env_cpus_fail manager_root world_root "A" "1" "root"
    true true true false 0 { root_node with CPUs_ := [0, 1, 2, 3, 4, 5, 6, 7] } [1] "1"
    rfl rfl rfl rfl rfl rfl (Or.inl (by decide))

theorem getElem?_set_append_self {α : Type} (l : List α) (p : Nat) (x y : α) (h : p < l.length) :
    (l.set p x ++ [y])[p]? = some x := by
  rw [List.getElem?_append_left (by simpa using h)]
  simp [h]

theorem getElem?_set_append_last {α : Type} (l : List α) (p : Nat) (x y : α) :
    (l.set p x ++ [y])[l.length]? = some y := by
  rw [List.getElem?_append_right (by simp)]
  simp

/-- With a new name, a parent name that the map sends to a live node, a CPU
list that parses and every call succeeding, `new_set` returns normally;
afterwards `get_set` of the name gives a node with that name, with the path
`parent path + name + "/"`, with the parsed CPUs, with no pids and with the
parent pointer stored under the parent name; the parent is as before except
that the new node is appended to its `children_`; every other map entry is as
before. -/
theorem new_set_creates_node (env : Env) (m : cpuset_manager) (w : World)
    (name cpus parent_cpuset_name : String) (a b c d : Bool)
    (p : Nat) (parent : cpuset) (CPUs : List Nat) (cpulist_parsed : String)
    (hname : map_find m.set_map_ name = none)
    (hparent : map_find m.set_map_ parent_cpuset_name = some p)
    (hlive : w.deref p = some parent)
    (hparse : parse_cpulist w.number_cpus_ cpus = .ok (CPUs, cpulist_parsed))
    (hall : ∀ t op, env.ret (w.trace ++ t) op = 0) :
    ∃ m1 w1 s node,
      new_set env m w name cpus parent_cpuset_name a b c d = .ok m1 w1 ∧
      get_set m1 w1 name = .ok s w1 ∧
      w1.deref s = some node ∧
      node.name_ = name ∧
      node.path_ = parent.path_ ++ name ++ "/" ∧
      node.CPUs_ = CPUs ∧
      node.pids_ = [] ∧
      node.parent_ = some p ∧
      get_set m1 w1 parent_cpuset_name = .ok p w1 ∧
      w1.deref p = some { parent with children_ := parent.children_ ++ [s] } ∧
      (∀ k, k ≠ name → map_find m1.set_map_ k = map_find m.set_map_ k) := by
  obtain ⟨w1, hnew⟩ := cpuset_new_all_ok env name a b c d hlive hparse hall
  obtain ⟨parent1, CPUs1, cpulist1, hd, hp, -, -, -, hheap, -⟩ := cpuset_new_ok hnew
  have hpe : parent = parent1 := by
    rw [hlive] at hd
    exact Option.some.inj hd
  subst hpe
  rw [hparse] at hp
  have hc : CPUs = CPUs1 := by
    injection hp with hp1
    exact congrArg Prod.fst hp1
  subst hc
  have hlt := deref_lt hlive
  have hne : parent_cpuset_name ≠ name := by
    rintro rfl
    rw [hname] at hparent
    cases hparent
  refine ⟨_, w1, w.heap.length,
    { name_ := name, path_ := parent.path_ ++ name ++ "/", CPUs_ := CPUs, pids_ := [],
      cpu_is_exclusive_ := a, mem_is_exclusive_ := b, migrate_memory_ := c,
      notify_on_release_ := d, parent_ := some p, children_ := [] },
    new_set_of_ok hname hparent hnew, ?_, ?_, rfl, rfl, rfl, rfl, rfl, ?_, ?_, ?_⟩
  · unfold get_set
    simp [map_find_assign_self]
  · rw [deref_eq_some, hheap]
    exact getElem?_set_append_last _ _ _ _
  · unfold get_set
    simp [map_find_assign_ne _ _ hne, hparent]
  · rw [deref_eq_some, hheap]
    exact getElem?_set_append_self _ _ _ _ hlt
  · intro k hk
    exact map_find_assign_ne _ _ hk

/-- Creation of `"A"` with CPUs `"2-5"` under the root on a machine where every call succeeds. -/
theorem new_set_creates_node_witness :
    ∃ m1 w1 s node,
      new_set env_ok manager_root world_root "A" "2-5" "root" true false true false = .ok m1 w1 ∧
      get_set m1 w1 "A" = .ok s w1 ∧
      w1.deref s = some node ∧
      node.name_ = "A" ∧
      node.path_ = "/dev/cpuset/" ++ "A" ++ "/" ∧
      node.CPUs_ = [2, 3, 4, 5] ∧
      node.pids_ = [] ∧
      node.parent_ = some 0 ∧
      get_set m1 w1 "root" = .ok 0 w1 ∧
      w1.deref 0 = some { root_node with CPUs_ := [0, 1, 2, 3, 4, 5, 6, 7], children_ := [] ++ [s] } ∧
      (∀ k, k ≠ "A" → map_find m1.set_map_ k = map_find manager_root.set_map_ k) :=
  new_set_creates_node env_ok manager_root world_root "A" "2-5" "root" true false true false
    0 { root_node with CPUs_ := [0, 1, 2, 3, 4, 5, 6, 7] } [2, 3, 4, 5] "2,3,4,5"
    rfl rfl rfl rfl (fun _ _ => rfl)

/-! ## What `delete` does to the heap -/

theorem remove_root_cpuset_heap (env : Env) (path_ : String) (w : World) :
    (remove_root_cpuset env path_ w).heap = w.heap := rfl

theorem foldlM_option_cons {α β : Type} (f : β → α → Option β) (b : β) (a : α) (l : List α) :
    List.foldlM f b (a :: l) = (f b a).bind (fun b1 => List.foldlM f b1 l) := by
  simp [List.foldlM_cons]

/-- Unfolding of `cpuset_delete` on a successful run. -/
theorem cpuset_delete_some {env : Env} {fuel p : Nat} {w w4 : World}
    (h : cpuset_delete env (fuel + 1) p w = some w4) :
    ∃ node w1 node1, w.deref p = some node ∧
      node.children_.foldlM (fun w1 i => cpuset_delete env fuel i w1) w = some w1 ∧
      w1.deref p = some node1 ∧
      w4.heap = w1.heap.set p none := by
  simp only [cpuset_delete] at h
  split at h
  · cases h
  · rename_i node hnode
    split at h
    · cases h
    · rename_i w1 hfold
      split at h
      · cases h
      · rename_i node1 hnode1
        refine ⟨node, w1, node1, hnode, hfold, hnode1, ?_⟩
        injection h with h
        subst h
        split <;> rfl

/-- A `delete` changes no cell except by turning it into a destroyed one. -/
theorem cpuset_delete_frees (env : Env) :
    ∀ (fuel p : Nat) (w w4 : World), cpuset_delete env fuel p w = some w4 →
      ∀ q : Nat, w4.heap[q]? = w.heap[q]? ∨ w4.heap[q]? = some none := by
  intro fuel
  induction fuel with
  | zero => intro p w w4 h; simp [cpuset_delete] at h
  | succ fuel ih =>
    intro p w w4 h
    obtain ⟨node, w1, node1, -, hfold, hnode1, hheap⟩ := cpuset_delete_some h
    have hchild : ∀ (l : List Nat) (wa wb : World),
        l.foldlM (fun w1 i => cpuset_delete env fuel i w1) wa = some wb →
        ∀ q : Nat, wb.heap[q]? = wa.heap[q]? ∨ wb.heap[q]? = some none := by
      intro l
      induction l with
      | nil =>
        intro wa wb hl q
        simp at hl
        subst hl
        exact Or.inl rfl
      | cons i rest ihl =>
        intro wa wb hl q
        rw [foldlM_option_cons] at hl
        cases hi : cpuset_delete env fuel i wa with
        | none => simp [hi] at hl
        | some wc =>
          simp only [hi, Option.bind] at hl
          rcases ihl wc wb hl q with h1 | h1
          · rcases ih i wa wc hi q with h2 | h2
            · exact Or.inl (h1.trans h2)
            · exact Or.inr (h1.trans h2)
          · exact Or.inr h1
    intro q
    rw [hheap]
    by_cases hq : q = p
    · subst hq
      right
      have := deref_lt hnode1
      simp [this]
    · rw [List.getElem?_set_ne (Ne.symm hq)]
      exact hchild _ _ _ hfold q

theorem no_child_of_frees {r : Nat} {w w1 : World}
    (h : ∀ q : Nat, w1.heap[q]? = w.heap[q]? ∨ w1.heap[q]? = some none)
    (hw : no_child r w) : no_child r w1 := by
  intro q node hq
  rw [deref_eq_some] at hq
  rcases h q with h1 | h1
  · exact hw q node (deref_eq_some.mpr (h1 ▸ hq))
  · rw [hq] at h1
    cases h1

/-- A `delete` of a pointer other than `r` leaves the cell of `r` alone when `r`
is nobody's child. -/
theorem cpuset_delete_spares (env : Env) (r : Nat) :
    ∀ (fuel p : Nat) (w w4 : World), cpuset_delete env fuel p w = some w4 → p ≠ r →
      no_child r w → w4.heap[r]? = w.heap[r]? := by
  intro fuel
  induction fuel with
  | zero => intro p w w4 h; simp [cpuset_delete] at h
  | succ fuel ih =>
    intro p w w4 h hp hw
    obtain ⟨node, w1, node1, hnode, hfold, -, hheap⟩ := cpuset_delete_some h
    have hchild : ∀ (l : List Nat) (wa wb : World), (∀ i ∈ l, i ≠ r) → no_child r wa →
        l.foldlM (fun w1 i => cpuset_delete env fuel i w1) wa = some wb →
        wb.heap[r]? = wa.heap[r]? := by
      intro l
      induction l with
      | nil =>
        intro wa wb _ _ hl
        simp at hl
        subst hl
        rfl
      | cons i rest ihl =>
        intro wa wb hmem hwa hl
        rw [foldlM_option_cons] at hl
        cases hi : cpuset_delete env fuel i wa with
        | none => simp [hi] at hl
        | some wc =>
          simp only [hi, Option.bind] at hl
          have h1 := ih i wa wc hi (hmem i (List.mem_cons_self _ _)) hwa
          have h2 := no_child_of_frees (cpuset_delete_frees env fuel i wa wc hi) hwa
          have h3 := ihl wc wb (fun j hj => hmem j (List.mem_cons_of_mem _ hj)) h2 hl
          exact h3.trans h1
    have hne : ∀ i ∈ node.children_, i ≠ r := by
      intro i hi hir
      exact hw p node hnode (hir ▸ hi)
    rw [hheap, List.getElem?_set_ne hp]
    exact hchild _ _ _ hne hw hfold

/-! ## Inversion of the manager's member functions -/

theorem new_set_ok_inv {env : Env} {m m1 : cpuset_manager} {w w1 : World}
    {name cpus parent_cpuset_name : String} {a b c d : Bool}
    (h : new_set env m w name cpus parent_cpuset_name a b c d = .ok m1 w1) :
    ∃ p this, map_find m.set_map_ name = none ∧
      map_find m.set_map_ parent_cpuset_name = some p ∧
      cpuset_new env name cpus (some p) a b c d w = .ok this w1 ∧
      m1 = { m with set_map_ := map_assign m.set_map_ name this } := by
  unfold new_set at h
  split at h
  · cases h
  · rename_i hc
    split at h
    · cases h
    · rename_i p hp
      split at h
      · cases h
      · cases h
      · rename_i this w2 hnew
        injection h with h1 h2
        subst h1 h2
        exact ⟨p, this, map_count_eq_zero.mp (not_not.mp hc), hp, hnew, rfl⟩

theorem new_set_raised_inv {env : Env} {m : cpuset_manager} {w w1 : World}
    {name cpus parent_cpuset_name : String} {a b c d : Bool} {e : Err}
    (h : new_set env m w name cpus parent_cpuset_name a b c d = .raised e w1) :
    w1.heap = w.heap ∧ w1.number_cpus_ = w.number_cpus_ := by
  unfold new_set at h
  split at h
  · injection h with h1 h2
    subst h2
    exact ⟨rfl, rfl⟩
  · split at h
    · injection h with h1 h2
      subst h2
      exact ⟨rfl, rfl⟩
    · split at h
      · cases h
      · rename_i e1 w2 hnew
        injection h with h1 h2
        subst h2
        exact cpuset_new_raised hnew
      · cases h

theorem add_task_ok_inv {env : Env} {this : Nat} {pid : Int} {w w1 : World} {u : Unit}
    (h : add_task env this pid w = .ok u w1) :
    ∃ node, w.deref this = some node ∧
      w1.heap = w.heap.set this (some { node with pids_ := node.pids_ ++ [pid] }) := by
  unfold add_task at h
  split at h
  · cases h
  · rename_i node hnode
    simp only [call] at h
    split at h
    · cases h
    · injection h with h1 h2
      subst h2
      exact ⟨node, hnode, rfl⟩

theorem add_task_raised_inv {env : Env} {this : Nat} {pid : Int} {w w1 : World} {e : Err}
    (h : add_task env this pid w = .raised e w1) : w1.heap = w.heap := by
  unfold add_task at h
  split at h
  · cases h
  · simp only [call] at h
    split at h
    · injection h with h1 h2
      subst h2
      rfl
    · cases h

theorem add_task_to_set_ok_inv {env : Env} {m : cpuset_manager} {w w1 : World} {name : String}
    {pid : Int} {u : Unit} (h : add_task_to_set env m w name pid = .ok u w1) :
    ∃ s node, map_find m.set_map_ name = some s ∧ w.deref s = some node ∧
      w1.heap = w.heap.set s (some { node with pids_ := node.pids_ ++ [pid] }) := by
  unfold add_task_to_set at h
  split at h
  · cases h
  · rename_i s hs
    obtain ⟨node, h1, h2⟩ := add_task_ok_inv h
    exact ⟨s, node, hs, h1, h2⟩

theorem add_task_to_set_raised_inv {env : Env} {m : cpuset_manager} {w w1 : World}
    {name : String} {pid : Int} {e : Err} (h : add_task_to_set env m w name pid = .raised e w1) :
    w1.heap = w.heap := by
  unfold add_task_to_set at h
  split at h
  · injection h with h1 h2
    subst h2
    rfl
  · exact add_task_raised_inv h

theorem remove_set_ok_inv {env : Env} {m m1 : cpuset_manager} {w w1 : World} {name : String}
    (h : remove_set env m w name = .ok m1 w1) :
    ∃ root s, w.deref m.root_ = some root ∧ name ≠ root.name_ ∧
      map_find m.set_map_ name = some s ∧ delete_cpuset env s w = some w1 ∧
      m1 = { m with set_map_ := map_erase m.set_map_ name } := by
  unfold remove_set at h
  split at h
  · cases h
  · rename_i root hroot
    split at h
    · cases h
    · rename_i hne
      split at h
      · cases h
      · rename_i s hs
        split at h
        · cases h
        · rename_i w2 hdel
          injection h with h1 h2
          subst h1 h2
          exact ⟨root, s, hroot, hne, hs, hdel, rfl⟩

theorem remove_set_raised_inv {env : Env} {m : cpuset_manager} {w w1 : World} {name : String}
    {e : Err} (h : remove_set env m w name = .raised e w1) : w1 = w := by
  unfold remove_set at h
  split at h
  · cases h
  · split at h
    · injection h with h1 h2
      exact h2.symm
    · split at h
      · injection h with h1 h2
        exact h2.symm
      · split at h <;> cases h

theorem map_find_erase {m : cpuset_map_t} {k k1 : String} {p : Nat}
    (h : map_find (map_erase m k) k1 = some p) : map_find m k1 = some p := by
  induction m with
  | nil => simp [map_erase, map_find] at h
  | cons kv rest ih =>
    obtain ⟨k2, v2⟩ := kv
    unfold map_erase at h
    by_cases hk : k2 = k
    · subst hk
      have h1 : map_find (map_erase rest k2) k1 = some p := by
        simpa [List.filter, map_erase] using h
      have h2 := ih h1
      unfold map_find at h2 ⊢
      simp only [List.lookup]
      cases hb : (k1 == k2)
      · exact h2
      · exfalso
        have hk1 : k1 = k2 := by simpa using hb
        subst hk1
        have : ∀ (l : cpuset_map_t), map_find (map_erase l k1) k1 = none := by
          intro l
          induction l with
          | nil => rfl
          | cons x xs ihx =>
            obtain ⟨k3, v3⟩ := x
            unfold map_erase
            by_cases h3 : k3 = k1
            · simpa [List.filter, h3, map_erase] using ihx
            · have hb3 : (k1 == k3) = false := by simpa using fun h4 => h3 h4.symm
              simpa [List.filter, h3, map_find, List.lookup, hb3, map_erase] using ihx
        rw [this rest] at h1
        cases h1
    · have h1 : map_find ((k2, v2) :: map_erase rest k) k1 = some p := by
        simpa [List.filter, hk, map_erase] using h
      unfold map_find at h1 ⊢
      simp only [List.lookup] at h1 ⊢
      cases hb : (k1 == k2)
      · rw [hb] at h1
        exact ih h1
      · rw [hb] at h1
        exact h1

/-! ## Flags are fixed at construction -/

theorem cell_keeps_flags_refl (c : Option cpuset) : cell_keeps_flags c c := by
  cases c with
  | none => exact Or.inl rfl
  | some node => exact Or.inr ⟨node, node, rfl, rfl, rfl⟩

theorem heap_keeps_flags_refl (w : World) : heap_keeps_flags w w :=
  fun _ c hc => ⟨c, hc, cell_keeps_flags_refl c⟩

theorem heap_keeps_flags_of_eq {w w1 : World} (h : w1.heap = w.heap) : heap_keeps_flags w w1 :=
  fun _ c hc => ⟨c, h ▸ hc, cell_keeps_flags_refl c⟩

theorem heap_keeps_flags_trans {w w1 w2 : World} (h1 : heap_keeps_flags w w1)
    (h2 : heap_keeps_flags w1 w2) : heap_keeps_flags w w2 := by
  intro q c hc
  obtain ⟨c1, hc1, k1⟩ := h1 q c hc
  obtain ⟨c2, hc2, k2⟩ := h2 q c1 hc1
  refine ⟨c2, hc2, ?_⟩
  rcases k2 with k2 | ⟨n1, n2, e1, e2, f2⟩
  · exact Or.inl k2
  · rcases k1 with k1 | ⟨n0, n1a, e0, e1a, f1⟩
    · rw [k1] at e1
      cases e1
    · rw [e1a] at e1
      cases e1
      exact Or.inr ⟨n0, n2, e0, e2, f2.trans f1⟩

theorem heap_keeps_flags_of_frees {w w1 : World}
    (h : ∀ q : Nat, w1.heap[q]? = w.heap[q]? ∨ w1.heap[q]? = some none) :
    heap_keeps_flags w w1 := by
  intro q c hc
  rcases h q with h1 | h1
  · exact ⟨c, h1.trans hc, cell_keeps_flags_refl c⟩
  · exact ⟨none, h1, Or.inl rfl⟩

theorem heap_keeps_flags_set {w w1 : World} {s : Nat} {node node1 : cpuset}
    (hs : w.deref s = some node) (h : w1.heap = w.heap.set s (some node1))
    (hf : node1.flags = node.flags) : heap_keeps_flags w w1 := by
  intro q c hc
  rw [h]
  by_cases hq : q = s
  · subst hq
    have hlt := deref_lt hs
    rw [deref_eq_some.mp hs] at hc
    cases hc
    exact ⟨some node1, by simp [hlt], Or.inr ⟨node, node1, rfl, rfl, hf⟩⟩
  · rw [List.getElem?_set_ne (Ne.symm hq)]
    exact ⟨c, hc, cell_keeps_flags_refl c⟩

theorem heap_keeps_flags_append {w w1 : World} {l : List (Option cpuset)}
    (h : w1.heap = w.heap ++ l) : heap_keeps_flags w w1 := by
  intro q c hc
  have hlt : q < w.heap.length := (List.getElem?_eq_some_iff.mp hc).1
  exact ⟨c, by rw [h, List.getElem?_append_left hlt]; exact hc, cell_keeps_flags_refl c⟩

/-- Every call on the manager that has defined behaviour keeps the flags of
every node it does not destroy. -/
theorem step_keeps_flags {env : Env} {mw mw1 : cpuset_manager × World} {cmd : Cmd}
    (h : step env mw cmd = some mw1) : heap_keeps_flags mw.2 mw1.2 := by
  cases cmd with
  | new_set name cpus parent a b c d =>
    simp only [step] at h
    split at h
    · rename_i m1 w1 hr
      injection h with h
      subst h
      obtain ⟨p, this, -, -, hnew, -⟩ := new_set_ok_inv hr
      obtain ⟨par, CPUs, cl, hd, -, -, -, -, hheap, -⟩ := cpuset_new_ok hnew
      have h1 : heap_keeps_flags mw.2
          (World.mk (mw.2.heap.set p (some { par with children_ := par.children_ ++ [this] }))
            mw.2.number_cpus_ mw.2.trace) :=
        heap_keeps_flags_set hd rfl rfl
      exact heap_keeps_flags_trans h1 (heap_keeps_flags_append hheap)
    · rename_i e w1 hr
      injection h with h
      subst h
      exact heap_keeps_flags_of_eq (new_set_raised_inv hr).1
    · cases h
  | add_task_to_set name pid =>
    simp only [step] at h
    split at h
    · rename_i u w1 hr
      injection h with h
      subst h
      obtain ⟨s, node, -, hd, hheap⟩ := add_task_to_set_ok_inv hr
      exact heap_keeps_flags_set hd hheap rfl
    · rename_i e w1 hr
      injection h with h
      subst h
      exact heap_keeps_flags_of_eq (add_task_to_set_raised_inv hr)
    · cases h
  | remove_set name =>
    simp only [step] at h
    split at h
    · rename_i m1 w1 hr
      injection h with h
      subst h
      obtain ⟨root, s, -, -, -, hdel, -⟩ := remove_set_ok_inv hr
      exact heap_keeps_flags_of_frees (cpuset_delete_frees env _ _ _ _ hdel)
    · rename_i e w1 hr
      injection h with h
      subst h
      rw [remove_set_raised_inv hr]
      exact heap_keeps_flags_refl _
    · cases h

theorem run_keeps_flags {env : Env} (cmds : List Cmd) :
    ∀ {mw mw1 : cpuset_manager × World}, run env mw cmds = some mw1 →
      heap_keeps_flags mw.2 mw1.2 := by
  induction cmds with
  | nil =>
    intro mw mw1 h
    simp only [run] at h
    injection h with h
    subst h
    exact heap_keeps_flags_refl _
  | cons cmd rest ih =>
    intro mw mw1 h
    simp only [run] at h
    split at h
    · cases h
    · rename_i mw2 hs
      exact heap_keeps_flags_trans (step_keeps_flags hs) (ih h)

/-- C9. After a successful `new_set` the node `get_set` returns for the name has
the four flags that were passed; and after any further sequence of `new_set`,
`add_task_to_set` and `remove_set` calls with defined behaviour, whether they
return or throw, that node still has these four flags unless it has been
destroyed. -/
theorem flags_fixed_at_creation (env : Env) (m m1 : cpuset_manager) (w w1 : World)
    (name cpus parent_cpuset_name : String) (a b c d : Bool)
    (h : new_set env m w name cpus parent_cpuset_name a b c d = .ok m1 w1) :
    ∃ s node, get_set m1 w1 name = .ok s w1 ∧ w1.deref s = some node ∧
      node.flags = (a, b, c, d) ∧
      ∀ cmds m2 w2, run env (m1, w1) cmds = some (m2, w2) →
        ∀ node2, w2.deref s = some node2 → node2.flags = (a, b, c, d) := by
  obtain ⟨p, this, -, -, hnew, hm⟩ := new_set_ok_inv h
  obtain ⟨par, CPUs, cl, hd, -, -, hthis, -, hheap, -⟩ := cpuset_new_ok hnew
  subst hm hthis
  have hs : w1.deref w.heap.length = some
      { name_ := name, path_ := par.path_ ++ name ++ "/", CPUs_ := CPUs, pids_ := [],
        cpu_is_exclusive_ := a, mem_is_exclusive_ := b, migrate_memory_ := c,
        notify_on_release_ := d, parent_ := some p, children_ := [] } := by
    rw [deref_eq_some, hheap]
    exact getElem?_set_append_last _ _ _ _
  refine ⟨w.heap.length, _, ?_, hs, rfl, ?_⟩
  · unfold get_set
    simp [map_find_assign_self]
  · intro cmds m2 w2 hrun node2 hn2
    obtain ⟨c1, hc1, hk⟩ := run_keeps_flags cmds hrun _ _ (deref_eq_some.mp hs)
    rw [deref_eq_some.mp hn2] at hc1
    cases hc1
    rcases hk with hk | ⟨n0, n1, e0, e1, hf⟩
    · cases hk
    · cases e0
      cases e1
      exact hf

/-- The flags of `"A"`, created with `true false true false`, also after a
sibling `"B"` has been created, a task attached to `"A"` and `"B"` removed. -/
theorem flags_fixed_at_creation_witness :
    new_set env_ok manager_root world_root "A" "2-5" "root" true false true false =
      .ok manager_A world_A ∧
    (∃ mw2, run env_ok (manager_A, world_A)
        [.new_set "B" "1" "root" false false false true, .add_task_to_set "A" 42,
         .remove_set "B"] = some mw2 ∧
      (mw2.2.deref 1).map cpuset.flags = some (true, false, true, false)) ∧
    ∃ s node, get_set manager_A world_A "A" = .ok s world_A ∧ world_A.deref s = some node ∧
      node.flags = (true, false, true, false) ∧
      ∀ cmds m2 w2, run env_ok (manager_A, world_A) cmds = some (m2, w2) →
        ∀ node2, w2.deref s = some node2 → node2.flags = (true, false, true, false) :=
  ⟨rfl, ⟨_, rfl, rfl⟩, flags_fixed_at_creation env_ok manager_root manager_A world_root world_A
    "A" "2-5" "root" true false true false rfl⟩

/-! ## The root is never removed -/

theorem try_again_heap (env : Env) (path_ : String) :
    ∀ (fuel tries : Nat) (w : World),
      (∀ w1, try_again env path_ fuel tries w = .created w1 → w1.heap = w.heap) ∧
      (∀ w1, try_again env path_ fuel tries w = .use_existing w1 → w1.heap = w.heap) := by
  intro fuel
  induction fuel with
  | zero =>
    intro tries w
    constructor <;> intro w1 h <;> simp [try_again] at h
  | succ fuel ih =>
    intro tries w
    simp only [try_again, call]
    constructor
    · intro w1 h
      split at h
      · split at h
        · split at h
          · have h3 := (ih _ _).1 w1 h
            exact h3
          · cases h
        · cases h
      · injection h with h
        subst h
        rfl
    · intro w1 h
      split at h
      · split at h
        · split at h
          · have h3 := (ih _ _).2 w1 h
            exact h3
          · injection h with h
            subst h
            rfl
        · cases h
      · cases h

/-- A root constructor that returns has put one node named `ROOT_NAME`, without
children, at the next free address. -/
theorem cpuset_root_ok {env : Env} {w w1 : World} {r : Nat}
    (h : cpuset_root env w = .ok r w1) :
    r = w.heap.length ∧ ∃ node, w1.heap = w.heap ++ [some node] ∧
      node.name_ = ROOT_NAME ∧ node.children_ = [] := by
  unfold cpuset_root at h
  split at h
  · cases h
  · split at h
    · cases h
    · rename_i n hn
      dsimp only at h
      split at h
      · cases h
      · rename_i w2 htry
        have hh := (try_again_heap env _ _ _ _).2 w2 htry
        injection h with h1 h2
        subst h1 h2
        exact ⟨by simp [hh], root_node, by simp [hh], rfl, rfl⟩
      · rename_i w2 htry
        have hh := (try_again_heap env _ _ _ _).1 w2 htry
        simp only [call] at h
        split at h
        · cases h
        · injection h with h1 h2
          subst h1 h2
          exact ⟨by simp [hh], { root_node with CPUs_ := List.range n }, by simp [hh], rfl, rfl⟩

theorem root_invariant_init {env : Env} {indeterminate : Nat} {m : cpuset_manager} {w : World}
    (h : cpuset_manager_new env indeterminate World.initial = .ok m w) :
    root_invariant (m, w) := by
  unfold cpuset_manager_new at h
  split at h
  · cases h
  · cases h
  · rename_i r w1 hroot
    obtain ⟨hr, node, hheap, hname, hch⟩ := cpuset_root_ok hroot
    have hr0 : r = 0 := by simpa [World.initial] using hr
    have hh : w1.heap = [some node] := by simpa [World.initial] using hheap
    subst hr0
    have hd : w1.deref 0 = some node := by
      rw [deref_eq_some, hh]
      rfl
    rw [hd] at h
    simp only at h
    injection h with h1 h2
    subst h1 h2
    refine ⟨⟨node, hd, hname⟩, ?_, ?_⟩
    · intro k hk
      simp only [map_assign, map_find, List.lookup] at hk
      cases hb : (k == node.name_)
      · rw [hb] at hk
        cases hk
      · rw [← hname]
        simpa using hb
    · intro q n1 hq
      rw [deref_eq_some, hh] at hq
      cases q with
      | zero =>
        simp at hq
        subst hq
        simp [hch]
      | succ q => simp at hq

theorem root_invariant_of_heap_eq {m : cpuset_manager} {w w1 : World}
    (h : w1.heap = w.heap) (hi : root_invariant (m, w)) : root_invariant (m, w1) := by
  have hd : ∀ q, w1.deref q = w.deref q := fun q => by simp [World.deref, h]
  obtain ⟨⟨root, hr, hn⟩, hm, hc⟩ := hi
  exact ⟨⟨root, (hd _).trans hr, hn⟩, hm, fun q node hq => hc q node ((hd q).symm.trans hq)⟩

/-- Every call on the manager that has defined behaviour keeps the root alive,
named `ROOT_NAME`, reachable only under that key and nobody's child. -/
theorem step_root_invariant {env : Env} {mw mw1 : cpuset_manager × World} {cmd : Cmd}
    (hi : root_invariant mw) (h : step env mw cmd = some mw1) : root_invariant mw1 := by
  obtain ⟨m, w⟩ := mw
  cases cmd with
  | new_set name cpus parent a b c d =>
    simp only [step] at h
    split at h
    · rename_i m1 w1 hr
      injection h with h
      subst h
      obtain ⟨p, this, hname, -, hnew, hm1⟩ := new_set_ok_inv hr
      obtain ⟨par, CPUs, cl, hd, -, -, hthis, -, hheap, -⟩ := cpuset_new_ok hnew
      obtain ⟨⟨root, hroot, hrn⟩, hmap, hch⟩ := hi
      subst hm1
      have hrlt := deref_lt hroot
      have hplt := deref_lt hd
      have hne : m.root_ ≠ this := by
        rw [hthis]
        exact Nat.ne_of_lt hrlt
      refine ⟨?_, ?_, ?_⟩
      · by_cases hp : m.root_ = p
        · refine ⟨{ par with children_ := par.children_ ++ [this] }, ?_, ?_⟩
          · rw [deref_eq_some, hheap]
            simp only []
            rw [hp]
            exact getElem?_set_append_self _ _ _ _ hplt
          · have : par = root := by
              rw [← hp, hroot] at hd
              exact (Option.some.inj hd).symm
            rw [this]
            exact hrn
        · refine ⟨root, ?_, hrn⟩
          rw [deref_eq_some, hheap]
          simp only []
          rw [List.getElem?_append_left (by simpa using hrlt),
            List.getElem?_set_ne (Ne.symm hp)]
          exact deref_eq_some.mp hroot
      · intro k hk
        simp only [] at hk
        by_cases hkn : k = name
        · subst hkn
          rw [map_find_assign_self] at hk
          exact absurd (Option.some.inj hk).symm hne
        · rw [map_find_assign_ne _ _ hkn] at hk
          exact hmap k hk
      · intro q node hq
        simp only [] at hq ⊢
        rw [deref_eq_some, hheap] at hq
        by_cases hql : q < w.heap.length
        · rw [List.getElem?_append_left (by simpa using hql)] at hq
          by_cases hqp : q = p
          · subst hqp
            simp [hql] at hq
            subst hq
            simp only [List.mem_append, List.mem_singleton, not_or]
            exact ⟨hch q par hd, hne⟩
          · rw [List.getElem?_set_ne (Ne.symm hqp)] at hq
            exact hch q node (deref_eq_some.mpr hq)
        · rw [List.getElem?_append_right (by simpa using hql)] at hq
          simp only [List.length_set] at hq
          cases hqq : q - w.heap.length with
          | zero =>
            rw [hqq] at hq
            simp at hq
            subst hq
            simp
          | succ j =>
            rw [hqq] at hq
            simp at hq
    · rename_i e w1 hr
      injection h with h
      subst h
      exact root_invariant_of_heap_eq (new_set_raised_inv hr).1 hi
    · cases h
  | add_task_to_set name pid =>
    simp only [step] at h
    split at h
    · rename_i u w1 hr
      injection h with h
      subst h
      obtain ⟨s, node, -, hd, hheap⟩ := add_task_to_set_ok_inv hr
      obtain ⟨⟨root, hroot, hrn⟩, hmap, hch⟩ := hi
      have hslt := deref_lt hd
      refine ⟨?_, hmap, ?_⟩
      · by_cases hs : m.root_ = s
        · refine ⟨{ node with pids_ := node.pids_ ++ [pid] }, ?_, ?_⟩
          · rw [deref_eq_some, hheap]
            simp only []
            rw [hs]
            simp [hslt]
          · have : node = root := by
              rw [← hs, hroot] at hd
              exact (Option.some.inj hd).symm
            rw [this]
            exact hrn
        · refine ⟨root, ?_, hrn⟩
          rw [deref_eq_some, hheap]
          simp only []
          rw [List.getElem?_set_ne (Ne.symm hs)]
          exact deref_eq_some.mp hroot
      · intro q n1 hq
        simp only [] at hq ⊢
        rw [deref_eq_some, hheap] at hq
        by_cases hqs : q = s
        · subst hqs
          simp [hslt] at hq
          subst hq
          exact hch q node hd
        · rw [List.getElem?_set_ne (Ne.symm hqs)] at hq
          exact hch q n1 (deref_eq_some.mpr hq)
    · rename_i e w1 hr
      injection h with h
      subst h
      exact root_invariant_of_heap_eq (add_task_to_set_raised_inv hr) hi
    · cases h
  | remove_set name =>
    simp only [step] at h
    split at h
    · rename_i m1 w1 hr
      injection h with h
      subst h
      obtain ⟨root0, s, hroot0, hne, hs, hdel, hm1⟩ := remove_set_ok_inv hr
      obtain ⟨⟨root, hroot, hrn⟩, hmap, hch⟩ := hi
      subst hm1
      have hr0 : root0 = root := by
        rw [hroot] at hroot0
        exact (Option.some.inj hroot0).symm
      subst hr0
      have hsr : s ≠ m.root_ := by
        intro hsr
        rw [hsr] at hs
        exact hne ((hmap name hs).trans hrn.symm)
      have hsp := cpuset_delete_spares env m.root_ _ _ _ _ hdel hsr hch
      have hfr := cpuset_delete_frees env _ _ _ _ hdel
      refine ⟨⟨root0, ?_, hrn⟩, ?_, no_child_of_frees hfr hch⟩
      · rw [deref_eq_some]
        exact hsp.trans (deref_eq_some.mp hroot)
      · intro k hk
        exact hmap k (map_find_erase hk)
    · rename_i e w1 hr
      injection h with h
      subst h
      rw [remove_set_raised_inv hr]
      exact hi
    · cases h

theorem run_root_invariant {env : Env} (cmds : List Cmd) :
    ∀ {mw mw1 : cpuset_manager × World}, root_invariant mw → run env mw cmds = some mw1 →
      root_invariant mw1 := by
  induction cmds with
  | nil =>
    intro mw mw1 hi h
    simp only [run] at h
    injection h with h
    subst h
    exact hi
  | cons cmd rest ih =>
    intro mw mw1 hi h
    simp only [run] at h
    split at h
    · cases h
    · rename_i mw2 hs
      exact ih (step_root_invariant hi hs) h

theorem reachable_root_invariant {env : Env} {mw : cpuset_manager × World}
    (h : Reachable env mw) : root_invariant mw := by
  obtain ⟨ind, m0, w0, cmds, hnew, hrun⟩ := h
  exact run_root_invariant cmds (root_invariant_init hnew) hrun

/-- C10. In every reachable state `remove_set` called with `"root"` throws
"Cannot delete root cpuset" and returns the world it was given: no call is
issued, no object is touched and the manager is not assigned. -/
theorem remove_set_root_rejected (env : Env) (m : cpuset_manager) (w : World)
    (h : Reachable env (m, w)) :
    remove_set env m w ROOT_NAME = .raised .cannot_delete_root w := by
  obtain ⟨⟨root, hroot, hrn⟩, -, -⟩ := reachable_root_invariant h
  unfold remove_set
  simp [hroot, hrn]

/-- Removal of the root is refused in the state after `"A"` has been created. -/
theorem remove_set_root_rejected_witness :
    Reachable env_ok (manager_A, world_A) ∧
    remove_set env_ok manager_A world_A ROOT_NAME = .raised .cannot_delete_root world_A :=
  ⟨⟨0, manager_root, world_root, [.new_set "A" "2-5" "root" true false true false], rfl, rfl⟩,
   remove_set_root_rejected env_ok manager_A world_A
     ⟨0, manager_root, world_root, [.new_set "A" "2-5" "root" true false true false], rfl, rfl⟩⟩

/-! ## `remove_set` and the map -/

theorem map_find_erase_self (m : cpuset_map_t) (k : String) :
    map_find (map_erase m k) k = none := by
  induction m with
  | nil => rfl
  | cons x xs ih =>
    obtain ⟨k3, v3⟩ := x
    unfold map_erase
    by_cases h3 : k3 = k
    · simpa [List.filter, h3, map_erase] using ih
    · have hb3 : (k == k3) = false := by simpa using fun h4 => h3 h4.symm
      simpa [List.filter, h3, map_find, List.lookup, hb3, map_erase] using ih

theorem map_find_erase_ne (m : cpuset_map_t) {k k1 : String} (h : k1 ≠ k) :
    map_find (map_erase m k) k1 = map_find m k1 := by
  induction m with
  | nil => rfl
  | cons x xs ih =>
    obtain ⟨k3, v3⟩ := x
    unfold map_erase
    by_cases h3 : k3 = k
    · subst h3
      have hb : (k1 == k3) = false := by simpa using h
      have h1 : map_find (map_erase xs k3) k1 = map_find xs k1 := ih
      simpa [List.filter, map_find, List.lookup, hb, map_erase] using h1
    · have h1 : map_find (map_erase xs k) k1 = map_find xs k1 := ih
      simp only [List.filter, h3, map_find, List.lookup, ne_eq, not_false_eq_true,
        decide_True]
      cases hb : (k1 == k3)
      · simpa [map_find, map_erase] using h1
      · rfl

/-- C11. A `remove_set` that returns leaves a map in which the removed name is
not found and every other key is found with the pointer it had before, the
names of the removed node's descendants included; `root_` and `cpu_count_` are
not assigned. -/
theorem remove_set_erases_one_key (env : Env) (m m1 : cpuset_manager) (w w1 : World)
    (name : String) (h : remove_set env m w name = .ok m1 w1) :
    map_find m1.set_map_ name = none ∧
      (∀ k, k ≠ name → map_find m1.set_map_ k = map_find m.set_map_ k) ∧
      m1.root_ = m.root_ ∧ m1.cpu_count_ = m.cpu_count_ := by
  obtain ⟨root, s, -, -, -, -, hm1⟩ := remove_set_ok_inv h
  subst hm1
  exact ⟨map_find_erase_self _ _, fun k hk => map_find_erase_ne _ hk, rfl, rfl⟩

/-- Removal of `"A"`, which has the child `"B"`: the key `"B"` stays, with the
pointer to the destroyed node. -/
theorem remove_set_erases_one_key_witness :
    remove_set env_ok manager_AB world_AB "A" = .ok manager_A_removed world_A_removed ∧
    map_find manager_A_removed.set_map_ "B" = some 2 ∧
    world_A_removed.deref 2 = none ∧
    (map_find manager_A_removed.set_map_ "A" = none ∧
      (∀ k, k ≠ "A" → map_find manager_A_removed.set_map_ k = map_find manager_AB.set_map_ k) ∧
      manager_A_removed.root_ = manager_AB.root_ ∧
      manager_A_removed.cpu_count_ = manager_AB.cpu_count_) :=
  ⟨rfl, rfl, rfl,
    remove_set_erases_one_key env_ok manager_AB manager_A_removed world_AB world_A_removed "A" rfl⟩

/-! ## `add_task` -/

/-- `add_task` on a live node whose write succeeds. -/
theorem add_task_ok_of_write {env : Env} {this : Nat} {pid : Int} {w : World} {node : cpuset}
    (hlive : w.deref this = some node)
    (hwrite : env.ret w.trace (.system (ECHO ++ Nat.repr (to_unsigned pid) ++ " > tasks")) = 0) :
    add_task env this pid w = .ok ()
      { heap := w.heap.set this (some { node with pids_ := node.pids_ ++ [pid] }),
        number_cpus_ := w.number_cpus_,
        trace := w.trace ++ [.system (ECHO ++ Nat.repr (to_unsigned pid) ++ " > tasks")] } := by
  unfold add_task
  simp only [hlive, call, hwrite]
  rfl

theorem deref_set_self {w : World} {this : Nat} {node : cpuset} (node1 : cpuset)
    (hlive : w.deref this = some node) (n : Nat) (t : List Op) :
    World.deref { heap := w.heap.set this (some node1), number_cpus_ := n, trace := t } this =
      some node1 := by
  have hlt := deref_lt hlive
  rw [deref_eq_some]
  simp [hlt]

/-- C14. `add_task` on a live node whose write to the task list succeeds returns
normally; the node is as before except that the pid is appended to `pids_`; no
other heap cell changes; `add_task_to_set` with a name mapped to the node does
the same; and a second `add_task` of the same pid whose write succeeds leaves
the pid twice at the end of `pids_`. -/
theorem add_task_appends_pid (env : Env) (this : Nat) (pid : Int) (w : World) (node : cpuset)
    (hlive : w.deref this = some node)
    (hwrite : env.ret w.trace (.system (ECHO ++ Nat.repr (to_unsigned pid) ++ " > tasks")) = 0) :
    ∃ w1, add_task env this pid w = .ok () w1 ∧
      w1.deref this = some { node with pids_ := node.pids_ ++ [pid] } ∧
      (∀ q : Nat, q ≠ this → w1.heap[q]? = w.heap[q]?) ∧
      (∀ (m : cpuset_manager) (name : String), map_find m.set_map_ name = some this →
        add_task_to_set env m w name pid = .ok () w1) ∧
      (env.ret w1.trace (.system (ECHO ++ Nat.repr (to_unsigned pid) ++ " > tasks")) = 0 →
        ∃ w2, add_task env this pid w1 = .ok () w2 ∧
          w2.deref this = some { node with pids_ := node.pids_ ++ [pid, pid] }) := by
  have h1 := add_task_ok_of_write hlive hwrite
  have hd1 := deref_set_self { node with pids_ := node.pids_ ++ [pid] } hlive
    w.number_cpus_ (w.trace ++ [.system (ECHO ++ Nat.repr (to_unsigned pid) ++ " > tasks")])
  refine ⟨_, h1, hd1, ?_, ?_, ?_⟩
  · intro q hq
    simp only []
    exact List.getElem?_set_ne (Ne.symm hq)
  · intro m name hname
    unfold add_task_to_set
    simp only [hname]
    exact h1
  · intro hwrite2
    have h2 := add_task_ok_of_write hd1 hwrite2
    refine ⟨_, h2, ?_⟩
    have hd2 := deref_set_self
      { node with pids_ := node.pids_ ++ [pid] ++ [pid] } hd1 w.number_cpus_
      (w.trace ++ [.system (ECHO ++ Nat.repr (to_unsigned pid) ++ " > tasks")] ++
        [.system (ECHO ++ Nat.repr (to_unsigned pid) ++ " > tasks")])
    simpa using hd2

/-- The pid 42 attached twice to `"A"`. -/
theorem add_task_appends_pid_witness :
    ∃ w1, add_task env_ok 1 42 world_A = .ok () w1 ∧
      w1.deref 1 = some { node_A with pids_ := node_A.pids_ ++ [42] } ∧
      (∀ q : Nat, q ≠ 1 → w1.heap[q]? = world_A.heap[q]?) ∧
      (∀ (m : cpuset_manager) (name : String), map_find m.set_map_ name = some 1 →
        add_task_to_set env_ok m world_A name 42 = .ok () w1) ∧
      (env_ok.ret w1.trace (.system (ECHO ++ Nat.repr (to_unsigned 42) ++ " > tasks")) = 0 →
        ∃ w2, add_task env_ok 1 42 w1 = .ok () w2 ∧
          w2.deref 1 = some { node_A with pids_ := node_A.pids_ ++ [42, 42] }) :=
  add_task_appends_pid env_ok 1 42 world_A node_A rfl rfl

/-- C19. `add_task` of pid 42 on `"A"`, whose path is `/dev/cpuset/A/`, issues
`/bin/echo 42 > tasks`: the text is the decimal pid, but the target is the
relative name `tasks`, not `/dev/cpuset/A/tasks`, and the redirection is `>`.
The command is the same for every node. -/
theorem add_task_writes_relative_tasks :
    (∃ w1, add_task env_ok 1 42 world_A = .ok () w1 ∧
      w1.trace = world_A.trace ++ [.system "/bin/echo 42 > tasks"]) ∧
    node_A.path_ = "/dev/cpuset/A/" ∧
    ∀ (env : Env) (this : Nat) (w : World) (node : cpuset) (r : Unit) (w1 : World),
      w.deref this = some node → add_task env this 42 w = .ok r w1 →
      w1.trace = w.trace ++ [.system "/bin/echo 42 > tasks"] := by
  refine ⟨⟨_, rfl, rfl⟩, rfl, ?_⟩
  intro env this w node r w1 hlive h
  unfold add_task at h
  simp only [hlive, call] at h
  split at h
  · cases h
  · injection h with h1 h2
    subst h2
    rfl

/-! ## Construction of the manager -/

theorem try_again_number_cpus (env : Env) (path_ : String) :
    ∀ (fuel tries : Nat) (w : World),
      (∀ w1, try_again env path_ fuel tries w = .created w1 →
        w1.number_cpus_ = w.number_cpus_) ∧
      (∀ w1, try_again env path_ fuel tries w = .use_existing w1 →
        w1.number_cpus_ = w.number_cpus_) := by
  intro fuel
  induction fuel with
  | zero =>
    intro tries w
    constructor <;> intro w1 h <;> simp [try_again] at h
  | succ fuel ih =>
    intro tries w
    simp only [try_again, call]
    constructor
    · intro w1 h
      split at h
      · split at h
        · split at h
          · have h3 := (ih _ _).1 w1 h
            exact h3
          · cases h
        · cases h
      · injection h with h
        subst h
        rfl
    · intro w1 h
      split at h
      · split at h
        · split at h
          · have h3 := (ih _ _).2 w1 h
            exact h3
          · injection h with h
            subst h
            rfl
        · cases h
      · cases h

/-- The root constructor when the directory has been created and the mount
succeeds. -/
theorem cpuset_root_created {env : Env} {w w1 : World} {n : Nat}
    (h0 : w.number_cpus_ = 0) (hn : how_many_cpus env = .ok n)
    (hdir : try_again env CPUSET_PATH TRIES 0 { w with number_cpus_ := n } = .created w1)
    (hmount : env.ret w1.trace (.mount ROOT_LABEL CPUSET_PATH) = 0) :
    cpuset_root env w = .ok w.heap.length
      { heap := w.heap ++ [some { root_node with CPUs_ := List.range n }],
        number_cpus_ := n,
        trace := w1.trace ++ [.mount ROOT_LABEL CPUSET_PATH] } := by
  have hh0 := (try_again_heap env _ _ _ _).1 w1 hdir
  have hc0 := (try_again_number_cpus env _ _ _ _).1 w1 hdir
  have hh : w1.heap = w.heap := hh0
  have hc : w1.number_cpus_ = n := hc0
  have hp : root_node.path_ = CPUSET_PATH := rfl
  unfold cpuset_root
  simp only [h0, hn, hp, hdir, call, hmount, hh, hc, ne_eq, not_true_eq_false, if_false]

/-- C16. When the CPU count is `n`, the root directory has been created and the
mount succeeds, the constructor of the manager returns; the map has the single
entry `"root"` with the root pointer; the root node is alive with name `"root"`,
path `"/dev/cpuset/"`, CPUs `0 .. n-1`, no pids, flags `true true false false`,
no parent and no children. -/
theorem manager_new_builds_root (env : Env) (indeterminate n : Nat) (w w1 : World)
    (h0 : w.number_cpus_ = 0) (hn : how_many_cpus env = .ok n)
    (hdir : try_again env CPUSET_PATH TRIES 0 { w with number_cpus_ := n } = .created w1)
    (hmount : env.ret w1.trace (.mount ROOT_LABEL CPUSET_PATH) = 0) :
    ∃ m w2, cpuset_manager_new env indeterminate w = .ok m w2 ∧
      m.set_map_ = [("root", m.root_)] ∧
      w2.deref m.root_ = some
        { name_ := "root", path_ := "/dev/cpuset/", CPUs_ := List.range n, pids_ := [],
          cpu_is_exclusive_ := true, mem_is_exclusive_ := true, migrate_memory_ := false,
          notify_on_release_ := false, parent_ := none, children_ := [] } ∧
      w2.number_cpus_ = n := by
  have hroot := cpuset_root_created h0 hn hdir hmount
  have hd : World.deref
      { heap := w.heap ++ [some { root_node with CPUs_ := List.range n }],
        number_cpus_ := n,
        trace := w1.trace ++ [.mount ROOT_LABEL CPUSET_PATH] } w.heap.length =
      some { root_node with CPUs_ := List.range n } := by
    rw [deref_eq_some]
    simp
  refine ⟨{ cpu_count_ := indeterminate, root_ := w.heap.length,
            set_map_ := [("root", w.heap.length)] }, _, ?_, rfl, hd, rfl⟩
  unfold cpuset_manager_new
  simp only [hroot, hd]
  rfl

/-- Construction on `env_ok`, where the first `mkdir` succeeds, and on
`env_root_exists_once`, where it succeeds after one purge. -/
theorem manager_new_builds_root_witness :
    (∃ m w2, cpuset_manager_new env_ok 0 World.initial = .ok m w2 ∧
      m.set_map_ = [("root", m.root_)] ∧
      w2.deref m.root_ = some
        { name_ := "root", path_ := "/dev/cpuset/", CPUs_ := List.range 8, pids_ := [],
          cpu_is_exclusive_ := true, mem_is_exclusive_ := true, migrate_memory_ := false,
          notify_on_release_ := false, parent_ := none, children_ := [] } ∧
      w2.number_cpus_ = 8) ∧
    (∃ m w2, cpuset_manager_new env_root_exists_once 0 World.initial = .ok m w2 ∧
      m.set_map_ = [("root", m.root_)] ∧
      w2.deref m.root_ = some
        { name_ := "root", path_ := "/dev/cpuset/", CPUs_ := List.range 8, pids_ := [],
          cpu_is_exclusive_ := true, mem_is_exclusive_ := true, migrate_memory_ := false,
          notify_on_release_ := false, parent_ := none, children_ := [] } ∧
      w2.number_cpus_ = 8) :=
  ⟨manager_new_builds_root env_ok 0 8 World.initial
      { heap := [], number_cpus_ := 8, trace := [.mkdir "/dev/cpuset/"] } rfl rfl rfl rfl,
   manager_new_builds_root env_root_exists_once 0 8 World.initial
      { heap := [], number_cpus_ := 8,
        trace := [.mkdir "/dev/cpuset/", .umount "/dev/cpuset/", .rmdir "/dev/cpuset/",
          .mkdir "/dev/cpuset/"] } rfl rfl rfl rfl⟩

/-- C20. Whatever value the unassigned member `cpu_count_` holds is what the
accessor `how_many_cpus` returns after construction: on a machine with 8 CPUs,
with the member holding 0, the accessor returns 0 while `number_cpus_`, against
which nodes validate, is 8. -/
theorem manager_cpu_count_not_set :
    (∀ indeterminate, ∃ m w, cpuset_manager_new env_ok indeterminate World.initial = .ok m w ∧
      m.how_many_cpus = indeterminate ∧ w.number_cpus_ = 8) ∧
    (∃ m w, cpuset_manager_new env_ok 0 World.initial = .ok m w ∧
      m.how_many_cpus = 0 ∧ how_many_cpus env_ok = .ok 8 ∧ w.number_cpus_ = 8) :=
  ⟨fun indeterminate => ⟨{ cpu_count_ := indeterminate, root_ := 0, set_map_ := [("root", 0)] },
      world_root, rfl, rfl, rfl⟩,
   ⟨manager_root, world_root, rfl, rfl, rfl, rfl⟩⟩

/-! ## The CPU count is set once -/

theorem cpuset_delete_number_cpus (env : Env) :
    ∀ (fuel p : Nat) (w w4 : World), cpuset_delete env fuel p w = some w4 →
      w4.number_cpus_ = w.number_cpus_ := by
  intro fuel
  induction fuel with
  | zero => intro p w w4 h; simp [cpuset_delete] at h
  | succ fuel ih =>
    intro p w w4 h
    have hchild : ∀ (l : List Nat) (wa wb : World),
        l.foldlM (fun w1 i => cpuset_delete env fuel i w1) wa = some wb →
        wb.number_cpus_ = wa.number_cpus_ := by
      intro l
      induction l with
      | nil =>
        intro wa wb hl
        simp at hl
        subst hl
        rfl
      | cons i rest ihl =>
        intro wa wb hl
        rw [foldlM_option_cons] at hl
        cases hi : cpuset_delete env fuel i wa with
        | none => simp [hi] at hl
        | some wc =>
          simp only [hi, Option.bind] at hl
          exact (ihl wc wb hl).trans (ih i wa wc hi)
    simp only [cpuset_delete] at h
    split at h
    · cases h
    · split at h
      · cases h
      · rename_i w1 hfold
        split at h
        · cases h
        · injection h with h
          subst h
          have h1 := hchild _ _ _ hfold
          split <;> exact h1

theorem add_task_number_cpus {env : Env} {this : Nat} {pid : Int} {w w1 : World} :
    (∀ u, add_task env this pid w = .ok u w1 → w1.number_cpus_ = w.number_cpus_) ∧
    (∀ e, add_task env this pid w = .raised e w1 → w1.number_cpus_ = w.number_cpus_) := by
  constructor
  · intro u h
    unfold add_task at h
    split at h
    · cases h
    · simp only [call] at h
      split at h
      · cases h
      · injection h with h1 h2
        subst h2
        rfl
  · intro e h
    unfold add_task at h
    split at h
    · cases h
    · simp only [call] at h
      split at h
      · injection h with h1 h2
        subst h2
        rfl
      · cases h

theorem add_task_to_set_number_cpus {env : Env} {m : cpuset_manager} {name : String}
    {pid : Int} {w w1 : World} :
    (∀ u, add_task_to_set env m w name pid = .ok u w1 → w1.number_cpus_ = w.number_cpus_) ∧
    (∀ e, add_task_to_set env m w name pid = .raised e w1 →
      w1.number_cpus_ = w.number_cpus_) := by
  constructor
  · intro u h
    unfold add_task_to_set at h
    split at h
    · cases h
    · exact add_task_number_cpus.1 u h
  · intro e h
    unfold add_task_to_set at h
    split at h
    · injection h with h1 h2
      subst h2
      rfl
    · exact add_task_number_cpus.2 e h

/-- No call on the manager changes `number_cpus_`. -/
theorem step_number_cpus {env : Env} {mw mw1 : cpuset_manager × World} {cmd : Cmd}
    (h : step env mw cmd = some mw1) : mw1.2.number_cpus_ = mw.2.number_cpus_ := by
  cases cmd with
  | new_set name cpus parent a b c d =>
    simp only [step] at h
    split at h
    · rename_i m1 w1 hr
      injection h with h
      subst h
      obtain ⟨p, this, -, -, hnew, -⟩ := new_set_ok_inv hr
      obtain ⟨par, CPUs, cl, -, -, -, -, hnum, -, -⟩ := cpuset_new_ok hnew
      exact hnum
    · rename_i e w1 hr
      injection h with h
      subst h
      exact (new_set_raised_inv hr).2
    · cases h
  | add_task_to_set name pid =>
    simp only [step] at h
    split at h
    · rename_i u w1 hr
      injection h with h
      subst h
      exact add_task_to_set_number_cpus.1 u hr
    · rename_i e w1 hr
      injection h with h
      subst h
      exact add_task_to_set_number_cpus.2 e hr
    · cases h
  | remove_set name =>
    simp only [step] at h
    split at h
    · rename_i m1 w1 hr
      injection h with h
      subst h
      obtain ⟨root, s, -, -, -, hdel, -⟩ := remove_set_ok_inv hr
      exact cpuset_delete_number_cpus env _ _ _ _ hdel
    · rename_i e w1 hr
      injection h with h
      subst h
      rw [remove_set_raised_inv hr]
    · cases h

theorem run_number_cpus {env : Env} (cmds : List Cmd) :
    ∀ {mw mw1 : cpuset_manager × World}, run env mw cmds = some mw1 →
      mw1.2.number_cpus_ = mw.2.number_cpus_ := by
  induction cmds with
  | nil =>
    intro mw mw1 h
    simp only [run] at h
    injection h with h
    subst h
    rfl
  | cons cmd rest ih =>
    intro mw mw1 h
    simp only [run] at h
    split at h
    · cases h
    · rename_i mw2 hs
      exact (ih h).trans (step_number_cpus hs)

/-- A root constructor that returns has stored the CPU count it was told. -/
theorem cpuset_root_ok_number_cpus {env : Env} {w w1 : World} {r : Nat}
    (h : cpuset_root env w = .ok r w1) : how_many_cpus env = .ok w1.number_cpus_ := by
  unfold cpuset_root at h
  split at h
  · cases h
  · split at h
    · cases h
    · rename_i n hn
      dsimp only at h
      split at h
      · cases h
      · rename_i w2 htry
        have hc := (try_again_number_cpus env _ _ _ _).2 w2 htry
        injection h with h1 h2
        subst h2
        rw [hn]
        exact congrArg Except.ok hc.symm
      · rename_i w2 htry
        have hc := (try_again_number_cpus env _ _ _ _).1 w2 htry
        simp only [call] at h
        split at h
        · cases h
        · injection h with h1 h2
          subst h2
          rw [hn]
          exact congrArg Except.ok hc.symm

theorem manager_new_ok_number_cpus {env : Env} {indeterminate : Nat} {m : cpuset_manager}
    {w w1 : World} (h : cpuset_manager_new env indeterminate w = .ok m w1) :
    how_many_cpus env = .ok w1.number_cpus_ := by
  unfold cpuset_manager_new at h
  split at h
  · cases h
  · cases h
  · rename_i r w2 hroot
    split at h
    · cases h
    · injection h with h1 h2
      subst h2
      exact cpuset_root_ok_number_cpus hroot

/-- C17. In every state reachable after the manager, and with it the root, has
been constructed on a machine with at least one CPU, `number_cpus_` is that CPU
count; another root constructor, alone or inside another manager constructor,
throws "To be used only once" and returns the world it was given: no call is
issued and `number_cpus_` is unchanged. -/
theorem second_root_rejected (env : Env) (m : cpuset_manager) (w : World) (n : Nat)
    (hr : Reachable env (m, w)) (hn : how_many_cpus env = .ok n) (hpos : n ≠ 0) :
    w.number_cpus_ = n ∧
      cpuset_root env w = .raised .root_only_once w ∧
      ∀ indeterminate, cpuset_manager_new env indeterminate w = .raised .root_only_once w := by
  obtain ⟨ind, m0, w0, cmds, hnew, hrun⟩ := hr
  have h0 := manager_new_ok_number_cpus hnew
  rw [hn] at h0
  have h1 : w0.number_cpus_ = n := by
    injection h0 with h0
    exact h0.symm
  have h2 : w.number_cpus_ = n := (run_number_cpus cmds hrun).trans h1
  have h3 : cpuset_root env w = .raised .root_only_once w := by
    unfold cpuset_root
    simp [h2, hpos]
  refine ⟨h2, h3, ?_⟩
  intro indeterminate
  unfold cpuset_manager_new
  simp only [h3]

/-- A second root in the state after `"A"` has been created. -/
theorem second_root_rejected_witness :
    Reachable env_ok (manager_A, world_A) ∧ how_many_cpus env_ok = .ok 8 ∧
    (world_A.number_cpus_ = 8 ∧
      cpuset_root env_ok world_A = .raised .root_only_once world_A ∧
      ∀ indeterminate,
        cpuset_manager_new env_ok indeterminate world_A = .raised .root_only_once world_A) :=
  ⟨⟨0, manager_root, world_root, [.new_set "A" "2-5" "root" true false true false], rfl, rfl⟩,
   rfl,
   second_root_rejected env_ok manager_A world_A 8
     ⟨0, manager_root, world_root, [.new_set "A" "2-5" "root" true false true false], rfl, rfl⟩
     rfl (by decide)⟩

/-! ## Names that are not in the map -/

/-- The key `ROOT_NAME` stays mapped to the root pointer. -/
theorem step_root_indexed {env : Env} {mw mw1 : cpuset_manager × World} {cmd : Cmd}
    (hi : root_invariant mw) (hx : map_find mw.1.set_map_ ROOT_NAME = some mw.1.root_)
    (h : step env mw cmd = some mw1) :
    map_find mw1.1.set_map_ ROOT_NAME = some mw1.1.root_ := by
  obtain ⟨m, w⟩ := mw
  cases cmd with
  | new_set name cpus parent a b c d =>
    simp only [step] at h
    split at h
    · rename_i m1 w1 hr
      injection h with h
      subst h
      obtain ⟨p, this, hname, -, -, hm1⟩ := new_set_ok_inv hr
      subst hm1
      have hne : ROOT_NAME ≠ name := by
        rintro rfl
        simp only [] at hx
        rw [hname] at hx
        cases hx
      simp only []
      rw [map_find_assign_ne _ _ hne]
      exact hx
    · injection h with h
      subst h
      exact hx
    · cases h
  | add_task_to_set name pid =>
    simp only [step] at h
    split at h
    · injection h with h
      subst h
      exact hx
    · injection h with h
      subst h
      exact hx
    · cases h
  | remove_set name =>
    simp only [step] at h
    split at h
    · rename_i m1 w1 hr
      injection h with h
      subst h
      obtain ⟨root0, s, hroot0, hne, -, -, hm1⟩ := remove_set_ok_inv hr
      obtain ⟨⟨root, hroot, hrn⟩, -, -⟩ := hi
      subst hm1
      have hr0 : root0 = root := by
        simp only [] at hroot
        rw [hroot] at hroot0
        exact (Option.some.inj hroot0).symm
      subst hr0
      have hne2 : ROOT_NAME ≠ name := by
        intro h2
        exact hne (h2.symm.trans hrn.symm)
      simp only []
      rw [map_find_erase_ne _ hne2]
      exact hx
    · injection h with h
      subst h
      exact hx
    · cases h

theorem run_root_indexed {env : Env} (cmds : List Cmd) :
    ∀ {mw mw1 : cpuset_manager × World}, root_invariant mw →
      map_find mw.1.set_map_ ROOT_NAME = some mw.1.root_ → run env mw cmds = some mw1 →
      map_find mw1.1.set_map_ ROOT_NAME = some mw1.1.root_ := by
  induction cmds with
  | nil =>
    intro mw mw1 _ hx h
    simp only [run] at h
    injection h with h
    subst h
    exact hx
  | cons cmd rest ih =>
    intro mw mw1 hi hx h
    simp only [run] at h
    split at h
    · cases h
    · rename_i mw2 hs
      exact ih (step_root_invariant hi hs) (step_root_indexed hi hx hs) h

theorem manager_new_root_indexed {env : Env} {indeterminate : Nat} {m : cpuset_manager}
    {w w1 : World} (h : cpuset_manager_new env indeterminate w = .ok m w1) :
    map_find m.set_map_ ROOT_NAME = some m.root_ := by
  unfold cpuset_manager_new at h
  split at h
  · cases h
  · cases h
  · rename_i r w2 hroot
    obtain ⟨hr, node, hheap, hname, -⟩ := cpuset_root_ok hroot
    have hd : w2.deref r = some node := by
      rw [deref_eq_some, hheap, hr]
      simp
    rw [hd] at h
    simp only at h
    injection h with h1 h2
    subst h1
    simp only [hname]
    exact map_find_assign_self _ _ _

theorem reachable_root_indexed {env : Env} {mw : cpuset_manager × World}
    (h : Reachable env mw) : map_find mw.1.set_map_ ROOT_NAME = some mw.1.root_ := by
  obtain ⟨ind, m0, w0, cmds, hnew, hrun⟩ := h
  exact run_root_indexed cmds (root_invariant_init hnew) (manager_new_root_indexed hnew) hrun

/-- C15. In every reachable state and for every name that is not in the map,
`get_set`, `gimme_the_damn_set`, `add_task_to_set` and `remove_set` throw their
"not found" error and return the world they were given: no call is issued, no
object changes and the manager is not assigned. For every name that is in the
map `get_set` and `gimme_the_damn_set` return the pointer stored under it. -/
theorem absent_name_rejected (env : Env) (m : cpuset_manager) (w : World) (name : String)
    (pid : Int) (hr : Reachable env (m, w)) (habsent : map_find m.set_map_ name = none) :
    get_set m w name = .raised (.cannot_get_not_found name) w ∧
      gimme_the_damn_set m w name = .raised (.cannot_get_not_found name) w ∧
      add_task_to_set env m w name pid = .raised (.cannot_get_not_found name) w ∧
      remove_set env m w name = .raised (.cannot_remove_not_found name) w ∧
      ∀ k s, map_find m.set_map_ k = some s →
        get_set m w k = .ok s w ∧ gimme_the_damn_set m w k = .ok s w := by
  obtain ⟨⟨root, hroot, hrn⟩, -, -⟩ := reachable_root_invariant hr
  have hx := reachable_root_indexed hr
  have hne : name ≠ root.name_ := by
    rintro rfl
    simp only [] at hx
    rw [hrn] at habsent
    rw [habsent] at hx
    cases hx
  refine ⟨?_, ?_, ?_, ?_, ?_⟩
  · unfold get_set
    simp [habsent]
  · unfold gimme_the_damn_set
    simp [habsent]
  · unfold add_task_to_set
    simp [habsent]
  · unfold remove_set
    simp only [] at hroot
    simp [hroot, hne, habsent]
  · intro k s hk
    unfold get_set gimme_the_damn_set
    simp [hk]

/-- The name `"Z"` in the state after `"A"` has been created. -/
theorem absent_name_rejected_witness :
    Reachable env_ok (manager_A, world_A) ∧ map_find manager_A.set_map_ "Z" = none ∧
    (get_set manager_A world_A "Z" = .raised (.cannot_get_not_found "Z") world_A ∧
      gimme_the_damn_set manager_A world_A "Z" = .raised (.cannot_get_not_found "Z") world_A ∧
      add_task_to_set env_ok manager_A world_A "Z" 42 =
        .raised (.cannot_get_not_found "Z") world_A ∧
      remove_set env_ok manager_A world_A "Z" = .raised (.cannot_remove_not_found "Z") world_A ∧
      ∀ k s, map_find manager_A.set_map_ k = some s →
        get_set manager_A world_A k = .ok s world_A ∧
          gimme_the_damn_set manager_A world_A k = .ok s world_A) :=
  ⟨⟨0, manager_root, world_root, [.new_set "A" "2-5" "root" true false true false], rfl, rfl⟩,
   rfl,
   absent_name_rejected env_ok manager_A world_A "Z" 42
     ⟨0, manager_root, world_root, [.new_set "A" "2-5" "root" true false true false], rfl, rfl⟩
     rfl⟩

/-! ## The serialised CPU list -/

theorem parse_cpulist_snd {n : Nat} {cpus : String} {CPUs : List Nat} {cpulist : String}
    (h : parse_cpulist n cpus = .ok (CPUs, cpulist)) : cpulist = serialise CPUs := by
  unfold parse_cpulist at h
  split at h
  · cases h
  · split at h
    · cases h
    · injection h with h
      injection h with h1 h2
      subst h1
      exact h2.symm

theorem intercalate_go_eq_foldl (s : String) (l : List String) :
    ∀ acc, String.intercalate.go acc s l = l.foldl (fun a x => a ++ s ++ x) acc := by
  induction l with
  | nil => intro acc; rfl
  | cons x xs ih => intro acc; simp [String.intercalate.go, ih]

theorem foldl_comma_shift (l : List Nat) :
    ∀ acc : String,
      l.foldl (fun a c => a ++ Nat.repr c ++ ",") (acc ++ ",") =
        l.foldl (fun a c => a ++ "," ++ Nat.repr c) acc ++ "," := by
  induction l with
  | nil => intro acc; rfl
  | cons x xs ih =>
    intro acc
    simp only [List.foldl_cons]
    rw [← ih]

theorem foldl_range_getD (F : String → Nat → String) (pre : List Nat) :
    ∀ (suf : List Nat) (acc : String),
      (List.range pre.length).foldl (fun a i => F a ((pre ++ suf).getD i 0)) acc =
        pre.foldl F acc := by
  induction pre using List.reverseRecOn with
  | nil => intro suf acc; rfl
  | append_singleton p y ih =>
    intro suf acc
    have h1 : (p ++ [y]).length = p.length + 1 := by simp
    rw [h1, List.range_succ, List.foldl_append, List.foldl_append]
    have h2 : p ++ [y] ++ suf = p ++ ([y] ++ suf) := by simp
    rw [h2, ih ([y] ++ suf) acc]
    have h3 : (p ++ ([y] ++ suf)).getD p.length 0 = y := by
      rw [List.getD_eq_getElem?_getD, List.getElem?_append_right (Nat.le_refl _)]
      simp
    simp only [List.foldl_cons, List.foldl_nil, h3]

/-- The string the serialisation loop builds: the decimal numbers of the list,
in the order of the list, joined by single commas. -/
theorem serialise_eq_intercalate (CPUs : List Nat) :
    serialise CPUs = ",".intercalate (CPUs.map Nat.repr) := by
  induction CPUs using List.reverseRecOn with
  | nil => rfl
  | append_singleton pre x _ =>
    have hJ : serialise (pre ++ [x]) =
        pre.foldl (fun a c => a ++ Nat.repr c ++ ",") "" ++ Nat.repr x := by
      unfold serialise
      have h1 : (pre ++ [x]).length = pre.length + 1 := by simp
      rw [h1, List.range_succ, List.foldl_append]
      have h4 := foldl_range_getD (fun (a : String) (c : Nat) => a ++ Nat.repr c ++ ",")
        pre [x] ""
      have h3 : (List.range pre.length).foldl
            (fun cpu_list i => cpu_list ++ digits (pre ++ [x]) i) "" =
          pre.foldl (fun a c => a ++ Nat.repr c ++ ",") "" := by
        rw [← h4]
        apply List.foldl_ext
        intro a i hi
        have hi1 : i < pre.length := List.mem_range.mp hi
        simp [digits, hi1, String.append_assoc]
      rw [h3]
      simp [digits, List.getD_eq_getElem?_getD]
    rw [hJ]
    cases pre with
    | nil => simp [String.intercalate, String.intercalate.go]
    | cons a as =>
      simp only [List.cons_append, List.map_cons, String.intercalate, intercalate_go_eq_foldl,
        List.map_append, List.foldl_append, List.foldl_cons, List.foldl_nil, List.foldl_map]
      have h4 := foldl_comma_shift as (Nat.repr a)
      simp only [String.empty_append] at h4 ⊢
      rw [h4]

/-- C18, as stated, fails: the create of `"C"` with the accepted list `"4,1-2"`
succeeds, the node's CPUs are `[4, 1, 2]`, and `4,1,2` is what is written to
`cpus` and to `mems`; that list is not ascending. -/
theorem cpus_written_unsorted :
    new_set env_ok manager_AB world_AB "C" "4,1-2" "root" true true true false =
      .ok manager_ABC world_ABC ∧
    world_ABC.deref 3 = some node_C ∧ node_C.CPUs_ = [4, 1, 2] ∧
    Op.system "/bin/echo 4,1,2 > /dev/cpuset/C/cpus" ∈ world_ABC.trace ∧
    Op.system "/bin/echo 4,1,2 > /dev/cpuset/C/mems" ∈ world_ABC.trace ∧
    ¬ List.Pairwise (fun x y : Nat => x ≤ y) [4, 1, 2] :=
  ⟨rfl, rfl, rfl, by decide, by decide, by decide⟩

/-- C18, amended. After a `new_set` that returns, the text written to the `cpus`
entry of the new node and, identically, to its `mems` entry is the decimal
numbers of the node's `CPUs_`, in the order in which the parser pushed them,
joined by single commas; the calls issued are the parent test, `mkdir`, these
two writes and the four flag writes. -/
theorem cpus_written_in_parse_order (env : Env) (m m1 : cpuset_manager) (w w1 : World)
    (name cpus parent_cpuset_name : String) (a b c d : Bool)
    (h : new_set env m w name cpus parent_cpuset_name a b c d = .ok m1 w1) :
    ∃ (s : Nat) (node parent : cpuset) (cpulist : String),
      get_set m1 w1 name = .ok s w1 ∧ w1.deref s = some node ∧
      parse_cpulist w.number_cpus_ cpus = .ok (node.CPUs_, cpulist) ∧
      cpulist = ",".intercalate (node.CPUs_.map Nat.repr) ∧
      w1.trace = w.trace ++
        [.system (DIR_EXISTS_COMMAND ++ parent.path_),
         .mkdir node.path_,
         .system (cpus_cmd node.path_ cpulist),
         .system (mems_cmd node.path_ cpulist),
         .system (flag_cmd a node.path_ "cpu_exclusive"),
         .system (flag_cmd b node.path_ "mem_exclusive"),
         .system (flag_cmd c node.path_ "memory_migrate"),
         .system (flag_cmd d node.path_ "notify_on_release")] := by
  obtain ⟨p, this, -, -, hnew, hm⟩ := new_set_ok_inv h
  obtain ⟨par, CPUs, cl, -, hparse, -, hthis, -, hheap, htrace⟩ := cpuset_new_ok hnew
  subst hm hthis
  have hs : w1.deref w.heap.length = some
      { name_ := name, path_ := par.path_ ++ name ++ "/", CPUs_ := CPUs, pids_ := [],
        cpu_is_exclusive_ := a, mem_is_exclusive_ := b, migrate_memory_ := c,
        notify_on_release_ := d, parent_ := some p, children_ := [] } := by
    rw [deref_eq_some, hheap]
    exact getElem?_set_append_last _ _ _ _
  refine ⟨w.heap.length, _, par, cl, ?_, hs, hparse, ?_, htrace⟩
  · unfold get_set
    simp [map_find_assign_self]
  · rw [parse_cpulist_snd hparse]
    exact serialise_eq_intercalate CPUs

/-- The create of `"C"` with the list `"4,1-2"`. -/
theorem cpus_written_in_parse_order_witness :
    new_set env_ok manager_AB world_AB "C" "4,1-2" "root" true true true false =
      .ok manager_ABC world_ABC ∧
    ∃ (s : Nat) (node parent : cpuset) (cpulist : String),
      get_set manager_ABC world_ABC "C" = .ok s world_ABC ∧ world_ABC.deref s = some node ∧
      parse_cpulist world_AB.number_cpus_ "4,1-2" = .ok (node.CPUs_, cpulist) ∧
      cpulist = ",".intercalate (node.CPUs_.map Nat.repr) ∧
      world_ABC.trace = world_AB.trace ++
        [.system (DIR_EXISTS_COMMAND ++ parent.path_),
         .mkdir node.path_,
         .system (cpus_cmd node.path_ cpulist),
         .system (mems_cmd node.path_ cpulist),
         .system (flag_cmd true node.path_ "cpu_exclusive"),
         .system (flag_cmd true node.path_ "mem_exclusive"),
         .system (flag_cmd true node.path_ "memory_migrate"),
         .system (flag_cmd false node.path_ "notify_on_release")] :=
  ⟨rfl, cpus_written_in_parse_order env_ok manager_AB manager_ABC world_AB world_ABC
    "C" "4,1-2" "root" true true true false rfl⟩

/-! ## Destruction of a subtree -/

theorem Subtree.addr_mem_addrs (t : Subtree) : t.addr ∈ t.addrs := by
  cases t with
  | node p data kids => simp [Subtree.addr, Subtree.addrs]

theorem mem_addrs_all {q : Nat} {ts : List Subtree} :
    q ∈ addrs_all ts ↔ ∃ t ∈ ts, q ∈ t.addrs := by
  induction ts with
  | nil => simp [addrs_all]
  | cons t rest ih => simp [addrs_all, ih]

theorem in_heap_all_iff {w : World} {ts : List Subtree} :
    in_heap_all w ts ↔ ∀ t ∈ ts, t.in_heap w := by
  induction ts with
  | nil => simp [in_heap_all]
  | cons t rest ih => simp [in_heap_all, ih]

theorem depth_le_depth_all {t : Subtree} {ts : List Subtree} (h : t ∈ ts) :
    t.depth ≤ depth_all ts := by
  induction ts with
  | nil => simp at h
  | cons x rest ih =>
    rcases List.mem_cons.mp h with rfl | h1
    · simp [depth_all]
    · have := ih h1
      simp only [depth_all]
      omega

/-- Induction over subtrees: a property that passes from the children's
subtrees to the node holds for every subtree. -/
theorem Subtree.induction {P : Subtree → Prop}
    (h : ∀ p data kids, (∀ k ∈ kids, P k) → P (.node p data kids)) (t : Subtree) : P t := by
  suffices hs : ∀ n (t : Subtree), t.depth ≤ n → P t from hs t.depth t (Nat.le_refl _)
  intro n
  induction n with
  | zero =>
    intro t ht
    cases t with
    | node p data kids => simp [Subtree.depth] at ht
  | succ n ih =>
    intro t ht
    cases t with
    | node p data kids =>
      apply h
      intro k hk
      apply ih
      have h1 := depth_le_depth_all hk
      simp only [Subtree.depth] at ht
      omega

theorem Subtree.in_heap_congr {w w1 : World} (t : Subtree) :
    (∀ q : Nat, q ∈ t.addrs → w1.heap[q]? = w.heap[q]?) → t.in_heap w → t.in_heap w1 := by
  induction t using Subtree.induction with
  | h p data kids ih =>
    intro hq hin
    simp only [Subtree.in_heap] at hin ⊢
    obtain ⟨hd, hc, hk⟩ := hin
    refine ⟨?_, hc, ?_⟩
    · rw [deref_eq_some] at hd ⊢
      rw [hq p (by simp [Subtree.addrs])]
      exact hd
    · rw [in_heap_all_iff] at hk ⊢
      intro k hkm
      apply ih k hkm _ (hk k hkm)
      intro q hqk
      apply hq
      simp only [Subtree.addrs, List.mem_cons]
      exact Or.inr (mem_addrs_all.mpr ⟨k, hkm, hqk⟩)

theorem in_heap_all_congr {w w1 : World} {ts : List Subtree}
    (hq : ∀ q : Nat, q ∈ addrs_all ts → w1.heap[q]? = w.heap[q]?) (h : in_heap_all w ts) :
    in_heap_all w1 ts := by
  rw [in_heap_all_iff] at h ⊢
  intro t ht
  exact t.in_heap_congr (fun q hqt => hq q (mem_addrs_all.mpr ⟨t, ht, hqt⟩)) (h t ht)

theorem Subtree.addrs_lt {w : World} (t : Subtree) :
    t.in_heap w → ∀ q ∈ t.addrs, q < w.heap.length := by
  induction t using Subtree.induction with
  | h p data kids ih =>
    intro hin q hq
    simp only [Subtree.in_heap] at hin
    obtain ⟨hd, -, hk⟩ := hin
    simp only [Subtree.addrs, List.mem_cons] at hq
    rcases hq with rfl | hq
    · exact deref_lt hd
    · obtain ⟨k, hkm, hqk⟩ := mem_addrs_all.mp hq
      exact ih k hkm (in_heap_all_iff.mp hk k hkm) q hqk

theorem depth_all_le_length (ts : List Subtree)
    (h : ∀ t ∈ ts, t.depth ≤ t.addrs.length) : depth_all ts ≤ (addrs_all ts).length := by
  induction ts with
  | nil => simp [depth_all, addrs_all]
  | cons t rest ih =>
    have h1 := h t (List.mem_cons_self _ _)
    have h2 := ih (fun k hk => h k (List.mem_cons_of_mem _ hk))
    simp only [depth_all, addrs_all, List.length_append]
    omega

theorem Subtree.depth_le_length (t : Subtree) : t.depth ≤ t.addrs.length := by
  induction t using Subtree.induction with
  | h p data kids ih =>
    have := depth_all_le_length kids ih
    simp only [Subtree.depth, Subtree.addrs, List.length_cons]
    omega

theorem nodup_length_le {l : List Nat} {n : Nat} (hnd : l.Nodup) (hlt : ∀ q ∈ l, q < n) :
    l.length ≤ n := by
  have h1 : l.toFinset ⊆ Finset.range n := by
    intro q hq
    simp only [List.mem_toFinset] at hq
    simp [hlt q hq]
  have h2 := Finset.card_le_card h1
  rw [List.toFinset_card_of_nodup hnd, Finset.card_range] at h2
  exact h2

/-- The number of heap cells is enough fuel for a subtree without repeated
addresses. -/
theorem Subtree.depth_le_heap {w : World} (t : Subtree) (hin : t.in_heap w)
    (hnd : t.addrs.Nodup) : t.depth ≤ w.heap.length :=
  Nat.le_trans t.depth_le_length (nodup_length_le hnd (t.addrs_lt hin))

theorem torn_down_nil (w : World) : torn_down [] [] w w :=
  ⟨by simp, rfl, rfl, by simp, fun _ _ => rfl⟩

theorem torn_down_append {a1 a2 : List Nat} {c1 c2 : List Op} {w w1 w2 : World}
    (h1 : torn_down a1 c1 w w1) (h2 : torn_down a2 c2 w1 w2) :
    torn_down (a1 ++ a2) (c1 ++ c2) w w2 := by
  obtain ⟨t1, n1, l1, f1, k1⟩ := h1
  obtain ⟨t2, n2, l2, f2, k2⟩ := h2
  refine ⟨?_, n2.trans n1, l2.trans l1, ?_, ?_⟩
  · rw [t2, t1, List.append_assoc]
  · intro q hq
    by_cases hq2 : q ∈ a2
    · exact f2 q hq2
    · rw [k2 q hq2]
      rcases List.mem_append.mp hq with h | h
      · exact f1 q h
      · exact absurd h hq2
  · intro q hq
    simp only [List.mem_append, not_or] at hq
    rw [k2 q hq.2, k1 q hq.1]

/-- The last steps of `delete p`, after the children are gone. -/
theorem cpuset_delete_of_children {env : Env} {fuel p : Nat} {w w1 : World} {node : cpuset}
    (hd : w.deref p = some node)
    (hfold : node.children_.foldlM (fun w1 i => cpuset_delete env fuel i w1) w = some w1)
    (hd1 : w1.deref p = some node) :
    ∃ w4, cpuset_delete env (fuel + 1) p w = some w4 ∧
      torn_down [p]
        ([.chdir "/"] ++ (if node.parent_.isSome then [.rmdir node.path_]
          else [.umount node.path_, .rmdir node.path_])) w1 w4 := by
  have hlt := deref_lt hd1
  simp only [cpuset_delete, hd, hfold, hd1]
  refine ⟨_, rfl, ?_⟩
  by_cases hp : node.parent_.isSome = true
  · simp only [hp, if_true]
    refine ⟨by simp, rfl, by simp, ?_, ?_⟩
    · intro q hq
      simp only [List.mem_singleton] at hq
      subst hq
      simp [hlt]
    · intro q hq
      simp only [List.mem_singleton] at hq
      simp only [call_heap]
      exact List.getElem?_set_ne (fun h => hq h.symm)
  · simp only [hp]
    refine ⟨by simp [remove_root_cpuset], rfl, by simp [remove_root_cpuset_heap], ?_, ?_⟩
    · intro q hq
      simp only [List.mem_singleton] at hq
      subst hq
      simp [remove_root_cpuset_heap, hlt]
    · intro q hq
      simp only [List.mem_singleton] at hq
      simp only [remove_root_cpuset_heap, call_heap]
      exact List.getElem?_set_ne (fun h => hq h.symm)

/-- `delete` of the top node of a subtree that the heap holds, with fuel for its
depth: it returns, the calls issued are `teardown_calls` and exactly the cells
of the subtree are destroyed. -/
theorem cpuset_delete_subtree (env : Env) :
    ∀ (fuel : Nat) (t : Subtree) (w : World), t.in_heap w → t.addrs.Nodup → t.depth ≤ fuel →
      ∃ w1, cpuset_delete env fuel t.addr w = some w1 ∧
        torn_down t.addrs t.teardown_calls w w1 := by
  intro fuel
  induction fuel with
  | zero =>
    intro t w _ _ hdep
    cases t with
    | node p data kids => simp [Subtree.depth] at hdep
  | succ fuel ih =>
    intro t w hin hnd hdep
    cases t with
    | node p data kids =>
      have hkids : ∀ (ks : List Subtree) (wa : World), in_heap_all wa ks →
          (addrs_all ks).Nodup → depth_all ks ≤ fuel →
          ∃ wb, (ks.map Subtree.addr).foldlM (fun w1 i => cpuset_delete env fuel i w1) wa =
              some wb ∧ torn_down (addrs_all ks) (teardown_calls_all ks) wa wb := by
        intro ks
        induction ks with
        | nil =>
          intro wa _ _ _
          exact ⟨wa, by simp, torn_down_nil wa⟩
        | cons k rest ihl =>
          intro wa hina hnda hdepa
          simp only [in_heap_all] at hina
          simp only [addrs_all] at hnda
          simp only [depth_all] at hdepa
          obtain ⟨hnk, hnr, hdis⟩ := List.nodup_append.mp hnda
          obtain ⟨wk, hdel, htk⟩ := ih k wa hina.1 hnk (by omega)
          have hrest : in_heap_all wk rest := by
            apply in_heap_all_congr _ hina.2
            intro q hq
            exact htk.2.2.2.2 q (fun hqk => hdis hqk hq)
          obtain ⟨wb, hfold, htb⟩ := ihl wk hrest hnr (by omega)
          refine ⟨wb, ?_, ?_⟩
          · rw [List.map_cons, foldlM_option_cons, hdel]
            exact hfold
          · simp only [addrs_all, teardown_calls_all]
            exact torn_down_append htk htb
      simp only [Subtree.in_heap] at hin
      obtain ⟨hd, hc, hk⟩ := hin
      simp only [Subtree.addrs, List.nodup_cons] at hnd
      simp only [Subtree.depth] at hdep
      obtain ⟨w1, hfold, ht1⟩ := hkids kids w hk hnd.2 (by omega)
      have hd1 : w1.deref p = some data := by
        rw [deref_eq_some] at hd ⊢
        rw [ht1.2.2.2.2 p hnd.1]
        exact hd
      rw [← hc] at hfold
      obtain ⟨w4, hdel, ht4⟩ := cpuset_delete_of_children hd hfold hd1
      refine ⟨w4, hdel, ?_⟩
      have h5 := torn_down_append ht1 ht4
      obtain ⟨t5, n5, l5, f5, k5⟩ := h5
      refine ⟨?_, n5, l5, ?_, ?_⟩
      · rw [t5]
        simp [Subtree.teardown_calls]
      · intro q hq
        apply f5
        simp only [Subtree.addrs, List.mem_cons] at hq
        simp only [List.mem_append, List.mem_singleton]
        tauto
      · intro q hq
        apply k5
        simp only [Subtree.addrs, List.mem_cons] at hq
        simp only [List.mem_append, List.mem_singleton]
        tauto

/-- Two worlds that result from the same destruction of the same world are
equal. -/
theorem torn_down_unique {addrs : List Nat} {calls : List Op} {w w1 w2 : World}
    (h1 : torn_down addrs calls w w1) (h2 : torn_down addrs calls w w2) : w1 = w2 := by
  obtain ⟨t1, n1, l1, f1, k1⟩ := h1
  obtain ⟨t2, n2, l2, f2, k2⟩ := h2
  have hh : w1.heap = w2.heap := by
    apply List.ext_getElem?
    intro q
    by_cases hq : q ∈ addrs
    · rw [f1 q hq, f2 q hq]
    · rw [k1 q hq, k2 q hq]
  cases w1
  cases w2
  simp only [World.mk.injEq]
  exact ⟨hh, n1.trans n2.symm, t1.trans t2.symm⟩

theorem rmdir_paths_append (a b : List Op) :
    rmdir_paths (a ++ b) = rmdir_paths a ++ rmdir_paths b := by
  induction a with
  | nil => rfl
  | cons op rest ih => cases op <;> simp [rmdir_paths, ih]

theorem rmdir_paths_all (ts : List Subtree)
    (h : ∀ t ∈ ts, rmdir_paths t.teardown_calls = t.post_order.map (fun n => n.path_)) :
    rmdir_paths (teardown_calls_all ts) = (post_order_all ts).map (fun n => n.path_) := by
  induction ts with
  | nil => rfl
  | cons t rest ih =>
    simp only [teardown_calls_all, post_order_all, rmdir_paths_append, List.map_append]
    rw [h t (List.mem_cons_self _ _), ih (fun k hk => h k (List.mem_cons_of_mem _ hk))]

/-- The `rmdir` calls of a destruction are one per node, in post-order. -/
theorem Subtree.rmdir_paths_teardown (t : Subtree) :
    rmdir_paths t.teardown_calls = t.post_order.map (fun n => n.path_) := by
  induction t using Subtree.induction with
  | h p data kids ih =>
    simp only [Subtree.teardown_calls, Subtree.post_order, rmdir_paths_append, List.map_append,
      rmdir_paths_all kids ih]
    by_cases hp : data.parent_.isSome = true <;> simp [hp, rmdir_paths]

/-- While the heap holds the subtree of a node, `delete` of it returns; the calls it
issues are those of the post-order destruction `teardown_calls`; the `rmdir`
calls among them are the paths of the subtree's nodes in post-order, children
in the order of `children_`, one per node; for a node without parent the last
three calls are `chdir "/"`, `umount` and `rmdir` of its path, after all calls
for its descendants; afterwards every node of the subtree is destroyed. The
destructor of a manager whose `root_` is the node, and a `remove_set` of a
non-root name mapped to the node, run exactly this `delete`. -/
theorem delete_is_post_order (env : Env) (t : Subtree) (w : World)
    (hin : t.in_heap w) (hnd : t.addrs.Nodup) :
    ∃ w1, delete_cpuset env t.addr w = some w1 ∧
      w1.trace = w.trace ++ t.teardown_calls ∧
      rmdir_paths t.teardown_calls = t.post_order.map (fun n => n.path_) ∧
      (t.data.parent_ = none →
        t.teardown_calls = teardown_calls_all t.kids ++
          [.chdir "/", .umount t.data.path_, .rmdir t.data.path_]) ∧
      (∀ q ∈ t.addrs, w1.deref q = none) ∧
      (∀ m : cpuset_manager, m.root_ = t.addr → cpuset_manager_delete env m w = some w1) ∧
      (∀ (m : cpuset_manager) (name : String) (root : cpuset),
        w.deref m.root_ = some root → name ≠ root.name_ →
        map_find m.set_map_ name = some t.addr →
        remove_set env m w name =
          .ok { m with set_map_ := map_erase m.set_map_ name } w1) := by
  obtain ⟨w1, hdel, htd⟩ :=
    cpuset_delete_subtree env w.heap.length t w hin hnd (t.depth_le_heap hin hnd)
  have hdel1 : delete_cpuset env t.addr w = some w1 := hdel
  refine ⟨w1, hdel1, htd.1, t.rmdir_paths_teardown, ?_, ?_, ?_, ?_⟩
  · intro hroot
    cases t with
    | node p data kids =>
      simp only [Subtree.data] at hroot
      simp [Subtree.teardown_calls, Subtree.data, Subtree.kids, hroot]
  · intro q hq
    have h1 := htd.2.2.2.1 q hq
    unfold World.deref
    rw [h1]
  · intro m hm
    unfold cpuset_manager_delete
    rw [hm]
    exact hdel1
  · intro m name root hroot hne hfind
    unfold remove_set
    simp only [hroot, hne, hfind, hdel1, if_false]

/-- The whole tree of `world_ABC`, destroyed from the root. -/
theorem delete_is_post_order_witness :
    tree_ABC.in_heap world_ABC ∧ tree_ABC.addrs.Nodup ∧
    rmdir_paths tree_ABC.teardown_calls =
      ["/dev/cpuset/A/B/", "/dev/cpuset/A/", "/dev/cpuset/C/", "/dev/cpuset/"] ∧
    ∃ w1, delete_cpuset env_ok tree_ABC.addr world_ABC = some w1 ∧
      w1.trace = world_ABC.trace ++ tree_ABC.teardown_calls ∧
      rmdir_paths tree_ABC.teardown_calls = tree_ABC.post_order.map (fun n => n.path_) ∧
      (tree_ABC.data.parent_ = none →
        tree_ABC.teardown_calls = teardown_calls_all tree_ABC.kids ++
          [.chdir "/", .umount tree_ABC.data.path_, .rmdir tree_ABC.data.path_]) ∧
      (∀ q ∈ tree_ABC.addrs, w1.deref q = none) ∧
      (∀ m : cpuset_manager, m.root_ = tree_ABC.addr →
        cpuset_manager_delete env_ok m world_ABC = some w1) ∧
      (∀ (m : cpuset_manager) (name : String) (root : cpuset),
        world_ABC.deref m.root_ = some root → name ≠ root.name_ →
        map_find m.set_map_ name = some tree_ABC.addr →
        remove_set env_ok m world_ABC name =
          .ok { m with set_map_ := map_erase m.set_map_ name } w1) :=
  ⟨⟨rfl, rfl, ⟨rfl, rfl, ⟨rfl, rfl, trivial⟩, trivial⟩, ⟨rfl, rfl, trivial⟩, trivial⟩,
   by decide, rfl,
   delete_is_post_order env_ok tree_ABC world_ABC
     ⟨rfl, rfl, ⟨rfl, rfl, ⟨rfl, rfl, trivial⟩, trivial⟩, ⟨rfl, rfl, trivial⟩, trivial⟩
     (by decide)⟩

/-- While the heap holds the subtree of a node, `delete` of it returns normally
whatever the individual `chdir`, `rmdir` and `umount` calls answer, and the
world it leaves, with the trace of calls issued, is the same under any two
environments, in particular the same as when every call succeeds. -/
theorem delete_ignores_failures (env env0 : Env) (t : Subtree) (w : World)
    (hin : t.in_heap w) (hnd : t.addrs.Nodup) :
    ∃ w1, delete_cpuset env t.addr w = some w1 ∧ delete_cpuset env0 t.addr w = some w1 ∧
      w1.trace = w.trace ++ t.teardown_calls := by
  obtain ⟨w1, hdel, htd⟩ :=
    cpuset_delete_subtree env w.heap.length t w hin hnd (t.depth_le_heap hin hnd)
  obtain ⟨w2, hdel2, htd2⟩ :=
    cpuset_delete_subtree env0 w.heap.length t w hin hnd (t.depth_le_heap hin hnd)
  have he : w1 = w2 := torn_down_unique htd htd2
  subst he
  exact ⟨w1, hdel, hdel2, htd.1⟩

/-- The whole tree of `world_ABC` on a machine where every `chdir`, `rmdir` and
`umount` fails and on one where every call succeeds. -/
theorem delete_ignores_failures_witness :
    tree_ABC.in_heap world_ABC ∧ tree_ABC.addrs.Nodup ∧
    (∀ tr path, env_teardown_fails.ret tr (.rmdir path) ≠ 0 ∧
      env_teardown_fails.ret tr (.chdir path) ≠ 0 ∧
      env_teardown_fails.ret tr (.umount path) ≠ 0) ∧
    ∃ w1, delete_cpuset env_teardown_fails tree_ABC.addr world_ABC = some w1 ∧
      delete_cpuset env_ok tree_ABC.addr world_ABC = some w1 ∧
      w1.trace = world_ABC.trace ++ tree_ABC.teardown_calls :=
  ⟨⟨rfl, rfl, ⟨rfl, rfl, ⟨rfl, rfl, trivial⟩, trivial⟩, ⟨rfl, rfl, trivial⟩, trivial⟩,
   by decide,
   fun _ _ => ⟨by simp [env_teardown_fails], by simp [env_teardown_fails],
     by simp [env_teardown_fails]⟩,
   delete_ignores_failures env_teardown_fails env_ok tree_ABC world_ABC
     ⟨rfl, rfl, ⟨rfl, rfl, ⟨rfl, rfl, trivial⟩, trivial⟩, ⟨rfl, rfl, trivial⟩, trivial⟩
     (by decide)⟩

/-! ## Failures of the constructor after the parent test -/

theorem cpuset_new_flag_failure (env : Env) (name : String) {cpus : String} {p : Nat}
    (a b c d : Bool) {w : World} {parent : cpuset} {CPUs : List Nat} {cpulist_parsed : String}
    (k : Nat)
    (hlive : w.deref p = some parent)
    (hparse : parse_cpulist w.number_cpus_ cpus = .ok (CPUs, cpulist_parsed))
    (hk : k < 4)
    (hok : ∀ (j : Nat) (op : Op), j < 4 + k →
      (create_calls parent.path_ name cpulist_parsed a b c d)[j]? = some op →
      env.ret (w.trace ++ (create_calls parent.path_ name cpulist_parsed a b c d).take j) op = 0)
    (hfail : ∀ op : Op,
      (create_calls parent.path_ name cpulist_parsed a b c d)[4 + k]? = some op →
      env.ret (w.trace ++ (create_calls parent.path_ name cpulist_parsed a b c d).take (4 + k))
        op ≠ 0) :
    cpuset_new env name cpus (some p) a b c d w = .raised (flag_errors.getD k .malformatted)
      { w with trace := w.trace ++
          (create_calls parent.path_ name cpulist_parsed a b c d).take (4 + k + 1) } := by
  have hn : w.number_cpus_ ≠ 0 := parse_cpulist_ok_pos hparse
  have h0 := hok 0 _ (by omega) rfl
  have h1 := hok 1 _ (by omega) rfl
  have h2 := hok 2 _ (by omega) rfl
  have h3 := hok 3 _ (by omega) rfl
  simp only [create_calls, List.take, List.append_nil, List.getElem_cons_succ,
    List.getElem_cons_zero] at h0 h1 h2 h3
  unfold cpuset_new add_cpulist_to_cpuset
  simp only [call, hlive, hn, h0, h1, h2, h3, hparse, List.append_assoc, Option.map, if_false,
    ne_eq, not_true_eq_false, List.singleton_append, List.cons_append, List.nil_append]
  obtain rfl | rfl | rfl | rfl : k = 0 ∨ k = 1 ∨ k = 2 ∨ k = 3 := by omega
  · have h4 := hfail _ rfl
    simp only [create_calls, Nat.reduceAdd, Nat.add_zero, List.take, List.getElem_cons_succ,
      List.getElem_cons_zero] at h4
    simp only [h4, if_true, not_false_eq_true]
    rfl
  · have h4 := hok 4 _ (by omega) rfl
    have h5 := hfail _ rfl
    simp only [create_calls, Nat.reduceAdd, Nat.add_zero, List.take, List.getElem_cons_succ,
      List.getElem_cons_zero] at h4 h5
    simp only [h4, h5, if_true, if_false, not_false_eq_true, not_true_eq_false]
    rfl
  · have h4 := hok 4 _ (by omega) rfl
    have h5 := hok 5 _ (by omega) rfl
    have h6 := hfail _ rfl
    simp only [create_calls, Nat.reduceAdd, Nat.add_zero, List.take, List.getElem_cons_succ,
      List.getElem_cons_zero] at h4 h5 h6
    simp only [h4, h5, h6, if_true, if_false, not_false_eq_true, not_true_eq_false]
    rfl
  · have h4 := hok 4 _ (by omega) rfl
    have h5 := hok 5 _ (by omega) rfl
    have h6 := hok 6 _ (by omega) rfl
    have h7 := hfail _ rfl
    simp only [create_calls, Nat.reduceAdd, Nat.add_zero, List.take, List.getElem_cons_succ,
      List.getElem_cons_zero] at h4 h5 h6 h7
    simp only [h4, h5, h6, h7, if_true, if_false, not_false_eq_true, not_true_eq_false]
    rfl

theorem create_calls_take_no_rmdir (parent_path name cpulist : String) (a b c d : Bool)
    (n : Nat) (path : String) :
    Op.rmdir path ∉ (create_calls parent_path name cpulist a b c d).take n := by
  intro h
  have h1 := List.mem_of_mem_take h
  simp [create_calls] at h1

/-- C22. When the parent test, the parse, `mkdir` and the `cpus` and `mems`
writes succeed and the `k`-th of the four flag writes (in the order
`cpu_exclusive`, `mem_exclusive`, `memory_migrate`, `notify_on_release`) is the
first that fails, `new_set` throws the error of that write; the calls issued
are the first `4 + k + 1` of the constructor, so no later flag write follows
and no `rmdir` is among them; the heap is unchanged (the parent has no new
child) and the name is not in the map. -/
theorem new_set_flag_failure_no_rollback (env : Env) (m : cpuset_manager) (w : World)
    (name cpus parent_cpuset_name : String) (a b c d : Bool)
    (p : Nat) (parent : cpuset) (CPUs : List Nat) (cpulist_parsed : String) (k : Nat)
    (hname : map_find m.set_map_ name = none)
    (hparent : map_find m.set_map_ parent_cpuset_name = some p)
    (hlive : w.deref p = some parent)
    (hparse : parse_cpulist w.number_cpus_ cpus = .ok (CPUs, cpulist_parsed))
    (hk : k < 4)
    (hok : ∀ (j : Nat) (op : Op), j < 4 + k →
      (create_calls parent.path_ name cpulist_parsed a b c d)[j]? = some op →
      env.ret (w.trace ++ (create_calls parent.path_ name cpulist_parsed a b c d).take j) op = 0)
    (hfail : ∀ op : Op,
      (create_calls parent.path_ name cpulist_parsed a b c d)[4 + k]? = some op →
      env.ret (w.trace ++ (create_calls parent.path_ name cpulist_parsed a b c d).take (4 + k))
        op ≠ 0) :
    ∃ w1, new_set env m w name cpus parent_cpuset_name a b c d =
        .raised (flag_errors.getD k .malformatted) w1 ∧
      w1.trace = w.trace ++
        (create_calls parent.path_ name cpulist_parsed a b c d).take (4 + k + 1) ∧
      (∀ path : String, Op.rmdir path ∉
        (create_calls parent.path_ name cpulist_parsed a b c d).take (4 + k + 1)) ∧
      w1.heap = w.heap ∧ w1.deref p = some parent ∧
      get_set m w1 name = .raised (.cannot_get_not_found name) w1 := by
  have hnew := cpuset_new_flag_failure env name a b c d k hlive hparse hk hok hfail
  refine ⟨_, new_set_of_raised hname hparent hnew, rfl,
    fun path => create_calls_take_no_rmdir _ _ _ _ _ _ _ _ path, rfl, hlive, ?_⟩
  unfold get_set
  simp [hname]

/-- On a machine where the `mem_exclusive` write of `/dev/cpuset/A/` fails the
create stops after six calls. -/
theorem new_set_flag_failure_no_rollback_witness :
    ∃ w1, new_set env_flag_fails manager_root world_root "A" "2-5" "root" true false true false =
        .raised .mem_exclusive_failed w1 ∧
      w1.trace = world_root.trace ++
        [.system "test -d /dev/cpuset/", .mkdir "/dev/cpuset/A/",
         .system "/bin/echo 2,3,4,5 > /dev/cpuset/A/cpus",
         .system "/bin/echo 2,3,4,5 > /dev/cpuset/A/mems",
         .system "/bin/echo 1 > /dev/cpuset/A/cpu_exclusive",
         .system "/bin/echo 0 > /dev/cpuset/A/mem_exclusive"] ∧
      (∀ path : String, Op.rmdir path ∉
        (create_calls "/dev/cpuset/" "A" "2,3,4,5" true false true false).take (4 + 1 + 1)) ∧
      w1.heap = world_root.heap ∧
      w1.deref 0 = some { root_node with CPUs_ := [0, 1, 2, 3, 4, 5, 6, 7] } ∧
      get_set manager_root w1 "A" = .raised (.cannot_get_not_found "A") w1 :=
  new_set_flag_failure_no_rollback env_flag_fails manager_root world_root "A" "2-5" "root"
    true false true false 0 { root_node with CPUs_ := [0, 1, 2, 3, 4, 5, 6, 7] }
    [2, 3, 4, 5] "2,3,4,5" 1 rfl rfl rfl rfl (by decide)
    (by
      intro j op hj hop
      obtain rfl | rfl | rfl | rfl | rfl : j = 0 ∨ j = 1 ∨ j = 2 ∨ j = 3 ∨ j = 4 := by omega
      all_goals (injection hop with hop; subst hop; decide))
    (by
      intro op hop
      injection hop with hop
      subst hop
      decide)

/-- C23. With a new name, a parent name that the map sends to a live node whose
directory is found, and a CPU list that the parser refuses, `new_set` throws
the error of the parser; the only call issued is the parent test (no `mkdir`,
no write, no `rmdir`), the heap is unchanged (the parent has the children it
had) and the name is not in the map. -/
theorem new_set_parse_failure (env : Env) (m : cpuset_manager) (w : World)
    (name cpus parent_cpuset_name : String) (a b c d : Bool)
    (p : Nat) (parent : cpuset) (e : Err)
    (hname : map_find m.set_map_ name = none)
    (hparent : map_find m.set_map_ parent_cpuset_name = some p)
    (hlive : w.deref p = some parent)
    (hcount : w.number_cpus_ ≠ 0)
    (hcheck : env.ret w.trace (.system (DIR_EXISTS_COMMAND ++ parent.path_)) = 0)
    (hparse : parse_cpulist w.number_cpus_ cpus = .error e) :
    new_set env m w name cpus parent_cpuset_name a b c d =
        .raised e { w with trace := w.trace ++ [.system (DIR_EXISTS_COMMAND ++ parent.path_)] } ∧
      get_set m { w with trace := w.trace ++ [.system (DIR_EXISTS_COMMAND ++ parent.path_)] } name =
        .raised (.cannot_get_not_found name)
          { w with trace := w.trace ++ [.system (DIR_EXISTS_COMMAND ++ parent.path_)] } := by
  constructor
  · apply new_set_of_raised hname hparent
    unfold cpuset_new
    simp only [call, hlive, hcount, hcheck, hparse, Option.map, if_false, ne_eq,
      not_true_eq_false]
  · unfold get_set
    simp [hname]

/-- On 8 CPUs the list `"9"` is refused after the parent test only. -/
theorem new_set_parse_failure_witness :
    new_set env_ok manager_root world_root "A" "9" "root" true true true false =
        .raised (.illegal_cpu 9)
          { world_root with trace := world_root.trace ++ [.system "test -d /dev/cpuset/"] } ∧
      get_set manager_root
          { world_root with trace := world_root.trace ++ [.system "test -d /dev/cpuset/"] } "A" =
        .raised (.cannot_get_not_found "A")
          { world_root with trace := world_root.trace ++ [.system "test -d /dev/cpuset/"] } :=
  new_set_parse_failure env_ok manager_root world_root "A" "9" "root" true true true false
    0 { root_node with CPUs_ := [0, 1, 2, 3, 4, 5, 6, 7] } (.illegal_cpu 9)
    rfl rfl rfl (by decide) rfl rfl

/-! ## A failed write to the task list -/

/-- C25. When the write to the task list fails, `add_task` throws
`add_task_failed` and only the trace of calls grows: the heap, and with it the
`pids_`, `CPUs_`, flags and `children_` of the node, is what it was.
`add_task_to_set` of a name that the map sends to the node throws the same
error with the same world; it takes the manager by value and returns none, so
the map is the one it was given. -/
theorem add_task_failed_write (env : Env) (m : cpuset_manager) (w : World) (name : String)
    (this : Nat) (pid : Int) (node : cpuset)
    (hlive : w.deref this = some node)
    (hwrite : env.ret w.trace (.system (ECHO ++ Nat.repr (to_unsigned pid) ++ " > tasks")) ≠ 0) :
    add_task env this pid w = .raised .add_task_failed
        { w with trace := w.trace ++ [.system (ECHO ++ Nat.repr (to_unsigned pid) ++ " > tasks")] } ∧
      World.deref
        { w with trace := w.trace ++ [.system (ECHO ++ Nat.repr (to_unsigned pid) ++ " > tasks")] }
        this = some node ∧
      (map_find m.set_map_ name = some this →
        add_task_to_set env m w name pid = .raised .add_task_failed
          { w with trace := w.trace ++
              [.system (ECHO ++ Nat.repr (to_unsigned pid) ++ " > tasks")] } ∧
        step env (m, w) (.add_task_to_set name pid) = some (m,
          { w with trace := w.trace ++
              [.system (ECHO ++ Nat.repr (to_unsigned pid) ++ " > tasks")] })) := by
  have h : add_task env this pid w = .raised .add_task_failed
      { w with trace := w.trace ++
          [.system (ECHO ++ Nat.repr (to_unsigned pid) ++ " > tasks")] } := by
    unfold add_task
    simp only [hlive, call, hwrite, ne_eq, not_false_eq_true, if_true]
  refine ⟨h, hlive, fun hfind => ?_⟩
  have h2 : add_task_to_set env m w name pid = .raised .add_task_failed
      { w with trace := w.trace ++
          [.system (ECHO ++ Nat.repr (to_unsigned pid) ++ " > tasks")] } := by
    unfold add_task_to_set
    simp only [hfind, h]
  refine ⟨h2, ?_⟩
  simp only [step, h2]

/-- On a machine where the write of pid 42 fails, node `"A"` keeps its empty
`pids_`. -/
theorem add_task_failed_write_witness :
    add_task env_tasks_fail 1 42 world_A = .raised .add_task_failed
        { world_A with trace := world_A.trace ++ [.system "/bin/echo 42 > tasks"] } ∧
      World.deref { world_A with trace := world_A.trace ++ [.system "/bin/echo 42 > tasks"] } 1 =
        some node_A ∧
      add_task_to_set env_tasks_fail manager_A world_A "A" 42 = .raised .add_task_failed
        { world_A with trace := world_A.trace ++ [.system "/bin/echo 42 > tasks"] } ∧
      step env_tasks_fail (manager_A, world_A) (.add_task_to_set "A" 42) = some (manager_A,
        { world_A with trace := world_A.trace ++ [.system "/bin/echo 42 > tasks"] }) :=
  have h := add_task_failed_write env_tasks_fail manager_A world_A "A" 1 42 node_A rfl
    (by decide)
  ⟨h.1, h.2.1, (h.2.2 rfl).1, (h.2.2 rfl).2⟩

/-! ## The `try_again:` loop -/

theorem remove_root_cpuset_mkdirs (env : Env) (path_ : String) (w : World) :
    (remove_root_cpuset env path_ w).trace.countP Op.is_mkdir = w.trace.countP Op.is_mkdir := by
  simp [remove_root_cpuset, call, Op.is_mkdir]

theorem try_again_mkdirs (env : Env) (path_ : String) :
    ∀ (fuel tries : Nat) (w : World),
      (try_again env path_ fuel tries w).world.trace.countP Op.is_mkdir ≤
        w.trace.countP Op.is_mkdir + max 1 (TRIES - tries) := by
  intro fuel
  induction fuel with
  | zero =>
    intro tries w
    simp [try_again, RootDir.world]
  | succ fuel ih =>
    intro tries w
    unfold try_again
    simp only [call]
    split
    · split
      · split
        · rename_i h3
          refine le_trans (ih _ _) ?_
          rw [remove_root_cpuset_mkdirs]
          simp only [List.countP_append, List.countP_cons, List.countP_nil, Op.is_mkdir, if_true]
          simp only [TRIES] at h3 ⊢
          omega
        · simp [RootDir.world, Op.is_mkdir]
      · simp [RootDir.world, Op.is_mkdir]
    · simp [RootDir.world, Op.is_mkdir]

theorem try_again_fuel (env : Env) (path_ : String) :
    ∀ (fuel fuel1 tries : Nat) (w : World), 1 ≤ fuel → TRIES ≤ tries + fuel →
      1 ≤ fuel1 → TRIES ≤ tries + fuel1 →
      try_again env path_ fuel tries w = try_again env path_ fuel1 tries w := by
  intro fuel
  induction fuel with
  | zero =>
    intro fuel1 tries w h
    omega
  | succ fuel ih =>
    intro fuel1 tries w _ h2 h3 h4
    obtain ⟨fuel2, rfl⟩ : ∃ fuel2, fuel1 = fuel2 + 1 := ⟨fuel1 - 1, by omega⟩
    unfold try_again
    simp only [call]
    split
    · split
      · split
        · rename_i h5
          simp only [TRIES] at h5 h2 h4
          exact ih _ _ _ (by omega) (by simp only [TRIES]; omega) (by omega)
            (by simp only [TRIES]; omega)
        · rfl
      · rfl
    · rfl

/-- C24. When every `mkdir` of the root path fails with `EEXIST`, the root
constructor returns normally after exactly three `mkdir` calls with a teardown
(`umount`, then `rmdir`, of the root path) between consecutive ones, so two
teardowns, and no further call. For any behaviour of the calls the loop issues
at most three `mkdir` calls, and its result does not depend on the bound of the
recursion once that is at least three. -/
theorem root_retries_three_times (env : Env) (w : World) (n : Nat)
    (hfirst : w.number_cpus_ = 0)
    (hcount : how_many_cpus env = .ok n)
    (hexists : ∀ t : List Op, env.ret t (.mkdir CPUSET_PATH) = EEXIST) :
    cpuset_root env w = .ok w.heap.length
        { heap := w.heap ++ [some root_node], number_cpus_ := n,
          trace := w.trace ++
            [.mkdir CPUSET_PATH, .umount CPUSET_PATH, .rmdir CPUSET_PATH,
             .mkdir CPUSET_PATH, .umount CPUSET_PATH, .rmdir CPUSET_PATH,
             .mkdir CPUSET_PATH] } ∧
      (∀ (env1 : Env) (fuel : Nat) (w1 : World),
        (try_again env1 CPUSET_PATH fuel 0 w1).world.trace.countP Op.is_mkdir ≤
          w1.trace.countP Op.is_mkdir + 3) ∧
      (∀ (env1 : Env) (fuel : Nat) (w1 : World), TRIES ≤ fuel →
        try_again env1 CPUSET_PATH fuel 0 w1 = try_again env1 CPUSET_PATH TRIES 0 w1) := by
  refine ⟨?_, ?_, ?_⟩
  · unfold cpuset_root
    have hp : root_node.path_ = CPUSET_PATH := rfl
    simp only [hfirst, hcount, hp, ne_eq, not_true_eq_false, if_false]
    simp only [TRIES, try_again, call, hexists, remove_root_cpuset, EEXIST]
    simp
  · intro env1 fuel w1
    exact try_again_mkdirs env1 CPUSET_PATH fuel 0 w1
  · intro env1 fuel w1 h
    simp only [TRIES] at h
    exact try_again_fuel env1 CPUSET_PATH fuel TRIES 0 w1 (by omega) (by simpa [TRIES] using h)
      (by decide) (by decide)

/-- On a machine where the root path always exists already. -/
theorem root_retries_three_times_witness :
    cpuset_root env_root_always_exists World.initial = .ok 0
        { heap := [some root_node], number_cpus_ := 8,
          trace :=
            [.mkdir CPUSET_PATH, .umount CPUSET_PATH, .rmdir CPUSET_PATH,
             .mkdir CPUSET_PATH, .umount CPUSET_PATH, .rmdir CPUSET_PATH,
             .mkdir CPUSET_PATH] } ∧
      (∀ (env1 : Env) (fuel : Nat) (w1 : World),
        (try_again env1 CPUSET_PATH fuel 0 w1).world.trace.countP Op.is_mkdir ≤
          w1.trace.countP Op.is_mkdir + 3) ∧
      (∀ (env1 : Env) (fuel : Nat) (w1 : World), TRIES ≤ fuel →
        try_again env1 CPUSET_PATH fuel 0 w1 = try_again env1 CPUSET_PATH TRIES 0 w1) :=
  root_retries_three_times env_root_always_exists World.initial 8 rfl rfl (fun _ => rfl)

/-! ## The parent's `children_` after `remove_set` -/

/-- C28. In the state after `"A"` has been created under the root,
`remove_set` of `"A"` returns normally, and afterwards the root's `children_`
still holds the address of the destroyed node: the destructor of the manager
then deletes that address a second time, which is undefined. Likewise after
`"B"` has been created under `"A"`: `remove_set "B"` followed by
`remove_set "A"` is undefined. -/
theorem remove_set_keeps_child_link :
    Reachable env_ok (manager_A, world_A) ∧
    remove_set env_ok manager_A world_A "A" = .ok manager_root world_A_gone ∧
    world_A_gone.deref 1 = none ∧
    (world_A_gone.deref manager_root.root_).map (·.children_) = some [1] ∧
    cpuset_manager_delete env_ok manager_root world_A_gone = none ∧
    Reachable env_ok (manager_AB, world_AB) ∧
    (∃ mw, run env_ok (manager_AB, world_AB) [.remove_set "B"] = some mw ∧
      (mw.2.deref 1).map (·.children_) = some [2] ∧ mw.2.deref 2 = none) ∧
    run env_ok (manager_AB, world_AB) [.remove_set "B", .remove_set "A"] = none :=
  ⟨⟨0, manager_root, world_root, [.new_set "A" "2-5" "root" true false true false], rfl, rfl⟩,
   rfl, rfl, rfl, rfl,
   ⟨0, manager_root, world_root, [.new_set "A" "2-5" "root" true false true false,
      .new_set "B" "1" "A" true true true false], rfl, rfl⟩,
   ⟨_, rfl, rfl, rfl⟩, rfl⟩

/-! ## A range followed by a comma -/

/-- C26. On 8 CPUs `"1-2"` parses to `[1, 2]` and `"4"` parses to `[4]`, but
`"1-2,4"` parses to `[1, 1, 2, 4]`, which is not `[1, 2] ++ [4]`: the range
followed by a comma is expanded from its lower bound, which is in the list
already. -/
theorem parse_cpulist_comma_not_compositional :
    parse_cpulist 8 "1-2" = .ok ([1, 2], "1,2") ∧
    parse_cpulist 8 "4" = .ok ([4], "4") ∧
    parse_cpulist 8 ("1-2" ++ "," ++ "4") = .ok ([1, 1, 2, 4], "1,1,2,4") ∧
    [1, 1, 2, 4] ≠ [1, 2] ++ [4] :=
  ⟨rfl, rfl, rfl, by decide⟩

/-! ## The scratch buffer of the serialisation loop -/

/-- C30. For the list `"5,6"` on 8 CPUs the first pass of the serialisation
loop declares a buffer of `5 / 10 + 1 + 1 = 2` characters and prints `"5,"`
into it, which with the terminator takes 3. -/
theorem digits_buffer_too_small :
    parse_cpulist 8 "5,6" = .ok ([5, 6], "5,6") ∧
    digits_size 5 = 2 ∧
    digits [5, 6] 0 = "5," ∧
    (digits [5, 6] 0).length + 1 = 3 ∧
    digits_size 5 < (digits [5, 6] 0).length + 1 :=
  ⟨rfl, rfl, by decide, by decide, by decide⟩

/-! ## The map and the tree after creates -/

theorem deref_after_link {w w1 : World} {p : Nat} {parent node : cpuset}
    (hlive : w.deref p = some parent)
    (hheap : w1.heap = w.heap.set p
      (some { parent with children_ := parent.children_ ++ [w.heap.length] }) ++ [some node]) :
    w1.heap.length = w.heap.length + 1 ∧
    w1.deref w.heap.length = some node ∧
    w1.deref p = some { parent with children_ := parent.children_ ++ [w.heap.length] } ∧
    (∀ q : Nat, q ≠ p → q ≠ w.heap.length → w1.deref q = w.deref q) := by
  have hp := deref_lt hlive
  refine ⟨by simp [hheap], ?_, ?_, ?_⟩
  · rw [deref_eq_some, hheap]
    have h := getElem?_set_append_last w.heap p
      (some { parent with children_ := parent.children_ ++ [w.heap.length] }) (some node)
    exact h
  · rw [deref_eq_some, hheap]
    exact getElem?_set_append_self w.heap p _ _ hp
  · intro q hq hq1
    unfold World.deref
    rw [hheap]
    by_cases hlt : q < w.heap.length
    · rw [List.getElem?_append_left (by simpa using hlt), List.getElem?_set_ne (Ne.symm hq)]
    · have h1 : (w.heap.set p
          (some { parent with children_ := parent.children_ ++ [w.heap.length] }) ++
          [some node])[q]? = none := by
        rw [List.getElem?_eq_none_iff]
        simp
        omega
      have h2 : w.heap[q]? = none := by
        rw [List.getElem?_eq_none_iff]
        omega
      rw [h1, h2]

theorem Reach.of_heap_grows {w w1 : World} {r : Nat}
    (hmono : ∀ (q : Nat) (node : cpuset), w.deref q = some node →
      ∃ node1, w1.deref q = some node1 ∧ ∀ c ∈ node.children_, c ∈ node1.children_)
    {q : Nat} (h : Reach w r q) : Reach w1 r q := by
  induction h with
  | refl => exact Reach.refl _
  | step _ hd hc ih =>
    obtain ⟨node1, hd1, hsub⟩ := hmono _ _ hd
    exact Reach.step ih hd1 (hsub _ hc)

theorem Reach.of_heap_eq {w w1 : World} (hh : w1.heap = w.heap) {r q : Nat}
    (h : Reach w r q) : Reach w1 r q := by
  refine Reach.of_heap_grows (fun q node hd => ⟨node, ?_, fun c hc => hc⟩) h
  unfold World.deref at hd ⊢
  rw [hh]
  exact hd

theorem create_invariant_of_heap_eq {m : cpuset_manager} {w w1 : World}
    (hh : w1.heap = w.heap) (h : create_invariant (m, w)) : create_invariant (m, w1) := by
  have hd : ∀ q, w1.deref q = w.deref q := by
    intro q
    unfold World.deref
    rw [hh]
  obtain ⟨h1, h2, h3, h4, h5, h6⟩ := h
  refine ⟨?_, ?_, ?_, ?_, ?_, ?_⟩
  · simpa only [hh] using h1
  · intro q hq
    simpa only [hd] using h2 q (by simpa only [hh] using hq)
  · intro q hq
    exact Reach.of_heap_eq hh (h3 q (by simpa only [hh] using hq))
  · intro q node hq c hc
    simpa only [hh] using h4 q node (by simpa only [hd] using hq) c hc
  · intro k p
    simpa only [hd] using h5 k p
  · intro p q node node1 hp hq
    exact h6 p q node node1 (by simpa only [hd] using hp) (by simpa only [hd] using hq)

theorem create_invariant_init {env : Env} {indeterminate : Nat} {m : cpuset_manager}
    {w : World} (h : cpuset_manager_new env indeterminate World.initial = .ok m w) :
    create_invariant (m, w) := by
  unfold cpuset_manager_new at h
  split at h
  · cases h
  · cases h
  · rename_i r w2 hroot
    obtain ⟨hr, node, hheap, -, hkids⟩ := cpuset_root_ok hroot
    have hr0 : r = 0 := hr
    subst hr0
    have hheap1 : w2.heap = [some node] := hheap
    have hd : w2.deref 0 = some node := by
      rw [deref_eq_some, hheap1]
      rfl
    rw [hd] at h
    injection h with h1 h2
    subst h1 h2
    have hone : ∀ (q : Nat) (nd : cpuset), w2.deref q = some nd → q = 0 ∧ nd = node := by
      intro q nd hq
      have hlt := deref_lt hq
      have hq0 : q = 0 := by
        rw [hheap1] at hlt
        simpa using hlt
      subst hq0
      rw [hd] at hq
      injection hq with hq
      exact ⟨rfl, hq.symm⟩
    refine ⟨by simp [hheap1], ?_, ?_, ?_, ?_, ?_⟩
    · intro q hq
      have hq0 : q = 0 := by
        rw [hheap1] at hq
        simpa using hq
      subst hq0
      exact ⟨node, hd⟩
    · intro q hq
      have hq0 : q = 0 := by
        rw [hheap1] at hq
        simpa using hq
      subst hq0
      exact Reach.refl _
    · intro q nd hq c hc
      obtain ⟨-, rfl⟩ := hone q nd hq
      rw [hkids] at hc
      cases hc
    · intro k p
      constructor
      · intro hf
        by_cases hk : k = node.name_
        · subst hk
          have h3 := map_find_assign_self [] node.name_ 0
          have h4 : map_find (map_assign [] node.name_ 0) node.name_ = some p := hf
          rw [h3] at h4
          injection h4 with h4
          subst h4
          exact ⟨node, hd, rfl⟩
        · have h3 := map_find_assign_ne [] 0 hk
          have h4 : map_find (map_assign [] node.name_ 0) k = some p := hf
          rw [h3] at h4
          cases h4
      · rintro ⟨nd, hq, hn⟩
        obtain ⟨rfl, rfl⟩ := hone p nd hq
        subst hn
        exact map_find_assign_self [] nd.name_ 0
    · intro p q nd nd1 hp hq _
      rw [(hone p nd hp).1, (hone q nd1 hq).1]

theorem new_set_create_invariant (env : Env) {m : cpuset_manager} {w : World}
    (name cpus parent_cpuset_name : String) (a b c d : Bool)
    (h : create_invariant (m, w)) :
    ∃ mw1, step env (m, w) (.new_set name cpus parent_cpuset_name a b c d) = some mw1 ∧
      create_invariant mw1 := by
  obtain ⟨h1, h2, h3, h4, h5, h6⟩ := h
  simp only at h1 h2 h3 h4 h5 h6
  simp only [step]
  cases hres : new_set env m w name cpus parent_cpuset_name a b c d with
  | undefined =>
    exfalso
    unfold new_set at hres
    split at hres
    · cases hres
    · split at hres
      · cases hres
      · rename_i p hp
        obtain ⟨parent, hlive, -⟩ := (h5 parent_cpuset_name p).mp hp
        split at hres
        · rename_i hnew
          unfold cpuset_new at hnew
          simp only [call, hlive, Option.map] at hnew
          unfold World.deref at hnew hlive
          simp only at hnew
          repeat' split at hnew
          all_goals (try cases hnew)
          all_goals (have h7 := (add_cpulist_ok (by assumption)).1; simp_all)
        · cases hres
        · cases hres
  | raised e w1 =>
    have hh := (new_set_raised_inv hres).1
    exact ⟨(m, w1), rfl, create_invariant_of_heap_eq hh ⟨h1, h2, h3, h4, h5, h6⟩⟩
  | ok m1 w1 =>
    refine ⟨(m1, w1), rfl, ?_⟩
    obtain ⟨p, this, hname, hparent, hnew, hm1⟩ := new_set_ok_inv hres
    obtain ⟨parent, CPUs, cpulist, hlive, -, -, hthis, -, hheap, -⟩ := cpuset_new_ok hnew
    subst hthis hm1
    obtain ⟨hlen, hdnew, hdpar, hdother⟩ := deref_after_link hlive hheap
    have hp := deref_lt hlive
    -- every old node is still there, with its name and at least its children
    have hfwd : ∀ (q : Nat) (nd : cpuset), w.deref q = some nd →
        ∃ nd1, w1.deref q = some nd1 ∧ nd1.name_ = nd.name_ ∧
          (∀ c ∈ nd.children_, c ∈ nd1.children_) ∧
          (∀ c ∈ nd1.children_, c < w.heap.length + 1) := by
      intro q nd hq
      have hq1 := deref_lt hq
      by_cases hqp : q = p
      · subst hqp
        rw [hlive] at hq
        injection hq with hq
        subst hq
        refine ⟨_, hdpar, rfl, fun c hc => by simp [hc], ?_⟩
        intro c hc
        simp only [List.mem_append, List.mem_singleton] at hc
        rcases hc with hc | hc
        · have := h4 q parent hlive c hc
          simp only at this
          omega
        · omega
      · refine ⟨nd, ?_, rfl, fun c hc => hc, ?_⟩
        · rw [hdother q hqp (by omega)]
          exact hq
        · intro c hc
          have := h4 q nd hq c hc
          simp only at this
          omega
    -- every new node is the created one or an old one with the same name
    have hbwd : ∀ (q : Nat) (nd1 : cpuset), w1.deref q = some nd1 →
        (q = w.heap.length ∧ nd1.name_ = name ∧ nd1.children_ = []) ∨
        (q < w.heap.length ∧ ∃ nd, w.deref q = some nd ∧ nd.name_ = nd1.name_) := by
      intro q nd1 hq
      have hq1 := deref_lt hq
      rw [hlen] at hq1
      by_cases hql : q = w.heap.length
      · subst hql
        rw [hdnew] at hq
        injection hq with hq
        subst hq
        exact Or.inl ⟨rfl, rfl, rfl⟩
      · right
        have hq2 : q < w.heap.length := by omega
        obtain ⟨nd, hnd⟩ := h2 q hq2
        obtain ⟨nd2, hnd2, hn2, -⟩ := hfwd q nd hnd
        rw [hnd2] at hq
        injection hq with hq
        subst hq
        exact ⟨hq2, nd, hnd, hn2.symm⟩
    have hfresh : ∀ (q : Nat) (nd : cpuset), w.deref q = some nd → nd.name_ ≠ name := by
      intro q nd hq hn
      have h7 := (h5 name q).mpr ⟨nd, hq, hn⟩
      rw [hname] at h7
      cases h7
    refine ⟨?_, ?_, ?_, ?_, ?_, ?_⟩
    · show m.root_ < w1.heap.length
      have : m.root_ < w.heap.length := h1
      omega
    · intro q hq
      have hq1 : q < w1.heap.length := hq
      rw [hlen] at hq1
      by_cases hql : q = w.heap.length
      · subst hql
        exact ⟨_, hdnew⟩
      · obtain ⟨nd, hnd⟩ := h2 q (by omega)
        obtain ⟨nd1, hnd1, -⟩ := hfwd q nd hnd
        exact ⟨nd1, hnd1⟩
    · intro q hq
      have hq1 : q < w1.heap.length := hq
      rw [hlen] at hq1
      have hmono : ∀ {q : Nat}, Reach w m.root_ q → Reach w1 m.root_ q := by
        intro q hr
        refine Reach.of_heap_grows (fun q nd hq => ?_) hr
        obtain ⟨nd1, hnd1, -, hsub, -⟩ := hfwd q nd hq
        exact ⟨nd1, hnd1, hsub⟩
      by_cases hql : q = w.heap.length
      · subst hql
        exact Reach.step (hmono (h3 p hp)) hdpar (by simp)
      · exact hmono (h3 q (by omega))
    · intro q nd1 hq c hc
      show c < w1.heap.length
      rw [hlen]
      rcases hbwd q nd1 hq with ⟨-, -, hk⟩ | ⟨-, nd, hnd, -⟩
      · rw [hk] at hc
        cases hc
      · obtain ⟨nd2, hnd2, -, -, hb⟩ := hfwd q nd hnd
        have hq2 : w1.deref q = some nd1 := hq
        rw [hnd2] at hq2
        injection hq2 with hq2
        subst hq2
        exact hb c hc
    · intro k q
      show map_find (map_assign m.set_map_ name w.heap.length) k = some q ↔
        ∃ nd, w1.deref q = some nd ∧ nd.name_ = k
      by_cases hk : k = name
      · subst hk
        rw [map_find_assign_self]
        constructor
        · intro hq
          injection hq with hq
          subst hq
          exact ⟨_, hdnew, rfl⟩
        · rintro ⟨nd1, hq, hn⟩
          rcases hbwd q nd1 hq with ⟨hql, -, -⟩ | ⟨-, nd, hnd, hn1⟩
          · rw [hql]
          · exact absurd (hn1.trans hn) (hfresh q nd hnd)
      · rw [map_find_assign_ne _ _ hk]
        constructor
        · intro hq
          obtain ⟨nd, hnd, hn⟩ := (h5 k q).mp hq
          obtain ⟨nd1, hnd1, hn1, -⟩ := hfwd q nd hnd
          exact ⟨nd1, hnd1, hn1.trans hn⟩
        · rintro ⟨nd1, hq, hn⟩
          rcases hbwd q nd1 hq with ⟨-, hn1, -⟩ | ⟨-, nd, hnd, hn1⟩
          · exact absurd (hn.symm.trans hn1) hk
          · exact (h5 k q).mpr ⟨nd, hnd, hn1.trans hn⟩
    · intro q q1 nd1 nd2 hq hq1 hn
      rcases hbwd q nd1 hq with ⟨hql, hn1, -⟩ | ⟨-, nd, hnd, hn1⟩
      · rcases hbwd q1 nd2 hq1 with ⟨hql1, -, -⟩ | ⟨-, nd3, hnd3, hn3⟩
        · rw [hql, hql1]
        · exact absurd (hn3.trans (hn.symm.trans hn1)) (hfresh q1 nd3 hnd3)
      · rcases hbwd q1 nd2 hq1 with ⟨-, hn2, -⟩ | ⟨-, nd3, hnd3, hn3⟩
        · exact absurd (hn1.trans (hn.trans hn2)) (hfresh q nd hnd)
        · exact h6 q q1 nd nd3 hnd hnd3 (hn1.trans (hn.trans hn3.symm))

theorem run_creates_invariant (env : Env) :
    ∀ (cmds : List Cmd) (mw : cpuset_manager × World),
      (∀ c ∈ cmds, c.is_new_set = true) → create_invariant mw →
      ∃ mw1, run env mw cmds = some mw1 ∧ create_invariant mw1 := by
  intro cmds
  induction cmds with
  | nil =>
    intro mw _ h
    exact ⟨mw, rfl, h⟩
  | cons c cs ih =>
    intro mw hc h
    have hc1 := hc c (by simp)
    cases c with
    | new_set name cpus parent a b c d =>
      obtain ⟨mw1, hstep, hinv⟩ := new_set_create_invariant env name cpus parent a b c d h
      obtain ⟨mw2, hrun, hinv2⟩ := ih mw1 (fun c hc2 => hc c (by simp [hc2])) hinv
      refine ⟨mw2, ?_, hinv2⟩
      simp only [run, hstep]
      exact hrun
    | add_task_to_set name process => cases hc1
    | remove_set name => cases hc1

/-- C21. After the construction of a manager, any sequence of `new_set` calls
(returning or throwing) runs without undefined behaviour, and in the state it
ends in: a name has an entry in the map if and only if it is the name of a live
node reached from the root through `children_`; the entry of a name is the
address of a node reached from the root that bears that name; and two nodes
reached from the root with the same name are the same node. -/
theorem creates_keep_map_and_tree (env : Env) (indeterminate : Nat) (m0 : cpuset_manager)
    (w0 : World) (cmds : List Cmd)
    (hnew : cpuset_manager_new env indeterminate World.initial = .ok m0 w0)
    (hcreates : ∀ c ∈ cmds, c.is_new_set = true) :
    ∃ mw, run env (m0, w0) cmds = some mw ∧
      (∀ k : String, (∃ p, map_find mw.1.set_map_ k = some p) ↔
        ∃ (q : Nat) (node : cpuset), Reach mw.2 mw.1.root_ q ∧ mw.2.deref q = some node ∧
          node.name_ = k) ∧
      (∀ (k : String) (p : Nat), map_find mw.1.set_map_ k = some p →
        Reach mw.2 mw.1.root_ p ∧ ∃ node, mw.2.deref p = some node ∧ node.name_ = k) ∧
      (∀ (p q : Nat) (node node1 : cpuset), Reach mw.2 mw.1.root_ p → Reach mw.2 mw.1.root_ q →
        mw.2.deref p = some node → mw.2.deref q = some node1 → node.name_ = node1.name_ →
        p = q) := by
  obtain ⟨mw, hrun, h1, h2, h3, h4, h5, h6⟩ :=
    run_creates_invariant env cmds (m0, w0) hcreates (create_invariant_init hnew)
  refine ⟨mw, hrun, ?_, ?_, ?_⟩
  · intro k
    constructor
    · rintro ⟨p, hp⟩
      obtain ⟨node, hnode, hn⟩ := (h5 k p).mp hp
      exact ⟨p, node, h3 p (deref_lt hnode), hnode, hn⟩
    · rintro ⟨q, node, -, hnode, hn⟩
      exact ⟨q, (h5 k q).mpr ⟨node, hnode, hn⟩⟩
  · intro k p hp
    obtain ⟨node, hnode, hn⟩ := (h5 k p).mp hp
    exact ⟨h3 p (deref_lt hnode), node, hnode, hn⟩
  · intro p q node node1 _ _ hp hq hn
    exact h6 p q node node1 hp hq hn

/-- Two creates, the second refused for its name, on the machine where every
call succeeds. -/
theorem creates_keep_map_and_tree_witness :
    ∃ mw, run env_ok (manager_root, world_root)
        [.new_set "A" "2-5" "root" true false true false,
         .new_set "A" "1" "root" true true true false,
         .new_set "B" "1" "A" true true true false] = some mw ∧
      (∀ k : String, (∃ p, map_find mw.1.set_map_ k = some p) ↔
        ∃ (q : Nat) (node : cpuset), Reach mw.2 mw.1.root_ q ∧ mw.2.deref q = some node ∧
          node.name_ = k) ∧
      (∀ (k : String) (p : Nat), map_find mw.1.set_map_ k = some p →
        Reach mw.2 mw.1.root_ p ∧ ∃ node, mw.2.deref p = some node ∧ node.name_ = k) ∧
      (∀ (p q : Nat) (node node1 : cpuset), Reach mw.2 mw.1.root_ p → Reach mw.2 mw.1.root_ q →
        mw.2.deref p = some node → mw.2.deref q = some node1 → node.name_ = node1.name_ →
        p = q) :=
  creates_keep_map_and_tree env_ok 0 manager_root world_root
    [.new_set "A" "2-5" "root" true false true false,
     .new_set "A" "1" "root" true true true false,
     .new_set "B" "1" "A" true true true false] rfl (by decide)

/-! ## Decimal numerals -/

theorem toDigitsCore_append (fuel : Nat) :
    ∀ (n : Nat) (ds : List Char),
      Nat.toDigitsCore 10 fuel n ds = Nat.toDigitsCore 10 fuel n [] ++ ds := by
  induction fuel with
  | zero =>
    intro n ds
    simp [Nat.toDigitsCore]
  | succ fuel ih =>
    intro n ds
    unfold Nat.toDigitsCore
    by_cases h : n / 10 = 0
    · simp [h]
    · simp only [h, if_false]
      rw [ih (n / 10) (Nat.digitChar (n % 10) :: ds), ih (n / 10) [Nat.digitChar (n % 10)]]
      simp

theorem digitChar_numeric (k : Nat) (h : k < 10) :
    is_numeric (Nat.digitChar k) = true ∧ (Nat.digitChar k).toNat - '0'.toNat = k := by
  interval_cases k <;> exact ⟨by decide, by decide⟩

theorem decimal_value_append (xs : List Char) :
    ∀ (acc : Nat) (ys : List Char), (∀ c ∈ xs, is_numeric c = true) →
      decimal_value acc (xs ++ ys) = decimal_value (decimal_value acc xs) ys := by
  induction xs with
  | nil =>
    intro acc ys _
    rfl
  | cons x xs ih =>
    intro acc ys h
    have hx := h x (by simp)
    simp only [List.cons_append, decimal_value, hx, if_true]
    exact ih _ _ (fun c hc => h c (by simp [hc]))

theorem toDigitsCore_spec (fuel : Nat) :
    ∀ n : Nat, n < fuel →
      (∀ c ∈ Nat.toDigitsCore 10 fuel n [], is_numeric c = true) ∧
      Nat.toDigitsCore 10 fuel n [] ≠ [] ∧
      decimal_value 0 (Nat.toDigitsCore 10 fuel n []) = n := by
  induction fuel with
  | zero =>
    intro n h
    omega
  | succ fuel ih =>
    intro n hn
    unfold Nat.toDigitsCore
    have hd := digitChar_numeric (n % 10) (Nat.mod_lt _ (by decide))
    by_cases h : n / 10 = 0
    · simp only [h, if_true]
      have hlt : n < 10 := by omega
      have hmod : n % 10 = n := Nat.mod_eq_of_lt hlt
      rw [hmod] at hd ⊢
      refine ⟨?_, by simp, ?_⟩
      · intro c hc
        simp only [List.mem_singleton] at hc
        rw [hc]
        exact hd.1
      · simp only [decimal_value, hd.1, if_true, hd.2]
        omega
    · simp only [h, if_false]
      rw [toDigitsCore_append]
      obtain ⟨h1, h2, h3⟩ := ih (n / 10) (by omega)
      refine ⟨?_, by simp, ?_⟩
      · intro c hc
        simp only [List.mem_append, List.mem_singleton] at hc
        rcases hc with hc | hc
        · exact h1 c hc
        · rw [hc]
          exact hd.1
      · rw [decimal_value_append _ _ _ h1, h3]
        simp only [decimal_value, hd.1, if_true, hd.2]
        omega

/-- `"%u"` and `atoi` agree: the characters `Nat.repr` prints are decimal
digits, there is at least one, and their value is the number printed. -/
theorem repr_spec (x : Nat) :
    (∀ c ∈ (Nat.repr x).toList, is_numeric c = true) ∧
    (Nat.repr x).toList ≠ [] ∧
    decimal_value 0 (Nat.repr x).toList = x := by
  have h : (Nat.repr x).toList = Nat.toDigitsCore 10 (x + 1) x [] := rfl
  rw [h]
  exact toDigitsCore_spec (x + 1) x (by omega)

theorem to_unsigned_atoi {s : List Char} (h : decimal_value 0 s < CPUID_MOD) :
    to_unsigned (atoi s) = decimal_value 0 s := by
  unfold to_unsigned atoi strtol
  simp only [CPUID_MOD, LONG_MAX] at *
  have h1 : min (decimal_value 0 s) (2 ^ 63 - 1) = decimal_value 0 s := by
    apply Nat.min_eq_left
    omega
  rw [h1, Nat.mod_eq_of_lt h]
  split
  · omega
  · omega

theorem insert_cpu_repr {n x : Nat} (CPUs : List Nat) (hx : x < n) (hmod : x < CPUID_MOD) :
    insert_cpu n (Nat.repr x).toList CPUs = .ok (x, CPUs ++ [x]) := by
  obtain ⟨-, h2, h3⟩ := repr_spec x
  have h4 : to_unsigned (atoi (Nat.repr x).toList) = x := by
    rw [to_unsigned_atoi (by rw [h3]; exact hmod), h3]
  unfold insert_cpu
  have h5 : (Nat.repr x).toList.length ≠ 0 := by
    intro h
    exact h2 (List.length_eq_zero.mp h)
  simp only [h5, if_false, h4]
  have h6 : ¬ x ≥ n := by omega
  simp only [h6, if_false]

/-- Decimal digits are collected into `cpu_string`; the state `NONE` is left
for `IN_VALUE` at the first one. -/
theorem parse_chars_digits (n : Nat) (ds : List Char) :
    ∀ v : parse_vars, v.state ≠ .NONE → (∀ c ∈ ds, is_numeric c = true) →
      parse_chars n v ds =
        .ok { v with numeric := if ds = [] then v.numeric else true,
                     cpu_string := v.cpu_string ++ ds } := by
  induction ds with
  | nil =>
    intro v _ _
    simp [parse_chars]
  | cons d ds ih =>
    intro v hs h
    have hd := h d (by simp)
    have hstep : parse_step n v d =
        .ok { v with numeric := true, cpu_string := v.cpu_string ++ [d] } := by
      unfold parse_step
      cases hst : v.state with
      | NONE => exact absurd hst hs
      | IN_VALUE => simp [hd]
      | IN_RANGE => simp [hd]
    simp only [parse_chars, hstep]
    rw [ih { v with numeric := true, cpu_string := v.cpu_string ++ [d] } hs
      (fun c hc => h c (by simp [hc]))]
    by_cases hds : ds = [] <;> simp [hds]

theorem parse_chars_digits_none (n : Nat) (d : Char) (ds : List Char) (v : parse_vars)
    (hs : v.state = .NONE) (h : ∀ c ∈ d :: ds, is_numeric c = true) :
    parse_chars n v (d :: ds) =
      .ok { v with numeric := true, cpu_string := v.cpu_string ++ d :: ds,
                   state := .IN_VALUE } := by
  have hd := h d (by simp)
  have hstep : parse_step n v d =
      .ok { v with numeric := true, cpu_string := v.cpu_string ++ [d], state := .IN_VALUE } := by
    unfold parse_step
    simp [hs, hd]
  simp only [parse_chars, hstep]
  rw [parse_chars_digits n ds
    { v with numeric := true, cpu_string := v.cpu_string ++ [d], state := .IN_VALUE } (by simp)
    (fun c hc => h c (by simp [hc]))]
  by_cases hds : ds = [] <;> simp [hds]

theorem parse_chars_repr_none (n x : Nat) (v : parse_vars) (hs : v.state = .NONE)
    (hcs : v.cpu_string = []) :
    parse_chars n v (Nat.repr x).toList =
      .ok { v with numeric := true, cpu_string := (Nat.repr x).toList, state := .IN_VALUE } := by
  obtain ⟨h1, h2, -⟩ := repr_spec x
  cases hl : (Nat.repr x).toList with
  | nil => exact absurd hl h2
  | cons d ds =>
    rw [hl] at h1
    rw [parse_chars_digits_none n d ds v hs h1, hcs]
    simp

/-! ## A descending range -/

theorem serialise_singleton (x : Nat) : serialise [x] = Nat.repr x := by
  simp [serialise, digits, List.range_succ]

/-- C27. With `b < a < number_cpus_` (a `cpuid_t`, so below `2 ^ 32`) the list
that `"%u-%u"` prints for `a` and `b` is accepted, the resulting `CPUs_` is
`[a]` and the string stored is the decimal numeral of `a`. -/
theorem parse_cpulist_descending_range (n a b : Nat) (hba : b < a) (han : a < n)
    (hn : n ≤ CPUID_MOD) :
    parse_cpulist n (Nat.repr a ++ "-" ++ Nat.repr b) = .ok ([a], Nat.repr a) := by
  have hl : (Nat.repr a ++ "-" ++ Nat.repr b).toList =
      (Nat.repr a).toList ++ '-' :: (Nat.repr b).toList := by
    simp [String.toList]
  obtain ⟨hb1, hb2, hb3⟩ := repr_spec b
  have hbn : b < n := by omega
  have hins := insert_cpu_repr (n := n) [] han (by omega)
  have hval : to_unsigned (atoi (Nat.repr b).toList) = b := by
    rw [to_unsigned_atoi (by rw [hb3]; omega), hb3]
  unfold parse_cpulist
  rw [hl, parse_chars_append, parse_chars_repr_none n a parse_init rfl rfl]
  have hstep : parse_step n
      { parse_init with numeric := true, cpu_string := (Nat.repr a).toList, state := .IN_VALUE }
      '-' = .ok { cpu := a, cpu_string := [], numeric := false, state := .IN_RANGE,
                  CPUs := [a] } := by
    unfold parse_step
    have hnum : is_numeric '-' = false := by decide
    simp only [hnum]
    have h1 : parse_init.CPUs = [] := rfl
    simp only [h1, hins]
    simp
  simp only [parse_chars, hstep]
  rw [parse_chars_digits n (Nat.repr b).toList
    { cpu := a, cpu_string := [], numeric := false, state := .IN_RANGE, CPUs := [a] }
    (by simp) hb1]
  simp only [hb2, if_false, List.nil_append]
  unfold parse_finish
  have hbad : bad_cpu n b = false := by
    unfold bad_cpu
    simpa using hbn
  have hempty : b + 1 - (a + 1) = 0 := by omega
  simp only [hval, hbad, push_range, hempty]
  simp [serialise_singleton]

/-- On 8 CPUs `"5-2"` gives `[5]`. -/
theorem parse_cpulist_descending_range_witness :
    2 < 5 ∧ 5 < 8 ∧ 8 ≤ CPUID_MOD ∧
    parse_cpulist 8 (Nat.repr 5 ++ "-" ++ Nat.repr 2) = .ok ([5], Nat.repr 5) :=
  ⟨by decide, by decide, by decide,
   parse_cpulist_descending_range 8 5 2 (by decide) (by decide) (by decide)⟩

/-! ## Parsing the serialised list again -/

theorem to_unsigned_lt (i : Int) : to_unsigned i < CPUID_MOD := by
  unfold to_unsigned
  simp only [CPUID_MOD]
  omega

theorem insert_cpu_ok_inv {n : Nat} {s : List Char} {CPUs CPUs1 : List Nat} {cpu : Nat}
    (h : insert_cpu n s CPUs = .ok (cpu, CPUs1)) :
    cpu < n ∧ cpu < CPUID_MOD ∧ CPUs1 = CPUs ++ [cpu] := by
  unfold insert_cpu at h
  split at h
  · cases h
  · dsimp only at h
    split at h
    · cases h
    · rename_i hlt
      injection h with h
      injection h with h1 h2
      subst h1 h2
      exact ⟨by omega, to_unsigned_lt _, rfl⟩

theorem mem_push_range {low_cpu cpu x : Nat} {CPUs : List Nat}
    (h : x ∈ push_range low_cpu cpu CPUs) : x ∈ CPUs ∨ x ≤ cpu := by
  unfold push_range at h
  simp only [List.mem_append, List.mem_range'_1] at h
  rcases h with h | h
  · exact Or.inl h
  · right
    omega

/-- What holds of the loop variables throughout: every CPU collected is below
`number_cpus_` and is a `cpuid_t`, and inside a range the lower bound has been
collected. -/
theorem parse_step_bounds {n : Nat} {v v1 : parse_vars} {c : Char}
    (h : parse_step n v c = .ok v1)
    (hb : ∀ x ∈ v.CPUs, x < n ∧ x < CPUID_MOD)
    (hr : v.state = .IN_RANGE → v.CPUs ≠ []) :
    (∀ x ∈ v1.CPUs, x < n ∧ x < CPUID_MOD) ∧ (v1.state = .IN_RANGE → v1.CPUs ≠ []) := by
  unfold parse_step at h
  dsimp only at h
  split at h
  · -- IN_VALUE
    rename_i hst
    split at h
    · injection h with h
      subst h
      exact ⟨hb, fun h2 => by simp [hst] at h2⟩
    · split at h
      · split at h
        · cases h
        · rename_i cpu CPUs hins
          obtain ⟨h1, h2, h3⟩ := insert_cpu_ok_inv hins
          injection h with h
          subst h h3
          refine ⟨?_, fun _ => by simp⟩
          intro x hx
          simp only [List.mem_append, List.mem_singleton] at hx
          rcases hx with hx | hx
          · exact hb x hx
          · subst hx
            exact ⟨h1, h2⟩
      · split at h
        · split at h
          · cases h
          · rename_i cpu CPUs hins
            obtain ⟨h1, h2, h3⟩ := insert_cpu_ok_inv hins
            injection h with h
            subst h h3
            refine ⟨?_, fun h4 => by simp at h4⟩
            intro x hx
            simp only [List.mem_append, List.mem_singleton] at hx
            rcases hx with hx | hx
            · exact hb x hx
            · subst hx
              exact ⟨h1, h2⟩
        · cases h
  · -- IN_RANGE
    rename_i hst
    split at h
    · injection h with h
      subst h
      exact ⟨hb, fun _ => hr hst⟩
    · split at h
      · split at h
        · cases h
        · split at h
          · cases h
          · rename_i hbad
            injection h with h
            subst h
            refine ⟨?_, fun h4 => by simp at h4⟩
            intro x hx
            have hlt : to_unsigned (atoi v.cpu_string) < n := by
              simpa [bad_cpu] using hbad
            rcases mem_push_range hx with hx | hx
            · exact hb x hx
            · have := to_unsigned_lt (atoi v.cpu_string)
              exact ⟨by omega, by omega⟩
      · cases h
  · -- NONE
    split at h
    · injection h with h
      subst h
      exact ⟨hb, fun h4 => by simp at h4⟩
    · cases h

theorem parse_chars_bounds {n : Nat} (s : List Char) :
    ∀ {v v1 : parse_vars}, parse_chars n v s = .ok v1 →
      (∀ x ∈ v.CPUs, x < n ∧ x < CPUID_MOD) → (v.state = .IN_RANGE → v.CPUs ≠ []) →
      (∀ x ∈ v1.CPUs, x < n ∧ x < CPUID_MOD) ∧ (v1.state = .IN_RANGE → v1.CPUs ≠ []) := by
  induction s with
  | nil =>
    intro v v1 h hb hr
    simp only [parse_chars] at h
    injection h with h
    subst h
    exact ⟨hb, hr⟩
  | cons c cs ih =>
    intro v v1 h hb hr
    obtain ⟨v2, hstep, hrest⟩ := parse_chars_cons_ok h
    obtain ⟨hb2, hr2⟩ := parse_step_bounds hstep hb hr
    exact ih hrest hb2 hr2

theorem parse_finish_bounds {n : Nat} {v : parse_vars} {CPUs : List Nat}
    (h : parse_finish n v = .ok CPUs)
    (hb : ∀ x ∈ v.CPUs, x < n ∧ x < CPUID_MOD)
    (hr : v.state = .IN_RANGE → v.CPUs ≠ []) :
    (∀ x ∈ CPUs, x < n ∧ x < CPUID_MOD) ∧ CPUs ≠ [] := by
  unfold parse_finish at h
  split at h
  · split at h
    · cases h
    · rename_i cpu CPUs1 hins
      obtain ⟨h1, h2, h3⟩ := insert_cpu_ok_inv hins
      injection h with h
      subst h h3
      refine ⟨?_, by simp⟩
      intro x hx
      simp only [List.mem_append, List.mem_singleton] at hx
      rcases hx with hx | hx
      · exact hb x hx
      · subst hx
        exact ⟨h1, h2⟩
  · rename_i hst
    split at h
    · dsimp only at h
      split at h
      · cases h
      · rename_i hbad
        injection h with h
        subst h
        have hlt : to_unsigned (atoi v.cpu_string) < n := by
          simpa [bad_cpu] using hbad
        refine ⟨?_, ?_⟩
        · intro x hx
          rcases mem_push_range hx with hx | hx
          · exact hb x hx
          · have := to_unsigned_lt (atoi v.cpu_string)
            exact ⟨by omega, by omega⟩
        · unfold push_range
          intro h5
          exact hr hst (List.append_eq_nil.mp h5).1
    · cases h
  · cases h

theorem parse_cpulist_bounds {n : Nat} {cpus : String} {CPUs : List Nat} {cpulist : String}
    (h : parse_cpulist n cpus = .ok (CPUs, cpulist)) :
    (∀ x ∈ CPUs, x < n ∧ x < CPUID_MOD) ∧ CPUs ≠ [] := by
  unfold parse_cpulist at h
  split at h
  · cases h
  · rename_i v hv
    split at h
    · cases h
    · rename_i CPUs1 hfin
      injection h with h
      injection h with h1 h2
      subst h1
      have h3 := parse_chars_bounds cpus.toList hv (by simp [parse_init]) (by simp [parse_init])
      exact parse_finish_bounds hfin h3.1 h3.2

theorem intercalate_go_acc (s : String) (l : List String) :
    ∀ acc : String, String.intercalate.go acc s l = acc ++ String.intercalate.go "" s l := by
  induction l with
  | nil =>
    intro acc
    simp [String.intercalate.go]
  | cons a as ih =>
    intro acc
    simp only [String.intercalate.go]
    rw [ih (acc ++ s ++ a), ih ("" ++ s ++ a)]
    simp [String.append_assoc]

theorem serialise_cons_cons (x y : Nat) (l : List Nat) :
    serialise (x :: y :: l) = Nat.repr x ++ "," ++ serialise (y :: l) := by
  simp only [serialise_eq_intercalate, List.map_cons, String.intercalate]
  rw [intercalate_go_acc, intercalate_go_acc "," _ (Nat.repr y)]
  simp only [String.intercalate.go]
  rw [intercalate_go_acc "," _ ("" ++ "," ++ Nat.repr y)]
  simp [String.append_assoc]

/-- The serialised list is read back element by element. -/
theorem parse_serialised (n : Nat) (ids : List Nat) :
    ∀ v : parse_vars, ids ≠ [] → (∀ x ∈ ids, x < n ∧ x < CPUID_MOD) →
      v.state = .NONE → v.cpu_string = [] →
      ∃ v1, parse_chars n v (serialise ids).toList = .ok v1 ∧
        parse_finish n v1 = .ok (v.CPUs ++ ids) := by
  induction ids with
  | nil =>
    intro v h
    exact absurd rfl h
  | cons x l ih =>
    intro v _ hb hs hcs
    obtain ⟨hx1, hx2⟩ := hb x (by simp)
    cases l with
    | nil =>
      rw [serialise_singleton, parse_chars_repr_none n x v hs hcs]
      refine ⟨_, rfl, ?_⟩
      unfold parse_finish
      simp only [insert_cpu_repr v.CPUs hx1 hx2]
    | cons y l =>
      have hl : (serialise (x :: y :: l)).toList =
          (Nat.repr x).toList ++ ',' :: (serialise (y :: l)).toList := by
        rw [serialise_cons_cons]
        simp [String.toList]
      have hstep : parse_step n
          { v with numeric := true, cpu_string := (Nat.repr x).toList, state := .IN_VALUE }
          ',' = .ok { cpu := x, cpu_string := [], numeric := false, state := .NONE,
                      CPUs := v.CPUs ++ [x] } := by
        unfold parse_step
        have hnum : is_numeric ',' = false := by decide
        simp only [hnum, insert_cpu_repr v.CPUs hx1 hx2]
        simp
      obtain ⟨v1, h1, h2⟩ := ih
        { cpu := x, cpu_string := [], numeric := false, state := .NONE, CPUs := v.CPUs ++ [x] }
        (by simp) (fun z hz => hb z (by simp [hz])) rfl rfl
      refine ⟨v1, ?_, ?_⟩
      · rw [hl, parse_chars_append, parse_chars_repr_none n x v hs hcs]
        simp only [parse_chars, hstep]
        exact h1
      · rw [h2]
        simp

/-- C29. When a CPU list parses, with `CPUs_` and the stored string as result,
the stored string parses as well, to the same `CPUs_` (order and repetitions
included) and the same stored string. -/
theorem parse_cpulist_canonical_idempotent (n : Nat) (s : String) (ids : List Nat) (c : String)
    (h : parse_cpulist n s = .ok (ids, c)) :
    parse_cpulist n c = .ok (ids, c) := by
  obtain ⟨hb, hne⟩ := parse_cpulist_bounds h
  have hc := parse_cpulist_snd h
  subst hc
  obtain ⟨v1, h1, h2⟩ := parse_serialised n ids parse_init hne hb rfl rfl
  unfold parse_cpulist
  rw [h1]
  simp only [h2]
  simp [parse_init]

/-- On 8 CPUs `"4,1-2,4"` is stored as `"4,1,1,2,4"`, which parses to the same
list. -/
theorem parse_cpulist_canonical_idempotent_witness :
    parse_cpulist 8 "4,1-2,4" = .ok ([4, 1, 1, 2, 4], "4,1,1,2,4") ∧
    parse_cpulist 8 "4,1,1,2,4" = .ok ([4, 1, 1, 2, 4], "4,1,1,2,4") :=
  ⟨rfl, parse_cpulist_canonical_idempotent 8 "4,1-2,4" [4, 1, 1, 2, 4] "4,1,1,2,4" rfl⟩

/-! ## Pointers to destroyed nodes -/

/-- C8. In the state reached by `new_set` of `"A"`, `new_set` of `"B"` under
`"A"` and `remove_set` of `"A"`, the name `"B"` is still in the map and `"C"`
is not, but the node stored under `"B"` was destroyed together with `"A"`. A
`new_set` of `"C"` under `"B"` with a list that parses reads the path of the
destroyed parent: it has no defined result, whatever the calls answer, and in
particular does not return on the machine where every call succeeds. -/
theorem new_set_under_destroyed_parent :
    Reachable env_ok (manager_A_removed, world_A_removed) ∧
    map_find manager_A_removed.set_map_ "C" = none ∧
    map_find manager_A_removed.set_map_ "B" = some 2 ∧
    world_A_removed.deref 2 = none ∧
    parse_cpulist world_A_removed.number_cpus_ "1" = .ok ([1], "1") ∧
    new_set env_ok manager_A_removed world_A_removed "C" "1" "B" true true true false =
      .undefined ∧
    ∀ env : Env,
      new_set env manager_A_removed world_A_removed "C" "1" "B" true true true false =
        .undefined :=
  ⟨⟨0, manager_root, world_root,
      [.new_set "A" "2-5" "root" true false true false,
       .new_set "B" "1" "A" true true true false, .remove_set "A"], rfl, rfl⟩,
   rfl, rfl, rfl, rfl, rfl, fun _ => rfl⟩

/-- C12. In the state reached by `new_set` of `"A"`, `new_set` of `"B"` under
`"A"` and `remove_set` of `"B"`, the `rmdir` of `"B"` has been issued and
`"B"` is destroyed, but `"A"` still lists it in `children_`. Destroying `"A"`
by `remove_set`, or the root by the destructor of the manager, deletes the
address of `"B"` a second time: neither has a defined result, so the removals
of the subtree are not issued. -/
theorem delete_reaches_destroyed_child :
    Reachable env_ok (manager_B_gone, world_B_gone) ∧
    remove_set env_ok manager_AB world_AB "B" = .ok manager_B_gone world_B_gone ∧
    Op.rmdir "/dev/cpuset/A/B/" ∈ world_B_gone.trace ∧
    world_B_gone.deref 2 = none ∧
    (world_B_gone.deref 1).map (·.children_) = some [2] ∧
    delete_cpuset env_ok 1 world_B_gone = none ∧
    remove_set env_ok manager_B_gone world_B_gone "A" = .undefined ∧
    cpuset_manager_delete env_ok manager_B_gone world_B_gone = none :=
  ⟨⟨0, manager_root, world_root,
      [.new_set "A" "2-5" "root" true false true false,
       .new_set "B" "1" "A" true true true false, .remove_set "B"], rfl, rfl⟩,
   rfl, by decide, rfl, rfl, rfl, rfl, rfl⟩

/-- C13. In the state reached by `new_set` of `"A"` and `remove_set` of `"A"`
the destructor of the root does not complete normally: whatever the `chdir`,
`rmdir` and `umount` calls answer, `delete` of the root goes to the address of
the destroyed `"A"`, still in the root's `children_`, before it issues any
call, and has no defined result. -/
theorem root_delete_never_completes :
    Reachable env_ok (manager_root, world_A_gone) ∧
    (world_A_gone.deref 0).map (·.children_) = some [1] ∧
    world_A_gone.deref 1 = none ∧
    (∀ env : Env, delete_cpuset env 0 world_A_gone = none) ∧
    (∀ env : Env, cpuset_manager_delete env manager_root world_A_gone = none) ∧
    cpuset_manager_delete env_teardown_fails manager_root world_A_gone = none :=
  ⟨⟨0, manager_root, world_root,
      [.new_set "A" "2-5" "root" true false true false, .remove_set "A"], rfl, rfl⟩,
   rfl, rfl, fun _ => rfl, fun _ => rfl, rfl⟩

end Cpuset
